import Mathlib

/-!
# WeGem Learning: the DeepSeek service (`ai-service.js`)

A shallow embedding of the request orchestration and the response parsers of
`class DeepSeekService`, followed by theorems about them.

Conventions of the embedding.

* A JavaScript string is a `List Char` (`Str`).  The operations used by the
  service (`split`, `trim`, `includes`, `startsWith`, anchored `replace`,
  regular expressions over ASCII tags) compare characters only with ASCII
  literals, so a list of Unicode scalars behaves like the list of UTF-16 code
  units.
* The value `undefined` of a field that may be absent is `none`.
* A JavaScript number produced by `parseInt` is a `JsNumber`: `NaN`, an
  infinity, or a double whose value is an integer, kept as its sign and its
  magnitude.  The integer written by the digits is rounded to the nearest
  double (`numberValue`): it is kept as it is below `2 ^ 53`, loses its low
  bits above, and becomes `Infinity` from `2 ^ 1024 - 2 ^ 970` on.
* `fetch` is a function from the request to its outcome; the wall-clock
  `timestamp` field of a result is left out.
-/

namespace WeGem

/-- A JavaScript string as its sequence of characters. -/
abbrev Str := List Char

/-! ## String primitives of the host language -/

/-- The characters matched by `\s` and removed by `trim()`:
`WhiteSpace` and `LineTerminator` of ECMAScript. -/
def isJsSpace (c : Char) : Bool :=
  let n := c.toNat
  (9 ≤ n && n ≤ 13) || n == 32 || n == 0xA0 || n == 0x1680 ||
  (0x2000 ≤ n && n ≤ 0x200A) || n == 0x2028 || n == 0x2029 ||
  n == 0x202F || n == 0x205F || n == 0x3000 || n == 0xFEFF

/-- The characters matched by `\d` (no `u`/`i` flag): `0`..`9`. -/
def isDigit (c : Char) : Bool :=
  48 ≤ c.toNat && c.toNat ≤ 57

/-- The method `s.trimStart()`. -/
def trimStart (s : Str) : Str :=
  s.dropWhile isJsSpace

/-- The method `s.trimEnd()`. -/
def trimEnd (s : Str) : Str :=
  (s.reverse.dropWhile isJsSpace).reverse

/-- The method `s.trim()`. -/
def trim (s : Str) : Str :=
  trimEnd (trimStart s)

/-- The method `s.startsWith(p)`. -/
def startsWith (s p : Str) : Bool :=
  p.isPrefixOf s

/-- The method `s.includes(p)`: some suffix of `s` starts with `p`. -/
def includes : Str → Str → Bool
  | [], p => p.isEmpty
  | c :: cs, p => startsWith (c :: cs) p || includes cs p

/-- Worker of `split`: `skip` characters of a separator just found are still
to be passed over, `acc` is the current piece, reversed. -/
def splitGo (sep : Str) : Str → Nat → Str → List Str
  | [], _, acc => [acc.reverse]
  | _ :: cs, skip + 1, acc => splitGo sep cs skip acc
  | c :: cs, 0, acc =>
    if startsWith (c :: cs) sep then
      acc.reverse :: splitGo sep cs (sep.length - 1) []
    else
      splitGo sep cs 0 (c :: acc)

/-- The method `s.split(sep)` for a non-empty separator: the pieces between the
successive non-overlapping occurrences of `sep`, found from the left. -/
def split (s sep : Str) : List Str :=
  splitGo sep s 0 []

/-- Truthiness of a string: it is not empty. -/
def truthy (s : Str) : Bool :=
  !s.isEmpty

/-- The expression `a || b` on strings. -/
def orElse (a b : Str) : Str :=
  if truthy a then a else b

/-- The call `line.replace(/^T\d+:?\s*/, '')` for a tag letter `T`: when the line
starts with the letter and at least one digit, the letter, the digits, an
optional colon and the white space after them are removed.  Every quantifier
is greedy and nothing follows them, so the first match is the longest. -/
def stripTag (tag : Char) (line : Str) : Str :=
  match line with
  | [] => line
  | c :: rest =>
    if c = tag ∧ (rest.takeWhile isDigit) ≠ [] then
      let afterDigits := rest.dropWhile isDigit
      let afterColon :=
        match afterDigits with
        | ':' :: r => r
        | r => r
      afterColon.dropWhile isJsSpace
    else line

/-- One character of `toLowerCase()`.  Apart from the ASCII capitals, the
only characters whose lower case contains an ASCII letter are U+0130
(`i` followed by U+0307) and the Kelvin sign U+212A (`k`); every other
character is mapped by the host to non-ASCII characters, which no search for
an ASCII word can tell apart, and is kept as it is. -/
def lowerChar (c : Char) : Str :=
  if c.toNat = 0x130 then ['i', Char.ofNat 0x307]
  else if c.toNat = 0x212A then ['k']
  else [c.toLower]

/-- The method `s.toLowerCase()`, as far as ASCII letters are concerned. -/
def toLowerCase (s : Str) : Str :=
  s.flatMap lowerChar

/-! ## The quiz extractor -/

/-- A parsed quiz question. -/
structure QuizQuestion where
  id : Nat
  question : Str
  answer : Str
  explanation : Str
  hasDiagram : Bool
deriving DecidableEq, Repr

/-- The three variables `question`, `answer`, `explanation` of one block. -/
structure QuizFields where
  question : Str
  answer : Str
  explanation : Str
deriving DecidableEq, Repr

/-- The body of `lines.forEach(line => ...)`. -/
def quizLine (f : QuizFields) (line : Str) : QuizFields :=
  if startsWith line "Q".toList || includes line "?".toList then
    { f with question := trim (stripTag 'Q' line) }
  else if startsWith line "A".toList then
    { f with answer := trim (stripTag 'A' line) }
  else if startsWith line "E".toList then
    { f with explanation := trim (stripTag 'E' line) }
  else f

/-- The lines of a block: `block.split('\n').filter(line => line.trim())`. -/
def quizLines (block : Str) : List Str :=
  (split block "\n".toList).filter (fun line => truthy (trim line))

/-- The fields of a block after its lines have been scanned. -/
def quizFields (block : Str) : QuizFields :=
  (quizLines block).foldl quizLine ⟨[], [], []⟩

/-- The question pushed for the block at position `index`, if any. -/
def quizBlock (block : Str) (index : Nat) : Option QuizQuestion :=
  let f := quizFields block
  if truthy f.question then
    some {
      id := index + 1
      question := f.question
      answer := orElse f.answer "Check with teacher".toList
      explanation := orElse f.explanation "No explanation provided".toList
      hasDiagram := includes (toLowerCase f.question) "diagram".toList ||
                    includes (toLowerCase f.question) "draw".toList }
  else none

/-- The blocks: `response.split('---').filter(block => block.trim())`. -/
def quizBlocks (response : Str) : List Str :=
  (split response "---".toList).filter (fun block => truthy (trim block))

/-- The loop `blocks.forEach((block, index) => ...)`, from position `index`
on, pushing onto `questions`. -/
def quizLoop : List Str → Nat → List QuizQuestion → List QuizQuestion
  | [], _, questions => questions
  | block :: rest, index, questions =>
    match quizBlock block index with
    | some q => quizLoop rest (index + 1) (questions ++ [q])
    | none => quizLoop rest (index + 1) questions

/-- The question returned when nothing was parsed. -/
def placeholderQuestion : QuizQuestion :=
  { id := 1
    question := "What would you like to know about this topic?".toList
    answer := "Ask your teacher for details".toList
    explanation := "AI response parsing failed".toList
    hasDiagram := false }

/-- The method `parseQuizResponse(response)`. -/
def parseQuizResponse (response : Str) : List QuizQuestion :=
  let questions := quizLoop (quizBlocks response) 0 []
  if questions.length > 0 then questions else [placeholderQuestion]


/-! ## Numbers of the host language and `parseInt` -/

/-- The Number values that `parseInt` can return: `NaN`, an infinity, or a
double whose value is an integer, given by its sign and its magnitude
(`integer true 0` is `-0`). -/
inductive JsNumber where
  | nan
  | infinity (negative : Bool)
  | integer (negative : Bool) (magnitude : Nat)
deriving DecidableEq, Repr

/-- Worker of `bitLength`: `fuel` bounds the number of halvings. -/
def bitLengthGo : Nat → Nat → Nat
  | 0, _ => 0
  | fuel + 1, n => if n = 0 then 0 else bitLengthGo fuel (n / 2) + 1

/-- The number of binary digits of `n` (`0` for `0`). -/
def bitLength (n : Nat) : Nat :=
  bitLengthGo n n

/-- The magnitude `n` rounded to a significand of 53 binary digits, to the
nearest and a tie to the even significand: the `e = bitLength n - 53` low
digits of `n` are rounded away, `q` is the significand rounded down and `r`
the part of `n` below it. -/
def roundToSignificand (n : Nat) : Nat :=
  let e := bitLength n - 53
  let q := n / 2 ^ e
  let r := n % 2 ^ e
  if 2 ^ e < 2 * r ∨ (2 * r = 2 ^ e ∧ q % 2 = 1) then (q + 1) * 2 ^ e else q * 2 ^ e

/-- The Number value of the integer of magnitude `n` with the given sign: the
nearest double, and an infinity when the rounded magnitude reaches
`2 ^ 1024`, that is, has more than 1024 binary digits.  An integer is never
rounded to a subnormal or to a fraction, so these are all the cases. -/
def numberValue (negative : Bool) (n : Nat) : JsNumber :=
  if 1024 < bitLength (roundToSignificand n) then .infinity negative
  else .integer negative (roundToSignificand n)

/-- The value of a character as a digit of the given radix. -/
def digitValue (radix : Nat) (c : Char) : Option Nat :=
  let n := c.toNat
  let v : Option Nat :=
    if 48 ≤ n ∧ n ≤ 57 then some (n - 48)
    else if 97 ≤ n ∧ n ≤ 122 then some (n - 87)
    else if 65 ≤ n ∧ n ≤ 90 then some (n - 55)
    else none
  v.filter (fun d => d < radix)

/-- The number written by a list of digits of the given radix. -/
def digitsValue (radix : Nat) (ds : Str) : Nat :=
  ds.foldl (fun acc c => acc * radix + (digitValue radix c).getD 0) 0

/-- The sign step of `parseInt`: a leading `-` or `+` is removed. -/
def stripSign (s : Str) : Bool × Str :=
  match s with
  | [] => (false, s)
  | c :: r => if c = '-' then (true, r) else if c = '+' then (false, r) else (false, s)

/-- The prefix step of `parseInt`: a leading `0x` or `0X` selects radix 16. -/
def stripHex (s : Str) : Nat × Str :=
  match s with
  | c :: d :: r => if c = '0' ∧ (d = 'x' ∨ d = 'X') then (16, r) else (10, s)
  | _ => (10, s)

/-- The function `parseInt(s)` without a radix: leading white space, an optional sign, an
optional `0x`/`0X`, then the longest run of digits `z`; the result is `NaN`
when `z` is empty and otherwise the Number value of the signed integer that
`z` writes.  The standard lets an engine replace the decimal digits after the
twentieth by zeros before the conversion; the number written is converted
here, as the engines in use do. -/
def parseInt (s : Str) : JsNumber :=
  let signed := stripSign (trimStart s)
  let based := stripHex signed.2
  let z := based.2.takeWhile (fun c => (digitValue based.1 c).isSome)
  if z.isEmpty then .nan
  else numberValue signed.1 (digitsValue based.1 z)

/-! ## The marking extractor -/

/-- The regular expression `\d+<lit>` tried at the start of `s`, returning the
digits: `\d+` is greedy, so a further digit is taken first and the literal is
tried after the current digit only when that fails. -/
def digitsThen (lit : Str) : Str → Option Str
  | [] => none
  | c :: cs =>
    if isDigit c then
      match digitsThen lit cs with
      | some ds => some (c :: ds)
      | none => if startsWith cs lit then some [c] else none
    else none

/-- Group 1 of `s.match(/(\d+)<lit>/)`: the leftmost position at which the
expression matches. -/
def matchDigitsThen (lit : Str) : Str → Option Str
  | [] => none
  | c :: cs =>
    match digitsThen lit (c :: cs) with
    | some ds => some ds
    | none => matchDigitsThen lit cs

/-- The call `s.replace(pat, '')` for a non-empty string pattern: the first occurrence
of `pat` is removed. -/
def removeFirst (pat : Str) : Str → Str
  | [] => []
  | c :: cs =>
    if startsWith (c :: cs) pat then (c :: cs).drop pat.length
    else c :: removeFirst pat cs

/-- The record built by `parseMarkingResponse`.  `feedback` and `improvement`
start as the empty array `[]`, which is `none` here, and become strings. -/
structure MarkingResult where
  totalScore : JsNumber
  percentage : JsNumber
  feedback : Option Str
  improvement : Option Str
  detailed : List Str
deriving DecidableEq, Repr

/-- The body of `lines.forEach(line => ...)` in `parseMarkingResponse`. -/
def markingLine (result : MarkingResult) (line : Str) : MarkingResult :=
  if includes line "TOTAL:".toList then
    match matchDigitsThen "/100".toList line with
    | some m => { result with totalScore := parseInt m }
    | none => result
  else if includes line "PERCENTAGE:".toList then
    match matchDigitsThen "%".toList line with
    | some m => { result with percentage := parseInt m }
    | none => result
  else if includes line "FEEDBACK:".toList then
    { result with feedback := some (trim (removeFirst "FEEDBACK:".toList line)) }
  else if includes line "IMPROVEMENT:".toList then
    { result with improvement := some (trim (removeFirst "IMPROVEMENT:".toList line)) }
  else result

/-- The initial `result` of `parseMarkingResponse`. -/
def markingInit : MarkingResult :=
  { totalScore := .integer false 0, percentage := .integer false 0, feedback := none,
    improvement := none, detailed := [] }

/-- The method `parseMarkingResponse(response)`. -/
def parseMarkingResponse (response : Str) : MarkingResult :=
  (split response "\n".toList).foldl markingLine markingInit

/-! ## The symposium extractor

The expression is
`/\[Q(\d+)\](.*?)\[A\d+\](.*?)(?:\[T\d+\](.*?))?(?:\[D\d+\](.*?))?(?=\[Q|$)/gs`.
Its backtracking search is written out: a lazy `(.*?)` takes the shortest
text after which the rest of the expression matches, an optional group is
tried present before absent. -/

/-- The tag `\[<letter>\d+\]` at the start of `s`: its digits and the text
after it. -/
def matchTag (letter : Char) (s : Str) : Option (Str × Str) :=
  match s with
  | '[' :: c :: rest =>
    if c = letter then
      match digitsThen "]".toList rest with
      | some ds => some (ds, rest.drop (ds.length + 1))
      | none => none
    else none
  | _ => none

/-- A lazy `(.*?)` (with the `s` flag, any character) followed by the rest
`k` of the expression: the captured text, collected reversed in `acc`, is the
shortest one after which `k` succeeds. -/
def lazyAny {α : Type} (k : Str → Option α) : Str → Str → Option (Str × α)
  | [], acc => (k []).map (fun r => (acc.reverse, r))
  | c :: cs, acc =>
    match k (c :: cs) with
    | some r => some (acc.reverse, r)
    | none => lazyAny k cs (c :: acc)

/-- The lookahead `(?=\[Q|$)`: what remains of the input is returned. -/
def lookEnd (s : Str) : Option Str :=
  if s.isEmpty || startsWith s "[Q".toList then some s else none

/-- The end `(?:\[D\d+\](.*?))?(?=\[Q|$)` of the expression: group 5 and the
input after the match. -/
def tailD (s : Str) : Option (Option Str × Str) :=
  match (matchTag 'D' s).bind (fun t => lazyAny lookEnd t.2 []) with
  | some (g5, rest) => some (some g5, rest)
  | none => (lookEnd s).map (fun rest => (none, rest))

/-- The end `(?:\[T\d+\](.*?))?(?:\[D\d+\](.*?))?(?=\[Q|$)` of the
expression: groups 4 and 5 and the input after the match. -/
def tailT (s : Str) : Option (Option Str × Option Str × Str) :=
  match (matchTag 'T' s).bind (fun t => lazyAny tailD t.2 []) with
  | some (g4, g5, rest) => some (some g4, g5, rest)
  | none => (tailD s).map (fun r => (none, r.1, r.2))

/-- A match of the expression: its five groups and the input after it. -/
structure SymMatch where
  g1 : Str
  g2 : Str
  g3 : Str
  g4 : Option Str
  g5 : Option Str
  rest : Str
deriving DecidableEq, Repr

/-- The whole expression tried at the start of `s`. -/
def matchAt (s : Str) : Option SymMatch :=
  (matchTag 'Q' s).bind fun q =>
    (lazyAny (fun s2 => (matchTag 'A' s2).bind fun a => lazyAny tailT a.2 []) q.2 []).map
      fun r => { g1 := q.1, g2 := r.1, g3 := r.2.1, g4 := r.2.2.1, g5 := r.2.2.2.1,
                 rest := r.2.2.2.2 }

/-- A symposium question. -/
structure SymposiumQuestion where
  id : JsNumber
  question : Str
  answer : Str
  timeLimit : JsNumber
  difficulty : Str
deriving DecidableEq, Repr

/-- The record pushed for a match. -/
def symRecord (m : SymMatch) : SymposiumQuestion :=
  { id := parseInt m.g1
    question := trim m.g2
    answer := trim m.g3
    timeLimit :=
      match m.g4 with
      | some t => if truthy t then parseInt t else .integer false 90
      | none => .integer false 90
    difficulty :=
      match m.g5 with
      | some d => if truthy d then trim d else "medium".toList
      | none => "medium".toList }

/-- The loop `while ((match = regex.exec(response)) !== null &&
questions.length < count)` over what is left of the input.  `exec` looks for
the leftmost match from `lastIndex` on and moves `lastIndex` behind it: `skip`
is the number of characters of the last match still to be passed over. -/
def symLoop (count : Nat) : Str → Nat → List SymposiumQuestion → List SymposiumQuestion
  | [], _, questions => questions
  | _ :: cs, skip + 1, questions => symLoop count cs skip questions
  | c :: cs, 0, questions =>
    match matchAt (c :: cs) with
    | some m =>
      if questions.length < count then
        symLoop count cs ((c :: cs).length - m.rest.length - 1) (questions ++ [symRecord m])
      else questions
    | none => symLoop count cs 0 questions

/-- The method `parseSymposiumQuestions(response, count)`; `count` is a number of
questions, a natural number. -/
def parseSymposiumQuestions (response : Str) (count : Nat) : List SymposiumQuestion :=
  symLoop count response 0 []

/-! ## The orchestrator: `callAI` -/

/-- The role of an entry of the conversation. -/
inductive Role
  | system
  | user
  | assistant
deriving DecidableEq, Repr

/-- An entry `{ role, content }`; the content is `none` when it is `undefined`. -/
structure Exchange where
  role : Role
  content : Option Str
deriving DecidableEq, Repr

/-- The request types of the data model.  `getLocalResponse` looks the type up
as a key of an object literal, so the type is kept to the documented values. -/
inductive MessageType
  | general
  | quiz
  | explanation
  | marking
  | symposium
  | question
deriving DecidableEq, Repr

/-- The text of a request type. -/
def MessageType.text : MessageType → Str
  | .general => "general".toList
  | .quiz => "quiz".toList
  | .explanation => "explanation".toList
  | .marking => "marking".toList
  | .symposium => "symposium".toList
  | .question => "question".toList

/-- The `options` argument of `callAI`; a field that is absent is `none`. -/
structure Options where
  messageType : Option MessageType
  subject : Option Str
  level : Option Str
  curriculum : Option Str
  generateQuestions : Option Nat
deriving DecidableEq, Repr

/-- The configuration `window.WEGEM_CONFIG.ai`, as far as `callAI` reads it. -/
structure Config where
  apiKey : Str
  model : Str
  baseURL : Str
  systemPrompt : Str
  maxTokens : Nat
  temperature : Rat
deriving DecidableEq

/-- Interpolation of a text that may be `undefined` in a template literal. -/
def interp (v : Option Str) : Str :=
  v.getD "undefined".toList

/-- The method `buildContextPrompt(userMessage, options)`. -/
def buildContextPrompt (userMessage : Str) (options : Options) : Str :=
  "[STUDENT LEVEL: ".toList ++ interp options.level ++ "] \n".toList ++
  "[SUBJECT: ".toList ++ interp options.subject ++ "]\n".toList ++
  "[CURRICULUM: ".toList ++ interp options.curriculum ++ "]\n".toList ++
  "[REQUEST TYPE: ".toList ++ interp (options.messageType.map MessageType.text) ++
  "]\n\nUser asks: \"".toList ++ userMessage ++
  "\"\n\nPlease respond as a dedicated Kenyan tutor.".toList

/-- The call `list.slice(-n)`: the last `n` entries. -/
def sliceLast {α : Type} (n : Nat) (l : List α) : List α :=
  l.drop (l.length - n)

/-- The method `updateHistory(role, content)` on the history `h`. -/
def updateHistory (h : List Exchange) (role : Role) (content : Option Str) : List Exchange :=
  let h1 := h ++ [{ role := role, content := content }]
  if h1.length > 10 then sliceLast 10 h1 else h1

/-- The method `getLocalResponse(userMessage, options)`: the table has the keys `quiz`,
`explanation` and `general`, and `general` stands in for every other type. -/
def getLocalResponse (userMessage : Str) (options : Options) : Str :=
  let pad := "\n            \n            ".toList
  match options.messageType with
  | some .quiz =>
    "I\x27d generate quiz questions about \"".toList ++ userMessage ++ "\" for ".toList ++
      interp options.level ++ " students.".toList ++ pad ++
      "(Connect to DeepSeek AI for actual quiz generation)".toList
  | some .explanation =>
    "This topic \"".toList ++ userMessage ++ "\" is important in Kenyan ".toList ++
      interp options.level ++ " curriculum.".toList ++ pad ++
      "(Enable DeepSeek AI for detailed explanations)".toList
  | _ =>
    "As WeGEM tutor, I understand your question about \"".toList ++ userMessage ++
      "\".".toList ++ pad ++
      "⚠️ Please add your DeepSeek API key to enable AI features.".toList

/-- The JSON body sent to the endpoint, with the URL and the key of the
`Authorization` header. -/
structure Request where
  url : Str
  bearer : Str
  model : Str
  messages : List Exchange
  maxTokens : Nat
  temperature : Rat
  stream : Bool
deriving DecidableEq

/-- The field `message` of a choice: `content` may be absent. -/
structure Message where
  content : Option Str
deriving DecidableEq, Repr

/-- An entry of `choices`: `message` may be absent. -/
structure Choice where
  message : Option Message
deriving DecidableEq, Repr

/-- The parsed JSON body of a response: `choices` and `usage.total_tokens`,
each of which may be absent. -/
structure Body where
  choices : Option (List Choice)
  totalTokens : Option Nat
deriving DecidableEq, Repr

/-- What `fetch` and `response.json()` come to: the request is rejected, or a
response with a status arrives, whose body is `none` when it is not JSON. -/
inductive FetchOutcome
  | rejected (message : Str)
  | response (status : Nat) (body : Option Body)
deriving DecidableEq, Repr

/-- The error caught by `callAI`, in place of its message text. -/
inductive CallError
  | transport (message : Str)
  | httpStatus (status : Nat)
  | notJson
  | typeError
deriving DecidableEq, Repr

/-- The result of `callAI`.  `message` is `none` when it is `undefined`;
`type` is the request type on success and `local_fallback` on failure. -/
structure CallResult where
  success : Bool
  message : Option Str
  type : Str
  tokensUsed : Option Nat
  provider : Option Str
  error : Option CallError
deriving DecidableEq, Repr

/-- The property `response.ok`: the status is in the range 200..299. -/
def statusOk (status : Nat) : Bool :=
  200 ≤ status && status ≤ 299

/-- The read `data.choices[0].message.content`: reading a property of `undefined`
throws a `TypeError`; an absent `content` is read as `undefined`. -/
def readContent (data : Body) : Except CallError (Option Str) :=
  match data.choices with
  | none => .error .typeError
  | some [] => .error .typeError
  | some (choice :: _) =>
    match choice.message with
    | none => .error .typeError
    | some m => .ok m.content

/-- The `try` block of `callAI` up to the reading of the reply. -/
def readReply (outcome : FetchOutcome) : Except CallError (Option Str × Body) :=
  match outcome with
  | .rejected msg => .error (.transport msg)
  | .response status body =>
    if !statusOk status then .error (.httpStatus status)
    else
      match body with
      | none => .error .notJson
      | some data =>
        match readContent data with
        | .error e => .error e
        | .ok aiResponse => .ok (aiResponse, data)

/-- The `messages` array prepared by `callAI`, paired with the conversation
history as it stands afterwards (`slice` copies, nothing is written). -/
def prepareMessages (config : Config) (history : List Exchange) (userMessage : Str)
    (options : Options) : List Exchange × List Exchange :=
  let subject := options.subject.getD "General".toList
  let level := options.level.getD "Form 3".toList
  let curriculum := options.curriculum.getD "8-4-4".toList
  let contextPrompt := buildContextPrompt userMessage options
  let messages :=
    [{ role := Role.system,
       content := some (config.systemPrompt ++ "\n\nCurrent Student: ".toList ++ level ++
         ", ".toList ++ curriculum ++ ", Subject: ".toList ++ subject) }] ++
    sliceLast 6 history ++
    [{ role := Role.user, content := some contextPrompt }]
  (messages, history)

/-- The request `callAI` passes to `fetch`. -/
def callRequest (config : Config) (history : List Exchange) (userMessage : Str)
    (options : Options) : Request :=
  { url := config.baseURL
    bearer := config.apiKey
    model := config.model
    messages := (prepareMessages config history userMessage options).1
    maxTokens := config.maxTokens
    temperature := config.temperature
    stream := false }

/-- The method `callAI(userMessage, options)` on the conversation history `history`:
the result and the history after the call. -/
def callAI (config : Config) (fetch : Request → FetchOutcome) (history : List Exchange)
    (userMessage : Str) (options : Options) : CallResult × List Exchange :=
  let messageType := options.messageType.getD MessageType.general
  let prepared := prepareMessages config history userMessage options
  let request := callRequest config history userMessage options
  match readReply (fetch request) with
  | .ok (aiResponse, data) =>
    let h1 := updateHistory prepared.2 Role.user (some userMessage)
    let h2 := updateHistory h1 Role.assistant aiResponse
    ({ success := true
       message := aiResponse
       type := messageType.text
       tokensUsed := some (data.totalTokens.getD 0)
       provider := some "deepseek".toList
       error := none }, h2)
  | .error e =>
    ({ success := false
       message := some (getLocalResponse userMessage options)
       type := "local_fallback".toList
       tokensUsed := none
       provider := none
       error := some e }, prepared.2)

/-! ## Auxiliary definitions for the statements -/

/-- A well-formed quiz block in the making: the digits of its number and the
texts of its question, answer and explanation. -/
structure QuizItem where
  num : Str
  q : Str
  a : Str
  e : Str
deriving DecidableEq, Repr

/-- The line `<t><num>: <x>` of a block. -/
def tagLine (t : Char) (num x : Str) : Str :=
  t :: (num ++ ':' :: ' ' :: x)

/-- The block of an item: the lines `Q<n>: q`, `A<n>: a` and `E<n>: e`. -/
def quizItemText (it : QuizItem) : Str :=
  "Q".toList ++ it.num ++ ": ".toList ++ it.q ++ "\nA".toList ++ it.num ++ ": ".toList ++
    it.a ++ "\nE".toList ++ it.num ++ ": ".toList ++ it.e

/-- The text of the items: their blocks, separated by a line `---`. -/
def quizText : List QuizItem → Str
  | [] => []
  | [it] => quizItemText it
  | it :: rest => quizItemText it ++ "\n---\n".toList ++ quizText rest

/-- The questions the items stand for, numbered from `index + 1`. -/
def expectedQuestions : List QuizItem → Nat → List QuizQuestion
  | [], _ => []
  | it :: rest, index =>
    { id := index + 1
      question := it.q
      answer := it.a
      explanation := it.e
      hasDiagram := includes (toLowerCase it.q) "diagram".toList ||
                    includes (toLowerCase it.q) "draw".toList } ::
    expectedQuestions rest (index + 1)

/-- A text that the extractor gives back as it is: not empty, without white
space at either end, on one line, and without the delimiter `---`. -/
def PlainField (x : Str) : Prop :=
  x ≠ [] ∧ trim x = x ∧ '\n' ∉ x ∧ includes x "---".toList = false

instance (x : Str) : Decidable (PlainField x) := by
  unfold PlainField
  infer_instance

/-- The number of an item is a run of digits, its three texts are plain, and
neither the answer nor the explanation contains a question mark. -/
def WellFormedItem (it : QuizItem) : Prop :=
  it.num ≠ [] ∧ (∀ c ∈ it.num, isDigit c = true) ∧
  PlainField it.q ∧ PlainField it.a ∧ PlainField it.e ∧ '?' ∉ it.a ∧ '?' ∉ it.e

instance (it : QuizItem) : Decidable (WellFormedItem it) := by
  unfold WellFormedItem
  infer_instance

/-- A well-formed symposium segment in the making: the digits of its four
tags and the texts after them. -/
structure SymSegment where
  qn : Str
  an : Str
  tn : Str
  dn : Str
  q : Str
  a : Str
  t : Str
  d : Str
deriving DecidableEq, Repr

/-- The segment `[Q<qn>]q[A<an>]a[T<tn>]t[D<dn>]d`. -/
def symSegmentText (s : SymSegment) : Str :=
  "[Q".toList ++ s.qn ++ "]".toList ++ s.q ++ "[A".toList ++ s.an ++ "]".toList ++ s.a ++
    "[T".toList ++ s.tn ++ "]".toList ++ s.t ++ "[D".toList ++ s.dn ++ "]".toList ++ s.d

/-- The text made of the segments, one after the other. -/
def symText : List SymSegment → Str
  | [] => []
  | s :: rest => symSegmentText s ++ symText rest

/-- The four tag numbers are runs of digits and no text contains a bracket
`[`; white space and line breaks around the texts are part of them. -/
def WellFormedSegment (s : SymSegment) : Prop :=
  (s.qn ≠ [] ∧ ∀ c ∈ s.qn, isDigit c = true) ∧ (s.an ≠ [] ∧ ∀ c ∈ s.an, isDigit c = true) ∧
  (s.tn ≠ [] ∧ ∀ c ∈ s.tn, isDigit c = true) ∧ (s.dn ≠ [] ∧ ∀ c ∈ s.dn, isDigit c = true) ∧
  '[' ∉ s.q ∧ '[' ∉ s.a ∧ '[' ∉ s.t ∧ '[' ∉ s.d

instance (s : SymSegment) : Decidable (WellFormedSegment s) := by
  unfold WellFormedSegment
  infer_instance

/-- What may follow a segment: the end of the text or the tag of a question. -/
def SegmentEnd (rest : Str) : Prop :=
  rest = [] ∨ ∃ r, rest = '[' :: 'Q' :: r

/-- The record a segment stands for. -/
def expectedRecord (s : SymSegment) : SymposiumQuestion :=
  { id := numberValue false (digitsValue 10 s.qn)
    question := trim s.q
    answer := trim s.a
    timeLimit := if truthy s.t then parseInt s.t else .integer false 90
    difficulty := if truthy s.d then trim s.d else "medium".toList }

/-- Fifteen segments `[Qk] Question k? [Ak] Answer [Tk] 90 [Dk] medium`, k
from 1 to 15, each on a line. -/
def sampleSegments : List SymSegment :=
  (List.range 15).map fun k =>
    { qn := Nat.toDigits 10 (k + 1), an := Nat.toDigits 10 (k + 1),
      tn := Nat.toDigits 10 (k + 1), dn := Nat.toDigits 10 (k + 1),
      q := " Question ".toList ++ Nat.toDigits 10 (k + 1) ++ "? ".toList,
      a := " Answer ".toList, t := " 90 ".toList, d := " medium\n".toList }

/-- A call of `callAI` together with its environment: the message, the
options, the behaviour of `fetch` during the call and the reply it carries. -/
structure Call where
  userMessage : Str
  options : Options
  fetch : Request → FetchOutcome
  reply : Str

/-- The call succeeds with its reply: whatever the request, the response is
read without an error and its content is the reply. -/
def Call.Succeeds (c : Call) : Prop :=
  ∀ req : Request, ∃ data : Body, readReply (c.fetch req) = .ok (some c.reply, data)

/-- The conversation history after the calls have been made in order. -/
def historyAfter (config : Config) (calls : List Call) (history : List Exchange) :
    List Exchange :=
  calls.foldl (fun h c => (callAI config c.fetch h c.userMessage c.options).2) history

/-- The full sequence `user(message_1), assistant(reply_1), ...` of the calls. -/
def fullSequence (calls : List Call) : List Exchange :=
  calls.flatMap fun c =>
    [{ role := Role.user, content := some c.userMessage },
     { role := Role.assistant, content := some c.reply }]

/-- A 2xx response whose first choice has a `message` without `content`. -/
def missingContentOutcome : FetchOutcome :=
  .response 200 (some { choices := some [{ message := some { content := none } }],
                        totalTokens := none })

/-- A configuration for the concrete evaluations. -/
def sampleConfig : Config :=
  { apiKey := "sk-test".toList, model := "deepseek-chat".toList,
    baseURL := "https://api.deepseek.com/v1/chat/completions".toList,
    systemPrompt := "You are a tutor.".toList, maxTokens := 2000, temperature := 7 / 10 }

/-- A call whose `fetch` answers 200 with the given reply as content. -/
def sampleCall (message reply : Str) : Call :=
  { userMessage := message
    options := { messageType := none, subject := none, level := none, curriculum := none,
                 generateQuestions := none }
    fetch := fun _ =>
      .response 200 (some { choices := some [{ message := some { content := some reply } }],
                            totalTokens := some 12 })
    reply := reply }

/-- Options with every field absent: `{}`. -/
def noOptions : Options :=
  { messageType := none, subject := none, level := none, curriculum := none,
    generateQuestions := none }

/-- The questions the loop adds, as a function of the blocks alone. -/
def quizLoopAdds : List Str → Nat → List QuizQuestion
  | [], _ => []
  | block :: rest, index =>
    (quizBlock block index).toList ++ quizLoopAdds rest (index + 1)

/-- A character that `toLowerCase` yields only from itself or its capital:
not `k`, which is also the lower case of the Kelvin sign, and none of U+0130,
U+212A and U+0307. -/
def plainChar (x : Char) : Bool :=
  x != 'k' && x.toNat != 0x130 && x.toNat != 0x212A && x.toNat != 0x307

/-- A word of plain characters that does not end in `i`: it occurs in a
lower-cased text only where the text has it up to the case of ASCII letters. -/
def plainWord : Str → Bool
  | [] => true
  | [x] => plainChar x && x != 'i'
  | x :: y :: rest => plainChar x && plainWord (y :: rest)

/-- The branch of `markingLine` that captures the feedback is taken: the line
contains `FEEDBACK:` and neither `TOTAL:` nor `PERCENTAGE:`. -/
def feedbackLine (line : Str) : Bool :=
  !includes line "TOTAL:".toList && !includes line "PERCENTAGE:".toList &&
    includes line "FEEDBACK:".toList

/-- The branch of `markingLine` that captures the improvement is taken: the
line contains `IMPROVEMENT:` and none of the three markers tested before. -/
def improvementLine (line : Str) : Bool :=
  !includes line "TOTAL:".toList && !includes line "PERCENTAGE:".toList &&
    !includes line "FEEDBACK:".toList && includes line "IMPROVEMENT:".toList

/-- A symposium segment whose `[T..]` and `[D..]` tags may be missing: a tag
that is present is given by its digits and the text after it. -/
structure OptSegment where
  qn : Str
  an : Str
  q : Str
  a : Str
  t : Option (Str × Str)
  d : Option (Str × Str)
deriving DecidableEq, Repr

/-- The text of an optional tag: nothing, or `[<letter><n>]x`. -/
def optTagText (letter : Char) : Option (Str × Str) → Str
  | none => []
  | some (n, x) => '[' :: letter :: (n ++ ']' :: x)

/-- The segment `[Q<qn>]q[A<an>]a`, then the `T` tag, then the `D` tag. -/
def optSegmentText (s : OptSegment) : Str :=
  "[Q".toList ++ s.qn ++ "]".toList ++ s.q ++ "[A".toList ++ s.an ++ "]".toList ++ s.a ++
    optTagText 'T' s.t ++ optTagText 'D' s.d

/-- The text made of the segments, one after the other. -/
def optText : List OptSegment → Str
  | [] => []
  | s :: rest => optSegmentText s ++ optText rest

/-- A tag that is present has a run of digits as its number and a text
without `[`. -/
def WellFormedTag : Option (Str × Str) → Prop
  | none => True
  | some (n, x) => (n ≠ [] ∧ ∀ c ∈ n, isDigit c = true) ∧ '[' ∉ x

instance (o : Option (Str × Str)) : Decidable (WellFormedTag o) := by
  cases o with
  | none => exact isTrue trivial
  | some p =>
    unfold WellFormedTag
    infer_instance

/-- The tag numbers are runs of digits and no text contains `[`. -/
def WellFormedOpt (s : OptSegment) : Prop :=
  (s.qn ≠ [] ∧ ∀ c ∈ s.qn, isDigit c = true) ∧ (s.an ≠ [] ∧ ∀ c ∈ s.an, isDigit c = true) ∧
  '[' ∉ s.q ∧ '[' ∉ s.a ∧ WellFormedTag s.t ∧ WellFormedTag s.d

instance (s : OptSegment) : Decidable (WellFormedOpt s) := by
  unfold WellFormedOpt
  infer_instance

/-- The text after an optional tag, `undefined` when the tag is missing. -/
def tagGroup (o : Option (Str × Str)) : Option Str :=
  o.map (fun p => p.2)

/-- The record an optional-tag segment stands for. -/
def expectedOpt (s : OptSegment) : SymposiumQuestion :=
  { id := numberValue false (digitsValue 10 s.qn)
    question := trim s.q
    answer := trim s.a
    timeLimit :=
      match tagGroup s.t with
      | some x => if truthy x then parseInt x else .integer false 90
      | none => .integer false 90
    difficulty :=
      match tagGroup s.d with
      | some x => if truthy x then trim x else "medium".toList
      | none => "medium".toList }

/-- Two segments for the evaluations: the first without `T` and `D` tags, the
second with both. -/
def sampleOptSegments : List OptSegment :=
  [{ qn := "1".toList, an := "1".toList, q := " Name the process ".toList,
     a := " Osmosis\n".toList, t := none, d := none },
   { qn := "2".toList, an := "2".toList, q := " Define diffusion ".toList,
     a := " Movement of particles ".toList, t := some ("2".toList, " 45 ".toList),
     d := some ("2".toList, " hard".toList) }]

/-! ## Quiz generation: `generateQuiz` -/

/-- The table `subjects` of `extractSubject`, in the order of its keys. -/
def subjectTable : List (Str × Str) :=
  [("math".toList, "Mathematics".toList), ("bio".toList, "Biology".toList),
   ("chem".toList, "Chemistry".toList), ("phy".toList, "Physics".toList),
   ("eng".toList, "English".toList), ("kisw".toList, "Kiswahili".toList),
   ("geo".toList, "Geography".toList), ("hist".toList, "History".toList),
   ("cre".toList, "CRE".toList), ("business".toList, "Business".toList)]

/-- The method `extractSubject(text)`: the subject of the first key that the
lower-cased text contains, `General` when there is none. -/
def extractSubject (text : Str) : Str :=
  match subjectTable.find? (fun entry => includes (toLowerCase text) entry.1) with
  | some entry => entry.2
  | none => "General".toList

/-- The text of a natural number in a template literal: its decimal digits. -/
def numberText (n : Nat) : Str :=
  Nat.toDigits 10 n

/-- The template `prompt` of `generateQuiz`.  `Math.ceil(count * 0.3)` on a
natural number `count` is the integer ceiling of `3 * count / 10`. -/
def quizPrompt (topic : Str) (count : Nat) (difficulty : Str) : Str :=
  "Generate ".toList ++ numberText count ++ " KCSE-style questions about \"".toList ++ topic ++
  "\".\n        \n        REQUIREMENTS:\n".toList ++
  "        1. Format: QUESTION | ANSWER | EXPLANATION\n".toList ++
  "        2. Include ".toList ++ numberText ((3 * count + 9) / 10) ++
  " diagram-based questions\n".toList ++
  "        3. Difficulty: ".toList ++ difficulty ++ "\n".toList ++
  "        4. Kenyan context only\n".toList ++
  "        5. Separate with \"---\"\n".toList ++
  "        \n".toList ++
  "        Example format:\n".toList ++
  "        Q1: What is photosynthesis?\n".toList ++
  "        A1: Process where plants make food using sunlight\n".toList ++
  "        E1: Chlorophyll captures light energy\n".toList ++
  "        \n".toList ++
  "        ---".toList

/-- The record returned by `generateQuiz`, without its `generatedAt` time. -/
structure QuizResult where
  topic : Str
  questions : List QuizQuestion
  count : Nat
  byAI : Bool
deriving DecidableEq, Repr

/-- The options `generateQuiz` passes to `callAI`. -/
def quizOptions (topic : Str) (count : Nat) : Options :=
  { messageType := some MessageType.quiz
    subject := some (extractSubject topic)
    level := none
    curriculum := none
    generateQuestions := some count }

/-- The method `generateQuiz(topic, count = 10, difficulty = 'medium')` on the
conversation history `history`: the result and the history after the call.
When the message of the call is `undefined`, `response.message.split` throws a
`TypeError` and the promise is rejected. -/
def generateQuiz (config : Config) (fetch : Request → FetchOutcome) (history : List Exchange)
    (topic : Str) (count : Option Nat) (difficulty : Option Str) :
    Except CallError QuizResult × List Exchange :=
  let count := count.getD 10
  let difficulty := difficulty.getD "medium".toList
  let prompt := quizPrompt topic count difficulty
  let response := callAI config fetch history prompt (quizOptions topic count)
  match response.1.message with
  | none => (.error .typeError, response.2)
  | some message =>
    let questions := parseQuizResponse message
    (.ok { topic := topic, questions := questions, count := questions.length, byAI := true },
      response.2)


/-- The first block of the fallback text of a quiz request, up to the first
`---` of the embedded prompt; `n` and `m` are the texts of the two numbers. -/
def fallbackHead (n topic m difficulty : Str) : Str :=
  "I\x27d generate quiz questions about \"Generate".toList ++ ' ' :: (n ++ ' ' ::
  ("KCSE-style questions about ".toList ++ '"' :: (topic ++ '"' ::
  ((".\n        \n        REQUIREMENTS:\n" ++
    "        1. Format: QUESTION | ANSWER | EXPLANATION\n        2. Include").toList ++ ' ' ::
  (m ++ ' ' :: ("diagram-based questions\n        3. Difficulty:".toList ++ ' ' ::
  ((difficulty ++ ['\n']) ++ ' ' ::
    "       4. Kenyan context only\n        5. Separate with \"".toList)))))))

/-- The second block of the fallback text: the example of the prompt. -/
def fallbackExample : Str :=
  ("\"\n        \n        Example format:\n        Q1: What is photosynthesis?\n" ++
   "        A1: Process where plants make food using sunlight\n" ++
   "        E1: Chlorophyll captures light energy\n        \n        ").toList

/-- The third block of the fallback text: the end of the fallback template,
with the level `undefined`. -/
def fallbackTail : Str :=
  ("\" for undefined students.\n            \n            " ++
   "(Connect to DeepSeek AI for actual quiz generation)").toList

/-- A text that cannot start a question line or end a block: no `?`, no
`---` and no line break. -/
def Harmless (x : Str) : Prop :=
  '?' ∉ x ∧ '\n' ∉ x ∧ includes x "---".toList = false

instance (x : Str) : Decidable (Harmless x) := by
  unfold Harmless
  infer_instance

/-- The question found in the example of the prompt. -/
def exampleQuestion : QuizQuestion :=
  { id := 2
    question := "Q1: What is photosynthesis?".toList
    answer := "Check with teacher".toList
    explanation := "No explanation provided".toList
    hasDiagram := false }

/-! # Lemmas and theorems -/

/-! ## Lemmas on the quiz loop -/

theorem quizLoop_eq_append (blocks : List Str) (index : Nat) (questions : List QuizQuestion) :
    quizLoop blocks index questions = questions ++ quizLoopAdds blocks index := by
  induction blocks generalizing index questions with
  | nil => simp [quizLoop, quizLoopAdds]
  | cons b rest ih =>
    unfold quizLoop quizLoopAdds
    cases hq : quizBlock b index with
    | none => simp [ih]
    | some q => simp [ih]

theorem quizBlock_eq_none (block : Str) (index : Nat)
    (h : (quizFields block).question = []) : quizBlock block index = none := by
  simp [quizBlock, truthy, h]

theorem quizBlock_id {block : Str} {index : Nat} {q : QuizQuestion}
    (h : quizBlock block index = some q) : q.id = index + 1 := by
  unfold quizBlock at h
  simp only at h
  split at h
  · cases h; rfl
  · cases h

theorem quizBlock_isSome (block : Str) (index : Nat)
    (h : (quizFields block).question ≠ []) : ∃ q, quizBlock block index = some q := by
  unfold quizBlock
  have : truthy (quizFields block).question = true := by
    cases hq : (quizFields block).question with
    | nil => exact absurd hq h
    | cons c cs => rfl
  simp [this]

theorem quizLoopAdds_eq_nil (blocks : List Str) (index : Nat)
    (h : ∀ b ∈ blocks, (quizFields b).question = []) : quizLoopAdds blocks index = [] := by
  induction blocks generalizing index with
  | nil => rfl
  | cons b rest ih =>
    have hb := quizBlock_eq_none b index (h b (List.mem_cons_self _ _))
    simp [quizLoopAdds, hb, ih (index + 1) (fun b' hb' => h b' (List.mem_cons_of_mem _ hb'))]

/-- Every id added from position `index` on is above `index`. -/
theorem quizLoopAdds_id_gt (blocks : List Str) (index : Nat) :
    ∀ q ∈ quizLoopAdds blocks index, index < q.id := by
  induction blocks generalizing index with
  | nil => simp [quizLoopAdds]
  | cons b rest ih =>
    intro q hq
    simp only [quizLoopAdds, List.mem_append] at hq
    rcases hq with hq | hq
    · cases hb : quizBlock b index with
      | none => simp [hb] at hq
      | some q' =>
        simp [hb] at hq
        subst hq
        have := quizBlock_id hb
        omega
    · have := ih (index + 1) q hq
      omega

theorem quizLoopAdds_pairwise (blocks : List Str) (index : Nat) :
    ((quizLoopAdds blocks index).map (fun q => q.id)).Pairwise (· < ·) := by
  induction blocks generalizing index with
  | nil => simp [quizLoopAdds]
  | cons b rest ih =>
    simp only [quizLoopAdds, List.map_append]
    rw [List.pairwise_append]
    refine ⟨?_, ih (index + 1), ?_⟩
    · cases hb : quizBlock b index <;> simp
    · intro x hx y hy
      cases hb : quizBlock b index with
      | none => simp [hb] at hx
      | some q' =>
        simp [hb] at hx
        obtain ⟨q, hq, rfl⟩ := List.mem_map.1 hy
        have h1 := quizBlock_id hb
        have h2 := quizLoopAdds_id_gt rest (index + 1) q hq
        omega

theorem quizLoopAdds_get_ge (blocks : List Str) (index : Nat) :
    ∀ (i v : Nat), ((quizLoopAdds blocks index).map (fun q => q.id))[i]? = some v →
      index + i + 1 ≤ v := by
  induction blocks generalizing index with
  | nil => intro i v h; simp [quizLoopAdds] at h
  | cons b rest ih =>
    intro i v h
    cases hb : quizBlock b index with
    | none =>
      have e : quizLoopAdds (b :: rest) index = quizLoopAdds rest (index + 1) := by
        simp [quizLoopAdds, hb]
      rw [e] at h
      have := ih (index + 1) i v h
      omega
    | some q' =>
      have e : quizLoopAdds (b :: rest) index = q' :: quizLoopAdds rest (index + 1) := by
        simp [quizLoopAdds, hb]
      rw [e] at h
      cases i with
      | zero =>
        have := quizBlock_id hb
        simp at h
        omega
      | succ j =>
        simp only [List.map_cons, List.getElem?_cons_succ] at h
        have := ih (index + 1) j v h
        omega

theorem quizLoopAdds_all (blocks : List Str) (index : Nat)
    (h : ∀ b ∈ blocks, (quizFields b).question ≠ []) :
    (quizLoopAdds blocks index).map (fun q => q.id) = List.range' (index + 1) blocks.length := by
  induction blocks generalizing index with
  | nil => simp [quizLoopAdds]
  | cons b rest ih =>
    obtain ⟨q, hq⟩ := quizBlock_isSome b index (h b (List.mem_cons_self _ _))
    have hid := quizBlock_id hq
    simp [quizLoopAdds, hq, hid, List.range'_succ,
      ih (index + 1) (fun b' hb' => h b' (List.mem_cons_of_mem _ hb'))]

/-! ## Theorems on the quiz extractor -/

/-- C1: when no block of the text yields a non-empty question, the quiz
extractor returns exactly the placeholder question, with id 1 and hasDiagram
false; and the extractor returns a non-empty list on every text. -/
theorem parseQuizResponse_placeholder (response : Str)
    (h : ∀ b ∈ quizBlocks response, (quizFields b).question = []) :
    parseQuizResponse response =
      [{ id := 1
         question := "What would you like to know about this topic?".toList
         answer := "Ask your teacher for details".toList
         explanation := "AI response parsing failed".toList
         hasDiagram := false }] ∧
    ∀ text : Str, parseQuizResponse text ≠ [] := by
  constructor
  · simp [parseQuizResponse, quizLoop_eq_append, quizLoopAdds_eq_nil _ _ h, placeholderQuestion]
  · intro text
    unfold parseQuizResponse
    simp only
    split
    · rename_i hlen
      intro hnil
      rw [hnil] at hlen
      simp at hlen
    · simp

/-- Witness of C1 on a text without any question line. -/
theorem parseQuizResponse_placeholder_witness :
    parseQuizResponse "Photosynthesis makes food\n---\n   ".toList = [placeholderQuestion] :=
  (parseQuizResponse_placeholder "Photosynthesis makes food\n---\n   ".toList (by decide)).1

/-- Every id added from position `index` on is a position of a block. -/
theorem quizLoopAdds_mem (blocks : List Str) (index : Nat) :
    ∀ q ∈ quizLoopAdds blocks index,
      ∃ k b, blocks[k]? = some b ∧ quizBlock b (index + k) = some q := by
  induction blocks generalizing index with
  | nil => simp [quizLoopAdds]
  | cons b rest ih =>
    intro q hq
    simp only [quizLoopAdds, List.mem_append] at hq
    rcases hq with hq | hq
    · refine ⟨0, b, by simp, ?_⟩
      cases hb : quizBlock b index with
      | none => simp [hb] at hq
      | some q' =>
        simp [hb] at hq
        simp [hq, hb]
    · obtain ⟨k, b', hk, hb'⟩ := ih (index + 1) q hq
      refine ⟨k + 1, b', by simpa using hk, ?_⟩
      have e : index + (k + 1) = index + 1 + k := by omega
      rw [e]
      exact hb'

/-- C9, as stated, fails: a block without a question line still counts, so
the only question returned for this text has id 2, not 1. -/
theorem parseQuizResponse_ids_gap :
    (parseQuizResponse "Some notes\n---\nQ1: What is a cell?".toList).map (fun q => q.id) = [2] ∧
    ¬ (∀ (i : Nat) (q : QuizQuestion),
        (parseQuizResponse "Some notes\n---\nQ1: What is a cell?".toList)[i]? = some q →
        q.id = i + 1) := by
  refine ⟨by decide, ?_⟩
  intro h
  have h0 := h 0 ⟨2, "What is a cell?".toList, "Check with teacher".toList,
    "No explanation provided".toList, false⟩ (by decide)
  simp at h0

/-- C9, amended: the ids of the returned questions are strictly increasing
and the i-th one (from 1) is at least i; a question other than the placeholder
has id one more than the position of its block among the non-blank blocks; and
when every non-blank block yields a question the ids are 1, 2, 3, ... -/
theorem parseQuizResponse_ids (response : Str) :
    ((parseQuizResponse response).map (fun q => q.id)).Pairwise (· < ·) ∧
    (∀ i v : Nat, ((parseQuizResponse response).map (fun q => q.id))[i]? = some v → i + 1 ≤ v) ∧
    (∀ q ∈ parseQuizResponse response, q = placeholderQuestion ∨
      ∃ k b, (quizBlocks response)[k]? = some b ∧ quizBlock b k = some q ∧ q.id = k + 1) ∧
    ((∀ b ∈ quizBlocks response, (quizFields b).question ≠ []) →
      (parseQuizResponse response).map (fun q => q.id) =
        List.range' 1 (parseQuizResponse response).length) := by
  have hloop : quizLoop (quizBlocks response) 0 [] = quizLoopAdds (quizBlocks response) 0 := by
    simp [quizLoop_eq_append]
  unfold parseQuizResponse
  simp only [hloop]
  split
  · refine ⟨quizLoopAdds_pairwise _ 0, ?_, ?_, ?_⟩
    · intro i v hv
      have := quizLoopAdds_get_ge _ 0 i v hv
      omega
    · intro q hq
      right
      obtain ⟨k, b, hk, hb⟩ := quizLoopAdds_mem _ 0 q hq
      rw [Nat.zero_add] at hb
      exact ⟨k, b, hk, hb, quizBlock_id hb⟩
    · intro hall
      have h1 := quizLoopAdds_all _ 0 hall
      have h2 := congrArg List.length h1
      simp only [List.length_map, List.length_range'] at h2
      rw [h1, h2]
  · refine ⟨by simp, ?_, ?_, ?_⟩
    · intro i v hv
      cases i with
      | zero => simp [placeholderQuestion] at hv; omega
      | succ j => simp at hv
    · intro q hq
      left
      simpa using hq
    · intro _
      simp [placeholderQuestion]

/-- Witness of C9 (amended): two blocks that both yield a question get the
ids 1 and 2. -/
theorem parseQuizResponse_ids_witness :
    (parseQuizResponse "Q1: What is a cell?\n---\nQ2: Draw a leaf".toList).map (fun q => q.id) =
      List.range' 1 (parseQuizResponse "Q1: What is a cell?\n---\nQ2: Draw a leaf".toList).length :=
  (parseQuizResponse_ids "Q1: What is a cell?\n---\nQ2: Draw a leaf".toList).2.2.2 (by decide)

/-! ## Theorems on the orchestrator -/

theorem sliceLast_length_le {α : Type} (n : Nat) (l : List α) : (sliceLast n l).length ≤ n := by
  simp [sliceLast]
  omega

theorem updateHistory_sliceLast (l : List Exchange) (role : Role) (content : Option Str) :
    updateHistory (sliceLast 10 l) role content =
      sliceLast 10 (l ++ [{ role := role, content := content }]) := by
  unfold updateHistory sliceLast
  simp only [List.length_append, List.length_drop, List.length_singleton]
  by_cases h : 10 ≤ l.length
  · have h1 : l.length - (l.length - 10) + 1 > 10 := by omega
    rw [if_pos h1]
    rw [List.drop_append_of_le_length (by simp)]
    rw [List.drop_append_of_le_length (by omega)]
    rw [List.drop_drop]
    congr 2
    simp
    omega
  · have h1 : ¬ (l.length - (l.length - 10) + 1 > 10) := by omega
    rw [if_neg h1]
    have e1 : l.length - 10 = 0 := by omega
    have e2 : l.length + 1 - 10 = 0 := by omega
    simp [e1, e2]

theorem callAI_success_history (config : Config) (c : Call) (hc : c.Succeeds)
    (history : List Exchange) :
    (callAI config c.fetch history c.userMessage c.options).2 =
      updateHistory (updateHistory history Role.user (some c.userMessage)) Role.assistant
        (some c.reply) := by
  obtain ⟨data, hd⟩ := hc (callRequest config history c.userMessage c.options)
  simp [callAI, hd, prepareMessages]

theorem historyAfter_sliceLast (config : Config) (calls : List Call)
    (hok : ∀ c ∈ calls, c.Succeeds) (done : List Exchange) :
    historyAfter config calls (sliceLast 10 done) =
      sliceLast 10 (done ++ fullSequence calls) := by
  induction calls generalizing done with
  | nil => simp [historyAfter, fullSequence]
  | cons c rest ih =>
    have hc := hok c (List.mem_cons_self _ _)
    have hrest : ∀ c' ∈ rest, c'.Succeeds := fun c' h' => hok c' (List.mem_cons_of_mem _ h')
    have step := callAI_success_history config c hc (sliceLast 10 done)
    rw [updateHistory_sliceLast, updateHistory_sliceLast] at step
    have := ih hrest (done ++ [{ role := Role.user, content := some c.userMessage }] ++
      [{ role := Role.assistant, content := some c.reply }])
    simp only [historyAfter, List.foldl_cons] at this ⊢
    rw [step, this]
    simp [fullSequence]

theorem fullSequence_length (calls : List Call) :
    (fullSequence calls).length = 2 * calls.length := by
  induction calls with
  | nil => rfl
  | cons c rest ih =>
    simp only [fullSequence, List.flatMap_cons, List.length_append, List.length_cons,
      List.length_nil] at ih ⊢
    omega

/-- C5: starting from an empty history, after N successful calls the history
is the last min(10, 2N) entries of user(message_1), assistant(reply_1), ...,
user(message_N), assistant(reply_N); its length is min(10, 2N), at most 10. -/
theorem historyAfter_successes (config : Config) (calls : List Call)
    (hok : ∀ c ∈ calls, c.Succeeds) :
    historyAfter config calls [] =
      sliceLast (min 10 (2 * calls.length)) (fullSequence calls) ∧
    (historyAfter config calls []).length = min 10 (2 * calls.length) ∧
    (historyAfter config calls []).length ≤ 10 := by
  have h := historyAfter_sliceLast config calls hok []
  have e : sliceLast 10 ([] : List Exchange) = [] := rfl
  rw [e, List.nil_append] at h
  have hlen := fullSequence_length calls
  have hs : sliceLast (min 10 (2 * calls.length)) (fullSequence calls) =
      sliceLast 10 (fullSequence calls) := by
    unfold sliceLast
    congr 1
    omega
  refine ⟨by rw [h, hs], ?_, ?_⟩
  · rw [h]
    simp [sliceLast, hlen]
    omega
  · rw [h]
    exact sliceLast_length_le 10 _

/-- Witness of C5: six successful calls leave the last ten entries. -/
theorem historyAfter_successes_witness :
    historyAfter sampleConfig (List.replicate 6 (sampleCall "hi".toList "hello".toList)) [] =
      sliceLast (min 10 (2 * (List.replicate 6 (sampleCall "hi".toList "hello".toList)).length))
        (fullSequence (List.replicate 6 (sampleCall "hi".toList "hello".toList))) ∧
    (historyAfter sampleConfig
      (List.replicate 6 (sampleCall "hi".toList "hello".toList)) []).length =
      min 10 (2 * (List.replicate 6 (sampleCall "hi".toList "hello".toList)).length) ∧
    (historyAfter sampleConfig
      (List.replicate 6 (sampleCall "hi".toList "hello".toList)) []).length ≤ 10 :=
  historyAfter_successes sampleConfig (List.replicate 6 (sampleCall "hi".toList "hello".toList))
    (by
      intro c hc
      rw [List.eq_of_mem_replicate hc]
      exact fun _ => ⟨_, rfl⟩)

theorem getLocalResponse_ne_nil (userMessage : Str) (options : Options) :
    getLocalResponse userMessage options ≠ [] := by
  intro h
  have hl := congrArg List.length h
  unfold getLocalResponse at hl
  split at hl <;> simp at hl

/-- C6: when the completion request fails, by a transport error or a status
outside 200..299, `callAI` returns success = false, type `local_fallback` and
the non-empty message of `getLocalResponse`, and the conversation history
after the call is the history before it. -/
theorem callAI_failure (config : Config) (fetch : Request → FetchOutcome)
    (history : List Exchange) (userMessage : Str) (options : Options)
    (hfail : (∃ m, fetch (callRequest config history userMessage options) = .rejected m) ∨
      (∃ status body, fetch (callRequest config history userMessage options) =
        .response status body ∧ statusOk status = false)) :
    (callAI config fetch history userMessage options).1.success = false ∧
    (callAI config fetch history userMessage options).1.type = "local_fallback".toList ∧
    (callAI config fetch history userMessage options).1.message =
      some (getLocalResponse userMessage options) ∧
    getLocalResponse userMessage options ≠ [] ∧
    (callAI config fetch history userMessage options).2 = history := by
  have hne := getLocalResponse_ne_nil userMessage options
  rcases hfail with ⟨m, hm⟩ | ⟨status, body, hr, hs⟩
  · simp [callAI, hm, readReply, prepareMessages, hne]
  · simp [callAI, hr, readReply, hs, prepareMessages, hne]

/-- Witness of C6: the endpoint answers 503 while the history has two entries. -/
theorem callAI_failure_witness :
    (callAI sampleConfig (fun _ => .response 503 none)
      [{ role := Role.user, content := some "a".toList },
       { role := Role.assistant, content := some "b".toList }]
      "Explain osmosis".toList noOptions).1.success = false ∧
    (callAI sampleConfig (fun _ => .response 503 none)
      [{ role := Role.user, content := some "a".toList },
       { role := Role.assistant, content := some "b".toList }]
      "Explain osmosis".toList noOptions).1.type = "local_fallback".toList ∧
    (callAI sampleConfig (fun _ => .response 503 none)
      [{ role := Role.user, content := some "a".toList },
       { role := Role.assistant, content := some "b".toList }]
      "Explain osmosis".toList noOptions).1.message =
      some (getLocalResponse "Explain osmosis".toList noOptions) ∧
    getLocalResponse "Explain osmosis".toList noOptions ≠ [] ∧
    (callAI sampleConfig (fun _ => .response 503 none)
      [{ role := Role.user, content := some "a".toList },
       { role := Role.assistant, content := some "b".toList }]
      "Explain osmosis".toList noOptions).2 =
      [{ role := Role.user, content := some "a".toList },
       { role := Role.assistant, content := some "b".toList }] :=
  callAI_failure sampleConfig (fun _ => .response 503 none) _ _ noOptions
    (Or.inr ⟨503, none, rfl, by decide⟩)

/-- C7: a 2xx body without `choices`, with an empty `choices` or with a first
choice without `message` makes `callAI` fall back and leaves the history as it
was; but a body whose first choice has a `message` without `content` is taken
as a success: the result has success = true and an undefined message, and two
entries, the second with undefined content, are appended to the history. -/
theorem callAI_missing_content :
    (∀ (config : Config) (history : List Exchange) (userMessage : Str) (options : Options)
        (status : Nat) (tokens : Option Nat) (choices : Option (List Choice)),
        statusOk status = true →
        (choices = none ∨ choices = some [] ∨
          ∃ more, choices = some ({ message := none } :: more)) →
        (callAI config (fun _ => .response status (some ⟨choices, tokens⟩)) history
          userMessage options) =
          ({ success := false, message := some (getLocalResponse userMessage options),
             type := "local_fallback".toList, tokensUsed := none, provider := none,
             error := some .typeError }, history)) ∧
    callAI sampleConfig (fun _ => missingContentOutcome) [] "Explain osmosis".toList noOptions =
      ({ success := true, message := none, type := "general".toList, tokensUsed := some 0,
         provider := some "deepseek".toList, error := none },
       [{ role := Role.user, content := some "Explain osmosis".toList },
        { role := Role.assistant, content := none }]) := by
  constructor
  · intro config history userMessage options status tokens choices hs hc
    rcases hc with rfl | rfl | ⟨more, rfl⟩ <;>
      simp [callAI, readReply, hs, readContent, prepareMessages]
  · decide

theorem sliceLast_min {α : Type} (n : Nat) (l : List α) :
    sliceLast (min n l.length) l = sliceLast n l := by
  unfold sliceLast
  congr 1
  omega

theorem sliceLast_length {α : Type} (n : Nat) (l : List α) :
    (sliceLast n l).length = min n l.length := by
  simp [sliceLast]
  omega

/-- C8: the messages `callAI` sends are one system message, then the last
min(6, |h|) entries of the history h in their order, then one user message
whose content is `buildContextPrompt(userMessage, options)`; there are
2 + min(6, |h|) of them, building them leaves h unchanged, and `fetch` is
called on the request that carries them. -/
theorem callAI_messages (config : Config) (history : List Exchange) (userMessage : Str)
    (options : Options) :
    (callRequest config history userMessage options).messages =
      [{ role := Role.system,
         content := some (config.systemPrompt ++ "\n\nCurrent Student: ".toList ++
           options.level.getD "Form 3".toList ++ ", ".toList ++
           options.curriculum.getD "8-4-4".toList ++ ", Subject: ".toList ++
           options.subject.getD "General".toList) }] ++
      sliceLast (min 6 history.length) history ++
      [{ role := Role.user, content := some (buildContextPrompt userMessage options) }] ∧
    (callRequest config history userMessage options).messages.length =
      2 + min 6 history.length ∧
    (prepareMessages config history userMessage options).2 = history ∧
    (∀ fetch : Request → FetchOutcome,
      callAI config fetch history userMessage options =
        callAI config (fun _ => fetch (callRequest config history userMessage options))
          history userMessage options) := by
  refine ⟨?_, ?_, rfl, fun _ => rfl⟩
  · simp only [callRequest, prepareMessages, sliceLast_min]
  · simp only [callRequest, prepareMessages, List.length_append, List.length_cons,
      List.length_nil, sliceLast_length]
    omega

/-! ## Lemmas on the string primitives -/

theorem startsWith_iff (s p : Str) : startsWith s p = true ↔ p <+: s := by
  simp [startsWith]

theorem includes_iff (s p : Str) : includes s p = true ↔ p <:+: s := by
  induction s with
  | nil => simp [includes]
  | cons c cs ih =>
    simp only [includes, Bool.or_eq_true, ih, startsWith_iff, List.infix_cons_iff]

theorem includes_mono {s l p : Str} (hl : l <:+: s) (hp : includes l p = true) :
    includes s p = true :=
  (includes_iff s p).2 (((includes_iff l p).1 hp).trans hl)

theorem splitGo_piece_sub (sep : Str) (s : Str) (skip : Nat) (acc : Str)
    (h : skip = 0 ∨ acc = []) : ∀ l ∈ splitGo sep s skip acc, l <:+: acc.reverse ++ s := by
  induction s generalizing skip acc with
  | nil =>
    intro l hl
    simp [splitGo] at hl
    simp [hl]
  | cons c cs ih =>
    intro l hl
    cases skip with
    | succ k =>
      have hacc : acc = [] := by
        rcases h with h | h
        · omega
        · exact h
      subst hacc
      simp only [splitGo] at hl
      have := ih k [] (Or.inr rfl) l hl
      simp only [List.reverse_nil, List.nil_append] at this ⊢
      exact this.trans (List.suffix_cons c cs).isInfix
    | zero =>
      simp only [splitGo] at hl
      split at hl
      · rcases List.mem_cons.1 hl with hl | hl
        · subst hl
          exact (List.prefix_append _ _).isInfix
        · have := ih (sep.length - 1) [] (Or.inr rfl) l hl
          simp only [List.reverse_nil, List.nil_append] at this
          exact this.trans ((List.suffix_cons c cs).isInfix.trans
            (List.suffix_append _ _).isInfix)
      · have := ih 0 (c :: acc) (Or.inl rfl) l hl
        simpa using this

theorem split_piece_sub (s sep : Str) : ∀ l ∈ split s sep, l <:+: s := by
  intro l hl
  simpa using splitGo_piece_sub sep s 0 [] (Or.inl rfl) l hl

theorem isDigit_not_space {c : Char} (h : isDigit c = true) : isJsSpace c = false := by
  simp only [isDigit, Bool.and_eq_true, decide_eq_true_eq] at h
  simp only [isJsSpace, Bool.or_eq_false_iff, Bool.and_eq_false_iff, decide_eq_false_iff_not,
    beq_eq_false_iff_ne, ne_eq]
  omega

theorem isDigit_digitValue {c : Char} (h : isDigit c = true) :
    digitValue 10 c = some (c.toNat - 48) := by
  simp only [isDigit, Bool.and_eq_true, decide_eq_true_eq] at h
  have h1 : 48 ≤ c.toNat ∧ c.toNat ≤ 57 := h
  have h2 : c.toNat - 48 < 10 := by omega
  simp [digitValue, h1, Option.filter, h2]

theorem isDigit_ne {c d : Char} (h : isDigit c = true) (hd : isDigit d = false) : c ≠ d := by
  intro e
  subst e
  rw [h] at hd
  cases hd

/-! ## Lemmas on the Number value of an integer -/

theorem bitLengthGo_le (fuel : Nat) : ∀ n k : Nat, n < 2 ^ k → bitLengthGo fuel n ≤ k := by
  induction fuel with
  | zero => intro n k _; simp [bitLengthGo]
  | succ f ih =>
    intro n k h
    unfold bitLengthGo
    by_cases h0 : n = 0
    · simp [h0]
    · rw [if_neg h0]
      cases k with
      | zero => simp at h; exact absurd h h0
      | succ k =>
        have h1 : n / 2 < 2 ^ k := by
          rw [Nat.div_lt_iff_lt_mul (by norm_num)]
          rw [pow_succ] at h; exact h
        have := ih (n / 2) k h1
        omega

theorem lt_pow_bitLengthGo (fuel : Nat) : ∀ n : Nat, n ≤ fuel → n < 2 ^ bitLengthGo fuel n := by
  induction fuel with
  | zero => intro n h; simp [bitLengthGo]; omega
  | succ f ih =>
    intro n h
    unfold bitLengthGo
    by_cases h0 : n = 0
    · simp [h0]
    · rw [if_neg h0, pow_succ]
      have := ih (n / 2) (by omega)
      omega

/-- The number `n` has more than `k` binary digits exactly when it is at least
`2 ^ k`. -/
theorem lt_bitLength_iff (k n : Nat) : k < bitLength n ↔ 2 ^ k ≤ n := by
  constructor
  · intro h
    by_contra hlt
    have := bitLengthGo_le n n k (by omega)
    unfold bitLength at h
    omega
  · intro h
    have h1 := lt_pow_bitLengthGo n n (le_refl n)
    have h2 : 2 ^ k < 2 ^ bitLength n := lt_of_le_of_lt h h1
    exact (Nat.pow_lt_pow_iff_right (by norm_num)).1 h2

theorem roundToSignificand_exact (n : Nat) (h : n < 2 ^ 53) : roundToSignificand n = n := by
  have hb : bitLength n - 53 = 0 := by
    have := bitLengthGo_le n n 53 h
    unfold bitLength; omega
  unfold roundToSignificand
  rw [hb]
  simp only [pow_zero, Nat.div_one, Nat.mod_one, Nat.mul_zero, Nat.mul_one]
  rw [if_neg (by omega)]

/-- Below `2 ^ 53` the Number value of an integer is the integer itself. -/
theorem numberValue_exact (negative : Bool) (n : Nat) (h : n < 2 ^ 53) :
    numberValue negative n = .integer negative n := by
  have h2 : ¬ (1024 < bitLength n) := by
    have := bitLengthGo_le n n 53 h
    unfold bitLength; omega
  unfold numberValue
  rw [roundToSignificand_exact n h, if_neg h2]

/-- The Number value of a signed integer is never `NaN` and keeps the sign. -/
theorem numberValue_cases (negative : Bool) (n : Nat) :
    (∃ m, numberValue negative n = .integer negative m) ∨
      numberValue negative n = .infinity negative := by
  unfold numberValue
  split
  · exact Or.inr rfl
  · exact Or.inl ⟨_, rfl⟩

/-- The rounded magnitude is within half a unit of the last place of `n`. -/
theorem roundToSignificand_near (n : Nat) :
    2 ^ (bitLength n - 53) ∣ roundToSignificand n ∧
    2 * (roundToSignificand n - n) ≤ 2 ^ (bitLength n - 53) ∧
    2 * (n - roundToSignificand n) ≤ 2 ^ (bitLength n - 53) := by
  have hP : 0 < 2 ^ (bitLength n - 53) := Nat.pow_pos (by norm_num)
  unfold roundToSignificand
  simp only
  generalize 2 ^ (bitLength n - 53) = P at hP ⊢
  have hdm := Nat.div_add_mod n P
  have hcomm : P * (n / P) = n / P * P := Nat.mul_comm _ _
  have hlt := Nat.mod_lt n hP
  split
  · rename_i h
    refine ⟨Dvd.intro_left _ rfl, ?_, ?_⟩
    · rw [Nat.add_mul, Nat.one_mul]; omega
    · rw [Nat.add_mul, Nat.one_mul]; omega
  · rename_i h
    refine ⟨Dvd.intro_left _ rfl, ?_, ?_⟩
    · omega
    · omega

/-- Rounding does not go below a power of two that the number reaches. -/
theorem roundToSignificand_ge_pow (n k : Nat) (h : 2 ^ k ≤ n) : 2 ^ k ≤ roundToSignificand n := by
  obtain ⟨⟨a, ha⟩, -, hnear⟩ := roundToSignificand_near n
  have hP : 0 < 2 ^ (bitLength n - 53) := Nat.pow_pos (by norm_num)
  by_cases hk : k < bitLength n - 53
  · have h1 : 2 ^ (k + 1) ≤ 2 ^ (bitLength n - 53) := Nat.pow_le_pow_right (by norm_num) hk
    have h2 : 2 ^ (bitLength n - 53) ≤ n := (lt_bitLength_iff _ n).1 (by omega)
    rw [pow_succ] at h1
    omega
  · obtain ⟨d, hd⟩ : ∃ d, k = (bitLength n - 53) + d := ⟨k - (bitLength n - 53), by omega⟩
    rw [hd, pow_add] at h ⊢
    rw [ha] at hnear ⊢
    generalize 2 ^ (bitLength n - 53) = P at hP h hnear ⊢
    generalize 2 ^ d = B at h ⊢
    apply Nat.mul_le_mul_left
    by_contra hlt
    have h3 : P * (a + 1) ≤ P * B := Nat.mul_le_mul_left P (by omega)
    rw [Nat.mul_add, Nat.mul_one] at h3
    omega

/-- Rounding does not go above a power of two that bounds the number. -/
theorem roundToSignificand_le_pow (n k : Nat) (h : n ≤ 2 ^ k) : roundToSignificand n ≤ 2 ^ k := by
  by_cases h0 : n = 0
  · subst h0
    rw [roundToSignificand_exact 0 (by norm_num)]
    exact Nat.zero_le _
  · obtain ⟨⟨a, ha⟩, hnear, -⟩ := roundToSignificand_near n
    have hP : 0 < 2 ^ (bitLength n - 53) := Nat.pow_pos (by norm_num)
    have hL : 0 < bitLength n := (lt_bitLength_iff 0 n).2 (by simp; omega)
    have h1 : 2 ^ (bitLength n - 1) ≤ n := (lt_bitLength_iff _ n).1 (by omega)
    have h2 : bitLength n - 1 ≤ k :=
      (Nat.pow_le_pow_iff_right (by norm_num)).1 (le_trans h1 h)
    obtain ⟨d, hd⟩ : ∃ d, k = (bitLength n - 53) + d := ⟨k - (bitLength n - 53), by omega⟩
    rw [hd, pow_add] at h ⊢
    rw [ha] at hnear ⊢
    generalize 2 ^ (bitLength n - 53) = P at hP h hnear ⊢
    generalize 2 ^ d = B at h ⊢
    apply Nat.mul_le_mul_left
    by_contra hlt
    have h3 : P * (B + 1) ≤ P * a := Nat.mul_le_mul_left P (by omega)
    rw [Nat.mul_add, Nat.mul_one] at h3
    omega

theorem roundToSignificand_overflow (n : Nat) :
    2 ^ 1024 ≤ roundToSignificand n ↔ 2 ^ 1024 - 2 ^ 970 ≤ n := by
  have e1 : (2 : Nat) ^ 1024 = 9007199254740992 * 2 ^ 971 := by
    rw [show (1024 : Nat) = 53 + 971 from rfl, pow_add]
    norm_num
  have e2 : (2 : Nat) ^ 1023 = 4503599627370496 * 2 ^ 971 := by
    rw [show (1023 : Nat) = 52 + 971 from rfl, pow_add]
    norm_num
  have e3 : (2 : Nat) ^ 971 = 2 ^ 970 * 2 := by
    rw [show (971 : Nat) = 970 + 1 from rfl, pow_succ]
  have hH : 0 < 2 ^ 970 := by positivity
  by_cases hT : 2 ^ 1024 ≤ n
  · exact ⟨fun _ => by omega, fun _ => roundToSignificand_ge_pow n 1024 hT⟩
  · by_cases hl : n ≤ 2 ^ 1023
    · have := roundToSignificand_le_pow n 1023 hl
      constructor
      · intro h; omega
      · intro h; omega
    · have hL : bitLength n = 1024 := by
        have h1 : 1023 < bitLength n := (lt_bitLength_iff 1023 n).2 (by omega)
        have h2 : ¬ 1024 < bitLength n := fun h => hT ((lt_bitLength_iff 1024 n).1 h)
        omega
      unfold roundToSignificand
      rw [hL, show (1024 : Nat) - 53 = 971 from rfl]
      simp only
      rw [e1, e2] at *
      rw [e3] at *
      generalize 2 ^ 970 = H at *
      have hdm := Nat.div_add_mod n (H * 2)
      have hlt := Nat.mod_lt n (show 0 < H * 2 by omega)
      have hq : n / (H * 2) < 9007199254740992 := by
        rw [Nat.div_lt_iff_lt_mul (by omega)]
        omega
      by_cases hq2 : n / (H * 2) = 9007199254740991
      · rw [hq2] at hdm ⊢
        split
        · constructor
          · intro _; omega
          · intro _; omega
        · rename_i hno
          constructor
          · intro _; omega
          · intro h
            exfalso
            apply hno
            have : 9007199254740991 % 2 = 1 := by norm_num
            omega
      · have h3 : H * 2 * (n / (H * 2) + 1) ≤ H * 2 * 9007199254740991 :=
          Nat.mul_le_mul_left _ (by omega)
        rw [Nat.mul_add, Nat.mul_one] at h3
        have hcomm : n / (H * 2) * (H * 2) = H * 2 * (n / (H * 2)) := Nat.mul_comm _ _
        split
        · rw [Nat.add_mul, Nat.one_mul, hcomm]
          constructor
          · intro _; omega
          · intro _; omega
        · rw [hcomm]
          constructor
          · intro _; omega
          · intro _; omega

/-- The Number value of an integer is an infinity exactly from
`2 ^ 1024 - 2 ^ 970` on, the midpoint between the largest double and
`2 ^ 1024`. -/
theorem numberValue_infinity_iff (negative : Bool) (n : Nat) :
    numberValue negative n = .infinity negative ↔ 2 ^ 1024 - 2 ^ 970 ≤ n := by
  rw [← roundToSignificand_overflow, ← lt_bitLength_iff]
  unfold numberValue
  split
  · rename_i h
    exact ⟨fun _ => h, fun _ => rfl⟩
  · rename_i h
    exact ⟨fun h1 => JsNumber.noConfusion h1, fun h1 => absurd h1 h⟩

/-- Below `2 ^ 1024 - 2 ^ 970` the Number value of an integer is the integer
rounded to 53 significant binary digits. -/
theorem numberValue_finite (negative : Bool) (n : Nat) (h : n < 2 ^ 1024 - 2 ^ 970) :
    numberValue negative n = .integer negative (roundToSignificand n) := by
  have h1 : ¬ 1024 < bitLength (roundToSignificand n) := by
    rw [lt_bitLength_iff, roundToSignificand_overflow]
    omega
  unfold numberValue
  rw [if_neg h1]

/-! ## Lemmas on the marking extractor -/

theorem digitsThen_cons_of_some (lit : Str) (c : Char) (x ds : Str) (hc : isDigit c = true)
    (h : digitsThen lit x = some ds) : digitsThen lit (c :: x) = some (c :: ds) := by
  simp [digitsThen, hc, h]

theorem digitsThen_digits (lit : Str) (l0 : Char) (lit1 : Str) (hlit : lit = l0 :: lit1)
    (hl0 : isDigit l0 = false) (ds rest : Str) (hne : ds ≠ [])
    (hds : ∀ c ∈ ds, isDigit c = true) :
    digitsThen lit (ds ++ lit ++ rest) = some ds := by
  induction ds with
  | nil => exact absurd rfl hne
  | cons c cs ih =>
    have hc : isDigit c = true := hds c (List.mem_cons_self _ _)
    cases cs with
    | nil =>
      have hnone : digitsThen lit (lit ++ rest) = none := by
        subst hlit
        simp [digitsThen, hl0]
      have hsw : startsWith (lit ++ rest) lit = true := by
        simp [startsWith]
      simp [digitsThen, hc, hnone, hsw]
    | cons c' cs' =>
      have := ih (by simp) (fun x hx => hds x (List.mem_cons_of_mem _ hx))
      exact digitsThen_cons_of_some lit c _ _ hc this

theorem digitsThen_some {lit s ds : Str} (h : digitsThen lit s = some ds) :
    ds ≠ [] ∧ ∀ c ∈ ds, isDigit c = true := by
  induction s generalizing ds with
  | nil => simp [digitsThen] at h
  | cons c cs ih =>
    simp only [digitsThen] at h
    split at h
    · rename_i hc
      split at h
      · rename_i ds' hds'
        cases h
        have := ih hds'
        refine ⟨by simp, ?_⟩
        intro x hx
        rcases List.mem_cons.1 hx with rfl | hx
        · exact hc
        · exact this.2 x hx
      · split at h
        · cases h
          refine ⟨by simp, ?_⟩
          intro x hx
          simp at hx
          subst hx
          exact hc
        · cases h
    · cases h

theorem matchDigitsThen_some {lit s ds : Str} (h : matchDigitsThen lit s = some ds) :
    ds ≠ [] ∧ ∀ c ∈ ds, isDigit c = true := by
  induction s with
  | nil => simp [matchDigitsThen] at h
  | cons c cs ih =>
    simp only [matchDigitsThen] at h
    split at h
    · rename_i ds' hds'
      cases h
      exact digitsThen_some hds'
    · exact ih h

theorem matchDigitsThen_skip (lit a s : Str) (ha : ∀ c ∈ a, isDigit c = false) :
    matchDigitsThen lit (a ++ s) = matchDigitsThen lit s := by
  induction a with
  | nil => rfl
  | cons c cs ih =>
    have hc : isDigit c = false := ha c (List.mem_cons_self _ _)
    simp only [List.cons_append, matchDigitsThen, digitsThen, hc]
    exact ih (fun x hx => ha x (List.mem_cons_of_mem _ hx))

theorem matchDigitsThen_line (lit : Str) (l0 : Char) (lit1 : Str) (hlit : lit = l0 :: lit1)
    (hl0 : isDigit l0 = false) (a ds rest : Str) (ha : ∀ c ∈ a, isDigit c = false)
    (hne : ds ≠ []) (hds : ∀ c ∈ ds, isDigit c = true) :
    matchDigitsThen lit (a ++ ds ++ lit ++ rest) = some ds := by
  rw [List.append_assoc, List.append_assoc, matchDigitsThen_skip lit a _ ha]
  have h := digitsThen_digits lit l0 lit1 hlit hl0 ds rest hne hds
  cases ds with
  | nil => exact absurd rfl hne
  | cons c cs =>
    simp only [List.cons_append, List.append_assoc] at h ⊢
    simp [matchDigitsThen, h]

theorem takeWhile_digitValue (ds : Str) (hds : ∀ c ∈ ds, isDigit c = true) :
    ds.takeWhile (fun c => (digitValue 10 c).isSome) = ds := by
  induction ds with
  | nil => rfl
  | cons c cs ih =>
    have hc := isDigit_digitValue (hds c (List.mem_cons_self _ _))
    simp [List.takeWhile, hc, ih (fun x hx => hds x (List.mem_cons_of_mem _ hx))]

/-- On a non-empty run of decimal digits `parseInt` is the Number value of the
number written. -/
theorem parseInt_digits (ds : Str) (hne : ds ≠ []) (hds : ∀ c ∈ ds, isDigit c = true) :
    parseInt ds = numberValue false (digitsValue 10 ds) := by
  cases ds with
  | nil => exact absurd rfl hne
  | cons c cs =>
    have hc : isDigit c = true := hds c (List.mem_cons_self _ _)
    have htrim : trimStart (c :: cs) = c :: cs := by
      simp [trimStart, List.dropWhile, isDigit_not_space hc]
    have hminus : c ≠ '-' := isDigit_ne hc (by decide)
    have hplus : c ≠ '+' := isDigit_ne hc (by decide)
    have hsign : stripSign (c :: cs) = (false, c :: cs) := by
      simp [stripSign, hminus, hplus]
    have hhex : stripHex (c :: cs) = (10, c :: cs) := by
      cases cs with
      | nil => rfl
      | cons d r =>
        have hd : isDigit d = true := hds d (by simp)
        have h1 : d ≠ 'x' := isDigit_ne hd (by decide)
        have h2 : d ≠ 'X' := isDigit_ne hd (by decide)
        simp [stripHex, h1, h2]
    have htake := takeWhile_digitValue (c :: cs) hds
    simp only [parseInt, htrim, hsign, hhex, htake]
    simp

/-- Evaluations of `parseInt`: digits up to the first other character, the
sign of zero, a hexadecimal prefix, no digits, and two runs of digits that
are not doubles. -/
theorem parseInt_examples :
    parseInt " 42abc".toList = .integer false 42 ∧
    parseInt "-0".toList = .integer true 0 ∧
    parseInt "0x1F".toList = .integer false 31 ∧
    parseInt "soon".toList = .nan ∧
    parseInt "9007199254740993".toList = .integer false 9007199254740992 ∧
    parseInt "99999999999999999999".toList = .integer false 100000000000000000000 := by
  decide

theorem markingLine_totalScore_keep (r : MarkingResult) (line : Str)
    (h : includes line "TOTAL:".toList = false) :
    (markingLine r line).totalScore = r.totalScore := by
  unfold markingLine
  rw [h]
  simp only [Bool.false_eq_true, if_false]
  split
  · split <;> rfl
  · split
    · rfl
    · split <;> rfl

theorem markingLine_percentage_keep (r : MarkingResult) (line : Str)
    (h : includes line "PERCENTAGE:".toList = false ∨ includes line "TOTAL:".toList = true) :
    (markingLine r line).percentage = r.percentage := by
  unfold markingLine
  split
  · split <;> rfl
  · rename_i hT
    have hP : includes line "PERCENTAGE:".toList = false := by
      rcases h with h | h
      · exact h
      · exact absurd h hT
    rw [hP]
    simp only [Bool.false_eq_true, if_false]
    split
    · rfl
    · split <;> rfl

theorem foldl_totalScore_keep (ls : List Str) (r : MarkingResult)
    (h : ∀ l ∈ ls, includes l "TOTAL:".toList = false) :
    (ls.foldl markingLine r).totalScore = r.totalScore := by
  induction ls generalizing r with
  | nil => rfl
  | cons l rest ih =>
    rw [List.foldl_cons, ih _ (fun x hx => h x (List.mem_cons_of_mem _ hx)),
      markingLine_totalScore_keep r l (h l (List.mem_cons_self _ _))]

theorem foldl_percentage_keep (ls : List Str) (r : MarkingResult)
    (h : ∀ l ∈ ls, includes l "PERCENTAGE:".toList = false) :
    (ls.foldl markingLine r).percentage = r.percentage := by
  induction ls generalizing r with
  | nil => rfl
  | cons l rest ih =>
    rw [List.foldl_cons, ih _ (fun x hx => h x (List.mem_cons_of_mem _ hx)),
      markingLine_percentage_keep r l (Or.inl (h l (List.mem_cons_self _ _)))]

theorem markingLine_total (r : MarkingResult) (line ds : Str)
    (h : includes line "TOTAL:".toList = true)
    (hm : matchDigitsThen "/100".toList line = some ds) :
    (markingLine r line).totalScore = numberValue false (digitsValue 10 ds) := by
  have hd := matchDigitsThen_some hm
  unfold markingLine
  rw [h, hm]
  exact parseInt_digits ds hd.1 hd.2

theorem markingLine_percentage (r : MarkingResult) (line ds : Str)
    (hT : includes line "TOTAL:".toList = false)
    (h : includes line "PERCENTAGE:".toList = true)
    (hm : matchDigitsThen "%".toList line = some ds) :
    (markingLine r line).percentage = numberValue false (digitsValue 10 ds) := by
  have hd := matchDigitsThen_some hm
  unfold markingLine
  rw [hT, h, hm]
  exact parseInt_digits ds hd.1 hd.2

/-! ## Theorems on the marking extractor -/

/-- C3, as stated, fails: this text contains both `TOTAL: 82/100` and
`PERCENTAGE: 82%`, on one line, and the percentage stays 0. -/
theorem parseMarkingResponse_same_line :
    includes "TOTAL: 82/100 PERCENTAGE: 82%".toList "TOTAL: 82/100".toList = true ∧
    includes "TOTAL: 82/100 PERCENTAGE: 82%".toList "PERCENTAGE: 82%".toList = true ∧
    (parseMarkingResponse "TOTAL: 82/100 PERCENTAGE: 82%".toList).totalScore =
      .integer false 82 ∧
    (parseMarkingResponse "TOTAL: 82/100 PERCENTAGE: 82%".toList).percentage =
      .integer false 0 := by
  decide

/-- C3, amended, each marker on its own.  When a line of the text contains
`TOTAL:` and reads `a t/100 b` with `t` a run of digits and no digit in `a`,
and no later line contains `TOTAL:`, totalScore is the Number value of `t`:
the number `t` itself below `2 ^ 53`, the nearest double in general.  When a
line contains `PERCENTAGE:` and not `TOTAL:` and reads `a p% b` in the same
way, and no later line contains `PERCENTAGE:`, percentage is the Number value
of `p` in the same sense.  A text without `TOTAL:` has totalScore 0 and a
text without `PERCENTAGE:` has percentage 0. -/
theorem parseMarkingResponse_markers :
    (∀ (text : Str) (pre post : List Str) (a t b : Str),
      t ≠ [] → (∀ c ∈ t, isDigit c = true) → (∀ c ∈ a, isDigit c = false) →
      includes (a ++ t ++ "/100".toList ++ b) "TOTAL:".toList = true →
      split text "\n".toList = pre ++ (a ++ t ++ "/100".toList ++ b) :: post →
      (∀ l ∈ post, includes l "TOTAL:".toList = false) →
      (parseMarkingResponse text).totalScore = numberValue false (digitsValue 10 t) ∧
      (digitsValue 10 t < 2 ^ 53 →
        (parseMarkingResponse text).totalScore = .integer false (digitsValue 10 t))) ∧
    (∀ (text : Str) (pre post : List Str) (a p b : Str),
      p ≠ [] → (∀ c ∈ p, isDigit c = true) → (∀ c ∈ a, isDigit c = false) →
      includes (a ++ p ++ "%".toList ++ b) "PERCENTAGE:".toList = true →
      includes (a ++ p ++ "%".toList ++ b) "TOTAL:".toList = false →
      split text "\n".toList = pre ++ (a ++ p ++ "%".toList ++ b) :: post →
      (∀ l ∈ post, includes l "PERCENTAGE:".toList = false) →
      (parseMarkingResponse text).percentage = numberValue false (digitsValue 10 p) ∧
      (digitsValue 10 p < 2 ^ 53 →
        (parseMarkingResponse text).percentage = .integer false (digitsValue 10 p))) ∧
    (∀ other : Str, includes other "TOTAL:".toList = false →
      (parseMarkingResponse other).totalScore = .integer false 0) ∧
    (∀ other : Str, includes other "PERCENTAGE:".toList = false →
      (parseMarkingResponse other).percentage = .integer false 0) := by
  refine ⟨?_, ?_, ?_, ?_⟩
  · intro text pre post a t b hne hds ha hT hlines hpost
    have hm := matchDigitsThen_line "/100".toList '/' "100".toList rfl (by decide) a t b ha
      hne hds
    have h : (parseMarkingResponse text).totalScore = numberValue false (digitsValue 10 t) := by
      unfold parseMarkingResponse
      rw [hlines, List.foldl_append, List.foldl_cons, foldl_totalScore_keep _ _ hpost]
      exact markingLine_total _ _ t hT hm
    exact ⟨h, fun hlt => by rw [h, numberValue_exact false _ hlt]⟩
  · intro text pre post a p b hne hds ha hP hT hlines hpost
    have hm := matchDigitsThen_line "%".toList '%' [] rfl (by decide) a p b ha hne hds
    have h : (parseMarkingResponse text).percentage = numberValue false (digitsValue 10 p) := by
      unfold parseMarkingResponse
      rw [hlines, List.foldl_append, List.foldl_cons, foldl_percentage_keep _ _ hpost]
      exact markingLine_percentage _ _ p hT hP hm
    exact ⟨h, fun hlt => by rw [h, numberValue_exact false _ hlt]⟩
  · intro other ho
    unfold parseMarkingResponse
    rw [foldl_totalScore_keep]
    · rfl
    · intro l hl
      cases hc : includes l "TOTAL:".toList with
      | false => rfl
      | true => rw [includes_mono (split_piece_sub _ _ l hl) hc] at ho; cases ho
  · intro other ho
    unfold parseMarkingResponse
    rw [foldl_percentage_keep]
    · rfl
    · intro l hl
      cases hc : includes l "PERCENTAGE:".toList with
      | false => rfl
      | true => rw [includes_mono (split_piece_sub _ _ l hl) hc] at ho; cases ho

/-- Witness of C3 (amended): a text with the `TOTAL:` line alone gives
totalScore 82, and a text with the `PERCENTAGE:` line after other lines gives
percentage 82. -/
theorem parseMarkingResponse_markers_witness :
    (parseMarkingResponse "TOTAL: 82/100\nFEEDBACK: Good work".toList).totalScore =
      .integer false (digitsValue 10 "82".toList) ∧
    (parseMarkingResponse "TOTAL: 82/100\nPERCENTAGE: 82%".toList).percentage =
      .integer false (digitsValue 10 "82".toList) ∧
    digitsValue 10 "82".toList = 82 :=
  ⟨(parseMarkingResponse_markers.1 "TOTAL: 82/100\nFEEDBACK: Good work".toList
      [] ["FEEDBACK: Good work".toList] "TOTAL: ".toList "82".toList []
      (by decide) (by decide) (by decide) (by decide) (by decide) (by decide)).2 (by decide),
   (parseMarkingResponse_markers.2.1 "TOTAL: 82/100\nPERCENTAGE: 82%".toList
      ["TOTAL: 82/100".toList] [] "PERCENTAGE: ".toList "82".toList []
      (by decide) (by decide) (by decide) (by decide) (by decide) (by decide)
      (by decide)).2 (by decide),
   by decide⟩

/-- C10, as stated, fails: the numbers written in the text are taken as they
are, so totalScore and percentage can exceed 100. -/
theorem parseMarkingResponse_out_of_range :
    (parseMarkingResponse "TOTAL: 250/100\nPERCENTAGE: 150%".toList).totalScore =
      .integer false 250 ∧
    (parseMarkingResponse "TOTAL: 250/100\nPERCENTAGE: 150%".toList).percentage =
      .integer false 150 ∧
    ¬ (250 ≤ 100) ∧ ¬ (150 ≤ 100) := by
  decide

set_option maxRecDepth 100000 in
set_option exponentiation.threshold 2000 in
/-- A score written with many digits is rounded to a double: twenty nines
give `10 ^ 20`, and the digit `1` followed by 400 zeros gives `Infinity`. -/
theorem parseMarkingResponse_rounded :
    (parseMarkingResponse "TOTAL: 99999999999999999999/100".toList).totalScore =
      .integer false 100000000000000000000 ∧
    (parseMarkingResponse
      ("TOTAL: 1".toList ++ List.replicate 400 '0' ++ "/100".toList)).totalScore =
      .infinity false := by
  decide

theorem foldl_scores (lines : List Str) (ls : List Str) (r : MarkingResult)
    (hsub : ∀ l ∈ ls, l ∈ lines)
    (hr : (∃ n : Nat, r.totalScore = numberValue false n ∧ (n = 0 ∨ ∃ line ∈ lines, ∃ ds,
        includes line "TOTAL:".toList = true ∧
        matchDigitsThen "/100".toList line = some ds ∧ n = digitsValue 10 ds)) ∧
      (∃ n : Nat, r.percentage = numberValue false n ∧ (n = 0 ∨ ∃ line ∈ lines, ∃ ds,
        includes line "TOTAL:".toList = false ∧ includes line "PERCENTAGE:".toList = true ∧
        matchDigitsThen "%".toList line = some ds ∧ n = digitsValue 10 ds))) :
    (∃ n : Nat, (ls.foldl markingLine r).totalScore = numberValue false n ∧
      (n = 0 ∨ ∃ line ∈ lines, ∃ ds,
        includes line "TOTAL:".toList = true ∧
        matchDigitsThen "/100".toList line = some ds ∧ n = digitsValue 10 ds)) ∧
    (∃ n : Nat, (ls.foldl markingLine r).percentage = numberValue false n ∧
      (n = 0 ∨ ∃ line ∈ lines, ∃ ds,
        includes line "TOTAL:".toList = false ∧ includes line "PERCENTAGE:".toList = true ∧
        matchDigitsThen "%".toList line = some ds ∧ n = digitsValue 10 ds)) := by
  induction ls generalizing r with
  | nil => exact hr
  | cons l rest ih =>
    rw [List.foldl_cons]
    apply ih _ (fun x hx => hsub x (List.mem_cons_of_mem _ hx))
    have hl : l ∈ lines := hsub l (List.mem_cons_self _ _)
    constructor
    · cases hT : includes l "TOTAL:".toList with
      | false => rw [markingLine_totalScore_keep r l hT]; exact hr.1
      | true =>
        cases hm : matchDigitsThen "/100".toList l with
        | none =>
          have : (markingLine r l).totalScore = r.totalScore := by
            unfold markingLine
            rw [hT, hm]
            rfl
          rw [this]; exact hr.1
        | some ds =>
          exact ⟨digitsValue 10 ds, markingLine_total r l ds hT hm,
            Or.inr ⟨l, hl, ds, hT, hm, rfl⟩⟩
    · cases hT : includes l "TOTAL:".toList with
      | true => rw [markingLine_percentage_keep r l (Or.inr hT)]; exact hr.2
      | false =>
        cases hP : includes l "PERCENTAGE:".toList with
        | false => rw [markingLine_percentage_keep r l (Or.inl hP)]; exact hr.2
        | true =>
          cases hm : matchDigitsThen "%".toList l with
          | none =>
            have : (markingLine r l).percentage = r.percentage := by
              unfold markingLine
              rw [hT, hP, hm]
              rfl
            rw [this]; exact hr.2
          | some ds =>
            exact ⟨digitsValue 10 ds, markingLine_percentage r l ds hT hP hm,
              Or.inr ⟨l, hl, ds, hT, hP, hm, rfl⟩⟩

/-- C10, amended: for every text totalScore is the Number value of a natural
number `n`, never `NaN` and never negative, where `n` is 0 or the number
captured before `/100` on a line containing `TOTAL:`: it is the integer `n`
below `2 ^ 53`, the integer nearest to `n` among the doubles below
`2 ^ 1024 - 2 ^ 970`, and `Infinity` from there on.  The same holds of
percentage with the number captured before `%` on a line containing
`PERCENTAGE:` and not `TOTAL:`.  No upper bound is enforced. -/
theorem parseMarkingResponse_scores (text : Str) :
    (∃ n : Nat, (parseMarkingResponse text).totalScore = numberValue false n ∧
      (n = 0 ∨ ∃ line ∈ split text "\n".toList, ∃ ds,
        includes line "TOTAL:".toList = true ∧
        matchDigitsThen "/100".toList line = some ds ∧ n = digitsValue 10 ds) ∧
      (n < 2 ^ 53 → (parseMarkingResponse text).totalScore = .integer false n) ∧
      (n < 2 ^ 1024 - 2 ^ 970 →
        (parseMarkingResponse text).totalScore = .integer false (roundToSignificand n)) ∧
      (2 ^ 1024 - 2 ^ 970 ≤ n → (parseMarkingResponse text).totalScore = .infinity false)) ∧
    (∃ n : Nat, (parseMarkingResponse text).percentage = numberValue false n ∧
      (n = 0 ∨ ∃ line ∈ split text "\n".toList, ∃ ds,
        includes line "TOTAL:".toList = false ∧ includes line "PERCENTAGE:".toList = true ∧
        matchDigitsThen "%".toList line = some ds ∧ n = digitsValue 10 ds) ∧
      (n < 2 ^ 53 → (parseMarkingResponse text).percentage = .integer false n) ∧
      (n < 2 ^ 1024 - 2 ^ 970 →
        (parseMarkingResponse text).percentage = .integer false (roundToSignificand n)) ∧
      (2 ^ 1024 - 2 ^ 970 ≤ n → (parseMarkingResponse text).percentage = .infinity false)) := by
  have h := foldl_scores (split text "\n".toList) (split text "\n".toList) markingInit
    (fun l hl => hl) ⟨⟨0, rfl, Or.inl rfl⟩, ⟨0, rfl, Or.inl rfl⟩⟩
  obtain ⟨⟨n, hn, hsrc⟩, ⟨m, hm, hsrc'⟩⟩ := h
  refine ⟨⟨n, hn, hsrc, ?_, ?_, ?_⟩, ⟨m, hm, hsrc', ?_, ?_, ?_⟩⟩
  · intro hlt
    exact hn.trans (numberValue_exact false n hlt)
  · intro hlt
    exact hn.trans (numberValue_finite false n hlt)
  · intro hge
    exact hn.trans ((numberValue_infinity_iff false n).2 hge)
  · intro hlt
    exact hm.trans (numberValue_exact false m hlt)
  · intro hlt
    exact hm.trans (numberValue_finite false m hlt)
  · intro hge
    exact hm.trans ((numberValue_infinity_iff false m).2 hge)

/-- Witness of C10 (amended): the statement on the text `TOTAL: 82/100`,
where totalScore is 82 and percentage stays 0. -/
theorem parseMarkingResponse_scores_witness :
    ((∃ n : Nat, (parseMarkingResponse "TOTAL: 82/100".toList).totalScore =
        numberValue false n ∧
      (n = 0 ∨ ∃ line ∈ split "TOTAL: 82/100".toList "\n".toList, ∃ ds,
        includes line "TOTAL:".toList = true ∧
        matchDigitsThen "/100".toList line = some ds ∧ n = digitsValue 10 ds) ∧
      (n < 2 ^ 53 → (parseMarkingResponse "TOTAL: 82/100".toList).totalScore =
        .integer false n) ∧
      (n < 2 ^ 1024 - 2 ^ 970 → (parseMarkingResponse "TOTAL: 82/100".toList).totalScore =
        .integer false (roundToSignificand n)) ∧
      (2 ^ 1024 - 2 ^ 970 ≤ n → (parseMarkingResponse "TOTAL: 82/100".toList).totalScore =
        .infinity false)) ∧
    (∃ n : Nat, (parseMarkingResponse "TOTAL: 82/100".toList).percentage =
        numberValue false n ∧
      (n = 0 ∨ ∃ line ∈ split "TOTAL: 82/100".toList "\n".toList, ∃ ds,
        includes line "TOTAL:".toList = false ∧ includes line "PERCENTAGE:".toList = true ∧
        matchDigitsThen "%".toList line = some ds ∧ n = digitsValue 10 ds) ∧
      (n < 2 ^ 53 → (parseMarkingResponse "TOTAL: 82/100".toList).percentage =
        .integer false n) ∧
      (n < 2 ^ 1024 - 2 ^ 970 → (parseMarkingResponse "TOTAL: 82/100".toList).percentage =
        .integer false (roundToSignificand n)) ∧
      (2 ^ 1024 - 2 ^ 970 ≤ n → (parseMarkingResponse "TOTAL: 82/100".toList).percentage =
        .infinity false))) ∧
    (parseMarkingResponse "TOTAL: 82/100".toList).totalScore = .integer false 82 ∧
    (parseMarkingResponse "TOTAL: 82/100".toList).percentage = .integer false 0 :=
  ⟨parseMarkingResponse_scores "TOTAL: 82/100".toList, by decide, by decide⟩

/-! ## Lemmas on `split`, `includes` and `trim` for well-formed blocks -/

/-! ## Lemmas on `split` -/

theorem splitGo_skip (sep : Str) (y rest acc : Str) :
    splitGo sep (y ++ rest) y.length acc = splitGo sep rest 0 acc := by
  induction y with
  | nil => rfl
  | cons c cs ih => simpa [splitGo] using ih

theorem splitGo_cons_of_not_startsWith (sep : Str) (c : Char) (cs acc : Str)
    (h : startsWith (c :: cs) sep = false) :
    splitGo sep (c :: cs) 0 acc = splitGo sep cs 0 (c :: acc) := by
  simp [splitGo, h]

theorem startsWith_dashes_append (c : Char) (y t : Str)
    (h : startsWith (c :: y) "---".toList = false) :
    startsWith (c :: (y ++ '\n' :: t)) "---".toList = false := by
  have e : "---".toList = ['-', '-', '-'] := rfl
  rw [e] at h ⊢
  match y with
  | [] => simp [startsWith, List.isPrefixOf]
  | [d] => simp [startsWith, List.isPrefixOf]
  | d :: d' :: y' => simpa [startsWith, List.isPrefixOf] using h

/-- A piece that ends a line and does not contain the delimiter is cut off at
the delimiter that follows it. -/
theorem splitGo_dashes_line (y acc rest : Str) (h : includes y "---".toList = false) :
    splitGo "---".toList (y ++ "\n---".toList ++ rest) 0 acc =
      (acc.reverse ++ y ++ "\n".toList) :: splitGo "---".toList rest 0 [] := by
  have e : "---".toList = ['-', '-', '-'] := rfl
  have e1 : "\n---".toList = ['\n', '-', '-', '-'] := rfl
  have e2 : "\n".toList = ['\n'] := rfl
  induction y generalizing acc with
  | nil =>
    rw [e, e1, e2]
    simp [splitGo, startsWith, List.isPrefixOf]
  | cons c cs ih =>
    simp only [includes, Bool.or_eq_false_iff] at h
    have hs := startsWith_dashes_append c cs ("---".toList ++ rest) h.1
    have hs' : startsWith (c :: (cs ++ "\n---".toList ++ rest)) "---".toList = false := by
      rw [e1]
      simpa using hs
    rw [List.cons_append, List.cons_append, splitGo_cons_of_not_startsWith _ _ _ _ hs',
      ih (c :: acc) h.2]
    simp

theorem splitGo_end (sep : Str) (y acc : Str) (h : includes y sep = false) :
    splitGo sep y 0 acc = [acc.reverse ++ y] := by
  induction y generalizing acc with
  | nil => simp [splitGo]
  | cons c cs ih =>
    simp only [includes, Bool.or_eq_false_iff] at h
    rw [splitGo_cons_of_not_startsWith _ _ _ _ h.1, ih (c :: acc) h.2]
    simp

theorem includes_singleton (s : Str) (c : Char) : includes s [c] = false ↔ c ∉ s := by
  induction s with
  | nil => simp [includes]
  | cons d ds ih =>
    simp only [includes, Bool.or_eq_false_iff, ih, List.mem_cons, not_or]
    have : startsWith (d :: ds) [c] = false ↔ ¬ c = d := by
      simp [startsWith, List.isPrefixOf]
    rw [this]

theorem splitGo_newline_line (y acc rest : Str) (h : '\n' ∉ y) :
    splitGo "\n".toList (y ++ '\n' :: rest) 0 acc =
      (acc.reverse ++ y) :: splitGo "\n".toList rest 0 [] := by
  have e : "\n".toList = ['\n'] := rfl
  induction y generalizing acc with
  | nil =>
    rw [e]
    simp [splitGo, startsWith, List.isPrefixOf]
  | cons c cs ih =>
    have hc : c ≠ '\n' := fun hc => h (by simp [hc])
    have hcs : '\n' ∉ cs := fun hcs => h (List.mem_cons_of_mem _ hcs)
    have hs : startsWith (c :: (cs ++ '\n' :: rest)) "\n".toList = false := by
      rw [e]
      simp [startsWith, List.isPrefixOf, Ne.symm hc]
    rw [List.cons_append, splitGo_cons_of_not_startsWith _ _ _ _ hs, ih (c :: acc) hcs]
    simp

theorem splitGo_newline_end (y acc : Str) (h : '\n' ∉ y) :
    splitGo "\n".toList y 0 acc = [acc.reverse ++ y] :=
  splitGo_end "\n".toList y acc ((includes_singleton y '\n').2 h)


theorem isPrefixOf_append_sep (p x y : Str) (c : Char) (hc : c ∉ p) :
    p.isPrefixOf (x ++ c :: y) = p.isPrefixOf x := by
  induction x generalizing p with
  | nil =>
    cases p with
    | nil => rfl
    | cons a p' =>
      have : a ≠ c := fun e => hc (by simp [e])
      simp [List.isPrefixOf, this]
  | cons d x' ih =>
    cases p with
    | nil => rfl
    | cons a p' =>
      have hp' : c ∉ p' := fun h => hc (List.mem_cons_of_mem _ h)
      rw [List.cons_append]
      simp only [List.isPrefixOf, ih p' hp']

/-- A pattern without the character `c` occurs in `x c y` only inside `x` or
inside `y`. -/
theorem includes_append_sep (p x y : Str) (c : Char) (hc : c ∉ p) (hp : p ≠ []) :
    includes (x ++ c :: y) p = (includes x p || includes y p) := by
  induction x with
  | nil =>
    cases p with
    | nil => exact absurd rfl hp
    | cons a p' =>
      have : a ≠ c := fun e => hc (by simp [e])
      simp [includes, startsWith, List.isPrefixOf, this]
  | cons d x' ih =>
    have := isPrefixOf_append_sep p (d :: x') y c hc
    simp only [List.cons_append] at this
    rw [List.cons_append]
    simp only [includes, startsWith, this, ih, Bool.or_assoc]

theorem includes_of_forall_ne (s : Str) (h : Char) (p : Str) (hs : ∀ d ∈ s, d ≠ h) :
    includes s (h :: p) = false := by
  induction s with
  | nil => rfl
  | cons d ds ih =>
    have hd : h ≠ d := fun e => hs d (List.mem_cons_self _ _) e.symm
    simp [includes, startsWith, List.isPrefixOf, hd,
      ih (fun x hx => hs x (List.mem_cons_of_mem _ hx))]

/-! ## Lemmas on `trim` -/

theorem trimEnd_length_le (s : Str) : (trimEnd s).length ≤ s.length := by
  unfold trimEnd
  rw [List.length_reverse]
  exact (List.dropWhile_suffix _).length_le.trans (by simp)

theorem trimStart_eq_of_trim_eq (x : Str) (h : trim x = x) : trimStart x = x := by
  have h1 : (trim x).length ≤ (trimStart x).length := trimEnd_length_le _
  have h2 : trimStart x <:+ x := List.dropWhile_suffix _
  rw [h] at h1
  exact h2.eq_of_length (Nat.le_antisymm h2.length_le h1)

theorem truthy_trim_of_head (c : Char) (r : Str) (hc : isJsSpace c = false) :
    truthy (trim (c :: r)) = true := by
  have h1 : trimStart (c :: r) = c :: r := by simp [trimStart, List.dropWhile, hc]
  have h2 : (c :: r).reverse.dropWhile isJsSpace ≠ [] := by
    intro h
    rw [List.dropWhile_eq_nil_iff] at h
    have := h c (by simp)
    rw [hc] at this
    exact Bool.false_ne_true this
  unfold trim
  rw [h1]
  unfold trimEnd truthy
  cases hd : (c :: r).reverse.dropWhile isJsSpace with
  | nil => exact absurd hd h2
  | cons a as => simp

/-! ## Lemmas on the lines of a block -/

theorem stripTag_line (t : Char) (num x : Str) (hnum : num ≠ [])
    (hds : ∀ c ∈ num, isDigit c = true) :
    stripTag t (t :: (num ++ ':' :: ' ' :: x)) = trimStart x := by
  have h1 : (num ++ ':' :: ' ' :: x).takeWhile isDigit = num := by
    rw [List.takeWhile_append_of_pos hds]
    simp [List.takeWhile, show isDigit ':' = false by decide]
  have h2 : (num ++ ':' :: ' ' :: x).dropWhile isDigit = ':' :: ' ' :: x := by
    rw [List.dropWhile_append_of_pos hds]
    simp [List.dropWhile, show isDigit ':' = false by decide]
  unfold stripTag
  simp only [h1, h2, true_and, ne_eq, hnum, not_false_eq_true, if_true]
  simp [trimStart, List.dropWhile, show isJsSpace ' ' = true by decide]

theorem quizItemText_eq (it : QuizItem) :
    quizItemText it = tagLine 'Q' it.num it.q ++ '\n' ::
      (tagLine 'A' it.num it.a ++ '\n' :: tagLine 'E' it.num it.e) := by
  simp [quizItemText, tagLine]

theorem trim_space_cons (c : Char) (s : Str) (hc : isJsSpace c = true) :
    trim (c :: s) = trim s := by
  simp [trim, trimStart, List.dropWhile, hc]

theorem truthy_trim_of_mem (s : Str) (c : Char) (hmem : c ∈ s) (hc : isJsSpace c = false) :
    truthy (trim s) = true := by
  induction s with
  | nil => cases hmem
  | cons d r ih =>
    cases hd : isJsSpace d with
    | false => exact truthy_trim_of_head d r hd
    | true =>
      rw [trim_space_cons d r hd]
      rcases List.mem_cons.1 hmem with e | h
      · rw [e, hd] at hc; cases hc
      · exact ih h

theorem not_mem_tagLine (c t : Char) (num x : Str) (ht : c ≠ t) (hc : isDigit c = false)
    (h1 : c ≠ ':') (h2 : c ≠ ' ') (hds : ∀ d ∈ num, isDigit d = true) (hx : c ∉ x) :
    c ∉ tagLine t num x := by
  unfold tagLine
  simp only [List.mem_cons, List.mem_append, not_or]
  refine ⟨ht, ?_, h1, h2, hx⟩
  intro hmem
  exact isDigit_ne (hds c hmem) hc rfl

theorem includes_tagLine_dashes (t : Char) (num x : Str) (ht : t ≠ '-')
    (hds : ∀ d ∈ num, isDigit d = true) (hx : includes x "---".toList = false) :
    includes (tagLine t num x) "---".toList = false := by
  have e : "---".toList = ['-', '-', '-'] := rfl
  rw [e] at hx ⊢
  have h1 : includes (t :: num) ['-', '-', '-'] = false := by
    apply includes_of_forall_ne
    intro d hd
    rcases List.mem_cons.1 hd with rfl | hd
    · exact ht
    · exact isDigit_ne (hds d hd) (by decide)
  have h2 : includes (' ' :: x) ['-', '-', '-'] = false := by
    simp [includes, startsWith, List.isPrefixOf, hx]
  have h3 := includes_append_sep ['-', '-', '-'] (t :: num) (' ' :: x) ':' (by decide) (by simp)
  unfold tagLine
  rw [List.cons_append] at h3
  rw [h3, h1, h2]
  rfl

theorem includes_item_dashes (it : QuizItem) (h : WellFormedItem it) :
    includes (quizItemText it) "---".toList = false := by
  obtain ⟨_, hds, hq, ha, he, _, _⟩ := h
  have e : "---".toList = ['-', '-', '-'] := rfl
  have h1 := includes_tagLine_dashes 'Q' it.num it.q (by decide) hds hq.2.2.2
  have h2 := includes_tagLine_dashes 'A' it.num it.a (by decide) hds ha.2.2.2
  have h3 := includes_tagLine_dashes 'E' it.num it.e (by decide) hds he.2.2.2
  rw [quizItemText_eq, e,
    includes_append_sep _ _ _ '\n' (by decide) (by simp),
    includes_append_sep _ _ _ '\n' (by decide) (by simp)]
  rw [e] at h1 h2 h3
  rw [h1, h2, h3]
  rfl

theorem quizLines_item (it : QuizItem) (h : WellFormedItem it) (pre post : Str)
    (hpre : pre = [] ∨ pre = ['\n']) (hpost : post = [] ∨ post = ['\n']) :
    quizLines (pre ++ quizItemText it ++ post) =
      [tagLine 'Q' it.num it.q, tagLine 'A' it.num it.a, tagLine 'E' it.num it.e] := by
  obtain ⟨_, hds, hq, ha, he, _, _⟩ := h
  have n1 := not_mem_tagLine '\n' 'Q' it.num it.q (by decide) (by decide) (by decide)
    (by decide) hds hq.2.2.1
  have n2 := not_mem_tagLine '\n' 'A' it.num it.a (by decide) (by decide) (by decide)
    (by decide) hds ha.2.2.1
  have n3 := not_mem_tagLine '\n' 'E' it.num it.e (by decide) (by decide) (by decide)
    (by decide) hds he.2.2.1
  have k1 : truthy (trim (tagLine 'Q' it.num it.q)) = true :=
    truthy_trim_of_head _ _ (by decide)
  have k2 : truthy (trim (tagLine 'A' it.num it.a)) = true :=
    truthy_trim_of_head _ _ (by decide)
  have k3 : truthy (trim (tagLine 'E' it.num it.e)) = true :=
    truthy_trim_of_head _ _ (by decide)
  have k0 : truthy (trim []) = false := rfl
  have body : ∀ acc : Str, acc = [] →
      splitGo "\n".toList (quizItemText it ++ post) 0 acc =
        tagLine 'Q' it.num it.q :: tagLine 'A' it.num it.a ::
          splitGo "\n".toList (tagLine 'E' it.num it.e ++ post) 0 [] := by
    intro acc hacc
    subst hacc
    rw [quizItemText_eq, List.append_assoc, List.cons_append, List.append_assoc,
      List.cons_append, splitGo_newline_line _ _ _ n1, splitGo_newline_line _ _ _ n2]
    rfl
  have tail : (splitGo "\n".toList (tagLine 'E' it.num it.e ++ post) 0 []).filter
      (fun line => truthy (trim line)) = [tagLine 'E' it.num it.e] := by
    rcases hpost with rfl | rfl
    · rw [List.append_nil, splitGo_newline_end _ _ n3]
      simp only [List.reverse_nil, List.nil_append, List.filter_cons, k3, if_true,
        List.filter_nil]
    · rw [splitGo_newline_line _ _ _ n3]
      simp only [List.reverse_nil, List.nil_append, List.filter_cons, k3, if_true,
        splitGo, k0, Bool.false_eq_true, if_false, List.filter_nil]
  unfold quizLines split
  rcases hpre with rfl | rfl
  · rw [List.nil_append, body [] rfl]
    simp only [List.filter_cons, k1, k2, if_true, tail]
  · have hnl := splitGo_newline_line [] [] (quizItemText it ++ post) (by simp)
    rw [List.nil_append] at hnl
    rw [List.append_assoc, List.singleton_append, hnl, body [] rfl]
    simp only [List.reverse_nil, List.nil_append, List.filter_cons, k0, Bool.false_eq_true,
      if_false, k1, k2, if_true, tail]

theorem quizLine_q (f : QuizFields) (it : QuizItem) (h : WellFormedItem it) :
    quizLine f (tagLine 'Q' it.num it.q) = { f with question := it.q } := by
  obtain ⟨hnum, hds, hq, _, _, _, _⟩ := h
  have hs : startsWith (tagLine 'Q' it.num it.q) "Q".toList = true := by
    simp [startsWith, tagLine]
  have ht : trim (stripTag 'Q' (tagLine 'Q' it.num it.q)) = it.q := by
    unfold tagLine
    rw [stripTag_line 'Q' it.num it.q hnum hds, trimStart_eq_of_trim_eq _ hq.2.1, hq.2.1]
  unfold quizLine
  rw [hs, ht]
  rfl

theorem quizLine_a (f : QuizFields) (it : QuizItem) (h : WellFormedItem it) :
    quizLine f (tagLine 'A' it.num it.a) = { f with answer := it.a } := by
  obtain ⟨hnum, hds, _, ha, _, hqa, _⟩ := h
  have hs : startsWith (tagLine 'A' it.num it.a) "Q".toList = false := by
    simp [startsWith, tagLine, List.isPrefixOf]
  have hi : includes (tagLine 'A' it.num it.a) "?".toList = false :=
    (includes_singleton _ '?').2 (not_mem_tagLine '?' 'A' it.num it.a (by decide) (by decide)
      (by decide) (by decide) hds hqa)
  have hs' : startsWith (tagLine 'A' it.num it.a) "A".toList = true := by
    simp [startsWith, tagLine]
  have ht : trim (stripTag 'A' (tagLine 'A' it.num it.a)) = it.a := by
    unfold tagLine
    rw [stripTag_line 'A' it.num it.a hnum hds, trimStart_eq_of_trim_eq _ ha.2.1, ha.2.1]
  unfold quizLine
  rw [hs, hi, hs', ht]
  rfl

theorem quizLine_e (f : QuizFields) (it : QuizItem) (h : WellFormedItem it) :
    quizLine f (tagLine 'E' it.num it.e) = { f with explanation := it.e } := by
  obtain ⟨hnum, hds, _, _, he, _, hqe⟩ := h
  have hs : startsWith (tagLine 'E' it.num it.e) "Q".toList = false := by
    simp [startsWith, tagLine, List.isPrefixOf]
  have hi : includes (tagLine 'E' it.num it.e) "?".toList = false :=
    (includes_singleton _ '?').2 (not_mem_tagLine '?' 'E' it.num it.e (by decide) (by decide)
      (by decide) (by decide) hds hqe)
  have hs' : startsWith (tagLine 'E' it.num it.e) "A".toList = false := by
    simp [startsWith, tagLine, List.isPrefixOf]
  have hs'' : startsWith (tagLine 'E' it.num it.e) "E".toList = true := by
    simp [startsWith, tagLine]
  have ht : trim (stripTag 'E' (tagLine 'E' it.num it.e)) = it.e := by
    unfold tagLine
    rw [stripTag_line 'E' it.num it.e hnum hds, trimStart_eq_of_trim_eq _ he.2.1, he.2.1]
  unfold quizLine
  rw [hs, hi, hs', hs'', ht]
  rfl

theorem quizBlock_item (it : QuizItem) (h : WellFormedItem it) (pre post : Str)
    (hpre : pre = [] ∨ pre = ['\n']) (hpost : post = [] ∨ post = ['\n']) (index : Nat) :
    quizBlock (pre ++ quizItemText it ++ post) index =
      some { id := index + 1
             question := it.q
             answer := it.a
             explanation := it.e
             hasDiagram := includes (toLowerCase it.q) "diagram".toList ||
                           includes (toLowerCase it.q) "draw".toList } := by
  have hf : quizFields (pre ++ quizItemText it ++ post) = ⟨it.q, it.a, it.e⟩ := by
    unfold quizFields
    rw [quizLines_item it h pre post hpre hpost]
    simp only [List.foldl_cons, List.foldl_nil, quizLine_q _ it h, quizLine_a _ it h,
      quizLine_e _ it h]
  obtain ⟨_, _, hq, ha, he, _, _⟩ := h
  have tq : truthy it.q = true := by
    cases hx : it.q with
    | nil => exact absurd hx hq.1
    | cons c r => rfl
  have ta : orElse it.a "Check with teacher".toList = it.a := by
    cases hx : it.a with
    | nil => exact absurd hx ha.1
    | cons c r => rfl
  have te : orElse it.e "No explanation provided".toList = it.e := by
    cases hx : it.e with
    | nil => exact absurd hx he.1
    | cons c r => rfl
  unfold quizBlock
  simp only [hf, tq, if_true, ta, te]

theorem truthy_trim_piece (it : QuizItem) (pre post : Str) :
    truthy (trim (pre ++ quizItemText it ++ post)) = true := by
  apply truthy_trim_of_mem _ 'Q' _ (by decide)
  rw [quizItemText_eq]
  simp [tagLine]

/-- The loop over the blocks of a text of well-formed items. -/
theorem quizLoop_quizText (items : List QuizItem) (hne : items ≠ [])
    (hwf : ∀ it ∈ items, WellFormedItem it) (acc : Str) (hacc : acc = [] ∨ acc = ['\n'])
    (index : Nat) (questions : List QuizQuestion) :
    quizLoop ((splitGo "---".toList (quizText items) 0 acc).filter
      (fun block => truthy (trim block))) index questions =
      questions ++ expectedQuestions items index := by
  have hrev : acc.reverse = [] ∨ acc.reverse = ['\n'] := by
    rcases hacc with rfl | rfl
    · exact Or.inl rfl
    · exact Or.inr rfl
  induction items generalizing acc index questions with
  | nil => exact absurd rfl hne
  | cons it rest ih =>
    have hit := hwf it (List.mem_cons_self _ _)
    cases rest with
    | nil =>
      have hend := splitGo_end "---".toList (quizItemText it) acc (includes_item_dashes it hit)
      have hb := quizBlock_item it hit acc.reverse [] hrev (Or.inl rfl) index
      have hk := truthy_trim_piece it acc.reverse []
      rw [List.append_nil] at hb hk
      simp only [quizText, hend, List.filter_cons, hk, if_true, List.filter_nil, quizLoop, hb,
        expectedQuestions]
    | cons it' rest' =>
      have hline := splitGo_dashes_line (quizItemText it) acc ('\n' :: quizText (it' :: rest'))
        (includes_item_dashes it hit)
      have htext : quizText (it :: it' :: rest') =
          quizItemText it ++ "\n---".toList ++ '\n' :: quizText (it' :: rest') := by
        simp [quizText]
      have hnext : splitGo "---".toList ('\n' :: quizText (it' :: rest')) 0 [] =
          splitGo "---".toList (quizText (it' :: rest')) 0 ['\n'] :=
        splitGo_cons_of_not_startsWith _ _ _ _ (by simp [startsWith, List.isPrefixOf])
      have hb := quizBlock_item it hit acc.reverse ['\n'] hrev (Or.inr rfl) index
      have hk := truthy_trim_piece it acc.reverse ['\n']
      have e : "\n".toList = ['\n'] := rfl
      rw [htext, hline, hnext, e]
      simp only [List.filter_cons, hk, if_true, quizLoop, hb]
      rw [ih (by simp) (fun x hx => hwf x (List.mem_cons_of_mem _ hx)) ['\n'] (Or.inr rfl)
        (index + 1) _ (Or.inr rfl)]
      simp [expectedQuestions]


/-! ## Theorems on well-formed quiz blocks -/

theorem expectedQuestions_fields (items : List QuizItem) (index : Nat) :
    (expectedQuestions items index).map (fun x => (x.question, x.answer, x.explanation)) =
      items.map (fun it => (it.q, it.a, it.e)) := by
  induction items generalizing index with
  | nil => rfl
  | cons it rest ih => simp [expectedQuestions, ih]

theorem expectedQuestions_length (items : List QuizItem) (index : Nat) :
    (expectedQuestions items index).length = items.length := by
  induction items generalizing index with
  | nil => rfl
  | cons it rest ih => simp [expectedQuestions, ih]

/-- C2, as stated, fails: the texts are not arbitrary.  An answer that
contains a question mark is taken for the question: for the block
`Q1: What is 2+2` / `A1: Is it 4?` / `E1: Add them` the question returned is
the whole answer line and the answer is the default. -/
theorem parseQuizResponse_answer_question_mark :
    (parseQuizResponse (quizText
      [{ num := "1".toList, q := "What is 2+2".toList, a := "Is it 4?".toList,
         e := "Add them".toList }])).map
      (fun x => (x.question, x.answer, x.explanation)) =
      [("A1: Is it 4?".toList, "Check with teacher".toList, "Add them".toList)] ∧
    (parseQuizResponse (quizText
      [{ num := "1".toList, q := "What is 2+2".toList, a := "Is it 4?".toList,
         e := "Add them".toList }])).map
      (fun x => (x.question, x.answer, x.explanation)) ≠
      [("What is 2+2".toList, "Is it 4?".toList, "Add them".toList)] := by
  decide

/-- C2, amended: for a text made of one or more blocks separated by a line
`---`, each block being the lines `Q<n>: q`, `A<n>: a`, `E<n>: e` with `n` a
run of digits and q, a, e non-empty, on one line, without white space at
either end and without `---`, and a and e without a question mark, the
extractor returns one question per block, in order, with ids 1, 2, ... and
question, answer and explanation equal to q, a and e. -/
theorem parseQuizResponse_wellFormed (items : List QuizItem) (hne : items ≠ [])
    (hwf : ∀ it ∈ items, WellFormedItem it) :
    parseQuizResponse (quizText items) = expectedQuestions items 0 ∧
    (parseQuizResponse (quizText items)).map
      (fun x => (x.question, x.answer, x.explanation)) =
      items.map (fun it => (it.q, it.a, it.e)) := by
  have hloop : quizLoop (quizBlocks (quizText items)) 0 [] = expectedQuestions items 0 := by
    have := quizLoop_quizText items hne hwf [] (Or.inl rfl) 0 []
    simpa [quizBlocks, split] using this
  have hlen : (expectedQuestions items 0).length > 0 := by
    rw [expectedQuestions_length]
    exact List.length_pos.2 hne
  have hres : parseQuizResponse (quizText items) = expectedQuestions items 0 := by
    unfold parseQuizResponse
    simp only [hloop, hlen, if_true]
  exact ⟨hres, by rw [hres, expectedQuestions_fields]⟩

/-- Witness of C2 (amended): two well-formed blocks. -/
theorem parseQuizResponse_wellFormed_witness :
    parseQuizResponse (quizText
      [{ num := "1".toList, q := "What is photosynthesis?".toList,
         a := "Plants make food using sunlight".toList,
         e := "Chlorophyll captures light energy".toList },
       { num := "2".toList, q := "Draw a plant cell".toList,
         a := "A labelled diagram - wall, membrane, nucleus".toList,
         e := "See the textbook".toList }]) =
      expectedQuestions
      [{ num := "1".toList, q := "What is photosynthesis?".toList,
         a := "Plants make food using sunlight".toList,
         e := "Chlorophyll captures light energy".toList },
       { num := "2".toList, q := "Draw a plant cell".toList,
         a := "A labelled diagram - wall, membrane, nucleus".toList,
         e := "See the textbook".toList }] 0 :=
  (parseQuizResponse_wellFormed _ (by decide) (by decide)).1

/-! ## Lemmas on the symposium expression -/

theorem matchTag_tag (letter : Char) (num rest : Str) (hne : num ≠ [])
    (hds : ∀ c ∈ num, isDigit c = true) :
    matchTag letter ('[' :: letter :: (num ++ ']' :: rest)) = some (num, rest) := by
  have h := digitsThen_digits "]".toList ']' [] rfl (by decide) num rest hne hds
  have e : num ++ "]".toList ++ rest = num ++ ']' :: rest := by simp
  have e' : "]".toList = [']'] := rfl
  rw [e, e'] at h
  simp [matchTag, h]

theorem matchTag_of_ne (letter c : Char) (r : Str) (hc : c ≠ '[') :
    matchTag letter (c :: r) = none := by
  unfold matchTag
  split
  · rename_i heq
    simp only [List.cons.injEq] at heq
    exact absurd heq.1 hc
  · rfl

theorem lazyAny_skip {α : Type} (k : Str → Option α) (x rest acc : Str)
    (hk : ∀ c ∈ x, ∀ r, k (c :: r) = none) :
    lazyAny k (x ++ rest) acc = lazyAny k rest (x.reverse ++ acc) := by
  induction x generalizing acc with
  | nil => rfl
  | cons c cs ih =>
    have h1 := hk c (List.mem_cons_self _ _) (cs ++ rest)
    rw [List.cons_append]
    simp only [lazyAny, h1]
    rw [ih (c :: acc) (fun d hd r => hk d (List.mem_cons_of_mem _ hd) r)]
    simp

theorem lazyAny_hit {α : Type} (k : Str → Option α) (rest acc : Str) (r : α)
    (hk : k rest = some r) : lazyAny k rest acc = some (acc.reverse, r) := by
  cases rest with
  | nil => simp [lazyAny, hk]
  | cons _ _ => simp [lazyAny, hk]

/-- A lazy group over a text `x` that the rest of the expression cannot start
in, followed by a place where it can. -/
theorem lazyAny_text {α : Type} (k : Str → Option α) (x rest : Str) (r : α)
    (hk : ∀ c ∈ x, ∀ r, k (c :: r) = none) (hr : k rest = some r) :
    lazyAny k (x ++ rest) [] = some (x, r) := by
  rw [lazyAny_skip k x rest [] hk, lazyAny_hit k rest _ r hr]
  simp

theorem lookEnd_of_ne (c : Char) (r : Str) (hc : c ≠ '[') : lookEnd (c :: r) = none := by
  simp [lookEnd, startsWith, List.isPrefixOf, Ne.symm hc]

theorem tailD_of_ne (c : Char) (r : Str) (hc : c ≠ '[') : tailD (c :: r) = none := by
  simp [tailD, matchTag_of_ne _ c r hc, lookEnd_of_ne c r hc]

theorem tailT_of_ne (c : Char) (r : Str) (hc : c ≠ '[') : tailT (c :: r) = none := by
  simp [tailT, matchTag_of_ne _ c r hc, tailD_of_ne c r hc]

theorem ne_of_not_mem {x : Str} (h : '[' ∉ x) : ∀ c ∈ x, c ≠ '[' :=
  fun _ hc e => h (e ▸ hc)

theorem lookEnd_segmentEnd (rest : Str) (h : SegmentEnd rest) : lookEnd rest = some rest := by
  rcases h with rfl | ⟨r, rfl⟩
  · rfl
  · simp [lookEnd, startsWith, List.isPrefixOf]

theorem tailD_segment (dn d rest : Str) (hdn : dn ≠ [] ∧ ∀ c ∈ dn, isDigit c = true)
    (hd : '[' ∉ d) (hrest : SegmentEnd rest) :
    tailD ('[' :: 'D' :: (dn ++ ']' :: (d ++ rest))) = some (some d, rest) := by
  have h1 := matchTag_tag 'D' dn (d ++ rest) hdn.1 hdn.2
  have h2 := lazyAny_text lookEnd d rest rest
    (fun c hc r => lookEnd_of_ne c r (ne_of_not_mem hd c hc)) (lookEnd_segmentEnd rest hrest)
  simp [tailD, h1, h2]

theorem tailT_segment (tn t dn d rest : Str) (htn : tn ≠ [] ∧ ∀ c ∈ tn, isDigit c = true)
    (hdn : dn ≠ [] ∧ ∀ c ∈ dn, isDigit c = true) (ht : '[' ∉ t) (hd : '[' ∉ d)
    (hrest : SegmentEnd rest) :
    tailT ('[' :: 'T' :: (tn ++ ']' :: (t ++ '[' :: 'D' :: (dn ++ ']' :: (d ++ rest))))) =
      some (some t, some d, rest) := by
  have h1 := matchTag_tag 'T' tn (t ++ '[' :: 'D' :: (dn ++ ']' :: (d ++ rest))) htn.1 htn.2
  have h2 := lazyAny_text tailD t _ _
    (fun c hc r => tailD_of_ne c r (ne_of_not_mem ht c hc)) (tailD_segment dn d rest hdn hd hrest)
  simp [tailT, h1, h2]

theorem symSegmentText_eq (s : SymSegment) (rest : Str) :
    symSegmentText s ++ rest =
      '[' :: 'Q' :: (s.qn ++ ']' :: (s.q ++ '[' :: 'A' :: (s.an ++ ']' :: (s.a ++
        '[' :: 'T' :: (s.tn ++ ']' :: (s.t ++ '[' :: 'D' :: (s.dn ++ ']' :: (s.d ++ rest)))))))) := by
  simp [symSegmentText]

theorem matchAt_segment (s : SymSegment) (hs : WellFormedSegment s) (rest : Str)
    (hrest : SegmentEnd rest) :
    matchAt (symSegmentText s ++ rest) =
      some { g1 := s.qn, g2 := s.q, g3 := s.a, g4 := some s.t, g5 := some s.d, rest := rest } := by
  obtain ⟨hqn, han, htn, hdn, hq, ha, ht, hd⟩ := hs
  have h1 := matchTag_tag 'Q' s.qn (s.q ++ '[' :: 'A' :: (s.an ++ ']' :: (s.a ++
        '[' :: 'T' :: (s.tn ++ ']' :: (s.t ++ '[' :: 'D' :: (s.dn ++ ']' :: (s.d ++ rest)))))))
    hqn.1 hqn.2
  have h2 := matchTag_tag 'A' s.an (s.a ++
        '[' :: 'T' :: (s.tn ++ ']' :: (s.t ++ '[' :: 'D' :: (s.dn ++ ']' :: (s.d ++ rest)))))
    han.1 han.2
  have h3 := lazyAny_text tailT s.a _ _
    (fun c hc r => tailT_of_ne c r (ne_of_not_mem ha c hc))
    (tailT_segment s.tn s.t s.dn s.d rest htn hdn ht hd hrest)
  have h4 := lazyAny_text
    (fun s2 => (matchTag 'A' s2).bind fun a => lazyAny tailT a.2 []) s.q
    ('[' :: 'A' :: (s.an ++ ']' :: (s.a ++
        '[' :: 'T' :: (s.tn ++ ']' :: (s.t ++ '[' :: 'D' :: (s.dn ++ ']' :: (s.d ++ rest)))))))
    (s.a, some s.t, some s.d, rest)
    (fun c hc r => by simp [matchTag_of_ne _ c r (ne_of_not_mem hq c hc)])
    (by simp [h2, h3])
  rw [symSegmentText_eq]
  unfold matchAt
  rw [h1]
  simp only [Option.some_bind]
  rw [h4]
  rfl

theorem symRecord_segment (s : SymSegment) (hs : WellFormedSegment s) (rest : Str) :
    symRecord { g1 := s.qn, g2 := s.q, g3 := s.a, g4 := some s.t, g5 := some s.d, rest := rest } =
      expectedRecord s := by
  simp [symRecord, expectedRecord, parseInt_digits s.qn hs.1.1 hs.1.2]

theorem symLoop_skip (count : Nat) (x rest : Str) (questions : List SymposiumQuestion) :
    symLoop count (x ++ rest) x.length questions = symLoop count rest 0 questions := by
  induction x with
  | nil => rfl
  | cons c cs ih => simpa [symLoop] using ih

theorem symText_segmentEnd (segs : List SymSegment) : SegmentEnd (symText segs) := by
  cases segs with
  | nil => exact Or.inl rfl
  | cons s rest =>
    right
    rw [symText, symSegmentText_eq]
    exact ⟨_, rfl⟩

theorem symLoop_segment (count : Nat) (s : SymSegment) (hs : WellFormedSegment s) (rest : Str)
    (hrest : SegmentEnd rest) (questions : List SymposiumQuestion) :
    symLoop count (symSegmentText s ++ rest) 0 questions =
      if questions.length < count then
        symLoop count rest 0 (questions ++ [expectedRecord s])
      else questions := by
  have hm := matchAt_segment s hs rest hrest
  have hrec := symRecord_segment s hs rest
  obtain ⟨tl, htl⟩ : ∃ tl, symSegmentText s = '[' :: tl := ⟨_, by
    have := symSegmentText_eq s []
    rw [List.append_nil] at this
    exact this⟩
  rw [htl] at hm ⊢
  rw [List.cons_append] at hm ⊢
  simp only [symLoop, hm, hrec]
  split
  · have e : ('[' :: (tl ++ rest)).length - rest.length - 1 = tl.length := by
      simp only [List.length_cons, List.length_append]
      omega
    rw [e, symLoop_skip]
  · rfl

theorem symLoop_symText (count : Nat) (segs : List SymSegment)
    (hwf : ∀ s ∈ segs, WellFormedSegment s) (questions : List SymposiumQuestion) :
    symLoop count (symText segs) 0 questions =
      questions ++ (segs.take (count - questions.length)).map expectedRecord := by
  induction segs generalizing questions with
  | nil => simp [symText, symLoop]
  | cons s rest ih =>
    have hs := hwf s (List.mem_cons_self _ _)
    have hr : ∀ s' ∈ rest, WellFormedSegment s' := fun x hx => hwf x (List.mem_cons_of_mem _ hx)
    rw [symText, symLoop_segment count s hs _ (symText_segmentEnd rest)]
    split
    · rename_i hlt
      rw [ih hr]
      obtain ⟨k, hk⟩ : ∃ k, count - questions.length = k + 1 := ⟨count - questions.length - 1, by omega⟩
      have hk' : count - (questions ++ [expectedRecord s]).length = k := by
        simp; omega
      rw [hk, hk']
      simp
    · rename_i hge
      have : count - questions.length = 0 := by omega
      simp [this]

theorem symLoop_length_le (count : Nat) (s : Str) (skip : Nat)
    (questions : List SymposiumQuestion) (h : questions.length ≤ count) :
    (symLoop count s skip questions).length ≤ count := by
  induction s generalizing skip questions with
  | nil => simpa [symLoop] using h
  | cons c cs ih =>
    cases skip with
    | succ k => simpa [symLoop] using ih k questions h
    | zero =>
      simp only [symLoop]
      split
      · split
        · apply ih
          simp
          omega
        · exact h
      · exact ih 0 questions h


/-! ## Theorems on the symposium extractor -/

/-- C4, as stated, fails: the id is the Number value of the tag number, so a
well-formed segment whose Q tag number is `2 ^ 53 + 1` gets the id `2 ^ 53`. -/
theorem parseSymposiumQuestions_id_rounded :
    WellFormedSegment
      { qn := "9007199254740993".toList, an := "1".toList, tn := "1".toList, dn := "1".toList,
        q := " q ".toList, a := " a ".toList, t := " 90 ".toList, d := " easy".toList } ∧
    symText
      [{ qn := "9007199254740993".toList, an := "1".toList, tn := "1".toList, dn := "1".toList,
         q := " q ".toList, a := " a ".toList, t := " 90 ".toList, d := " easy".toList }] =
      "[Q9007199254740993] q [A1] a [T1] 90 [D1] easy".toList ∧
    digitsValue 10 "9007199254740993".toList = 9007199254740993 ∧
    (parseSymposiumQuestions "[Q9007199254740993] q [A1] a [T1] 90 [D1] easy".toList 1).map
      (fun r => r.id) = [.integer false 9007199254740992] := by
  decide

/-- C4, amended: for a text made of n well-formed segments
`[Q..]q[A..]a[T..]t[D..]d` (tag numbers are runs of digits, the texts contain
no `[`) and a count between 0 and n, the extractor returns exactly count
records, the i-th from the i-th segment, with id the Number value of the
number of its Q tag: that number itself below `2 ^ 53`, the nearest double in
general; and for every text and count the result has at most count records. -/
theorem parseSymposiumQuestions_wellFormed (segs : List SymSegment) (count : Nat)
    (hwf : ∀ s ∈ segs, WellFormedSegment s) (hcount : count ≤ segs.length) :
    parseSymposiumQuestions (symText segs) count = (segs.take count).map expectedRecord ∧
    (parseSymposiumQuestions (symText segs) count).length = count ∧
    (∀ (i : Nat) (s : SymSegment), i < count → segs[i]? = some s →
      ∃ r, (parseSymposiumQuestions (symText segs) count)[i]? = some r ∧
        r = expectedRecord s ∧ r.id = numberValue false (digitsValue 10 s.qn) ∧
        (digitsValue 10 s.qn < 2 ^ 53 → r.id = .integer false (digitsValue 10 s.qn))) ∧
    (∀ (text : Str) (n : Nat), (parseSymposiumQuestions text n).length ≤ n) := by
  have hres : parseSymposiumQuestions (symText segs) count =
      (segs.take count).map expectedRecord := by
    unfold parseSymposiumQuestions
    rw [symLoop_symText count segs hwf []]
    simp
  refine ⟨hres, ?_, ?_, ?_⟩
  · rw [hres, List.length_map, List.length_take]
    omega
  · intro i s hi hs
    refine ⟨expectedRecord s, ?_, rfl, rfl, fun hlt => numberValue_exact false _ hlt⟩
    rw [hres, List.getElem?_map, List.getElem?_take_of_lt hi, hs]
    rfl
  · intro text n
    exact symLoop_length_le n text 0 [] (Nat.zero_le _)

set_option maxRecDepth 20000 in
/-- Witness of C4 (amended): fifteen well-formed segments, numbered 1 to 15,
and count 12 give exactly twelve records, with the ids 1 to 12 in order. -/
theorem parseSymposiumQuestions_wellFormed_witness :
    (parseSymposiumQuestions (symText sampleSegments) 12).length = 12 ∧
    (parseSymposiumQuestions (symText sampleSegments) 12).map (fun r => r.id) =
      (List.range 12).map (fun k => JsNumber.integer false (k + 1)) :=
  ⟨(parseSymposiumQuestions_wellFormed sampleSegments 12 (by decide) (by decide)).2.1,
   (parseSymposiumQuestions_wellFormed sampleSegments 12 (by decide) (by decide)).1 ▸
     (by decide)⟩

/-! ## Lemmas and theorem on hasDiagram -/

theorem toLower_of_special (c : Char) (h : c.toNat = 0x130 ∨ c.toNat = 0x212A) :
    c.toLower = c := by
  unfold Char.toLower
  simp only
  split
  · rename_i h1
    omega
  · rfl

theorem plainWord_cons (x : Char) (w : Str) (h : plainWord (x :: w) = true) :
    plainChar x = true ∧ plainWord w = true ∧ (x = 'i' → w ≠ []) := by
  cases w with
  | nil =>
    simp only [plainWord, Bool.and_eq_true, bne_iff_ne, ne_eq] at h
    exact ⟨h.1, rfl, fun hx => absurd hx h.2⟩
  | cons y rest =>
    simp only [plainWord, Bool.and_eq_true] at h
    exact ⟨h.1, h.2, fun _ => by simp⟩

theorem plainChar_spec (x : Char) (h : plainChar x = true) :
    x ≠ 'k' ∧ x.toNat ≠ 0x130 ∧ x.toNat ≠ 0x212A ∧ x.toNat ≠ 0x307 := by
  simp only [plainChar, Bool.and_eq_true, bne_iff_ne, ne_eq] at h
  exact ⟨h.1.1.1, h.1.1.2, h.1.2, h.2⟩

/-- A plain word starts the lower-cased text exactly when the text starts with
the word up to the case of ASCII letters. -/
theorem isPrefixOf_toLowerCase (w s : Str) (hw : plainWord w = true) :
    w.isPrefixOf (toLowerCase s) = true ↔ ∃ mid, mid <+: s ∧ mid.map Char.toLower = w := by
  induction w generalizing s with
  | nil => exact ⟨fun _ => ⟨[], List.nil_prefix, rfl⟩, fun _ => by simp⟩
  | cons x w' ih =>
    obtain ⟨hx, hw', hi⟩ := plainWord_cons x w' hw
    obtain ⟨hk, h130, h212, h307⟩ := plainChar_spec x hx
    cases s with
    | nil =>
      constructor
      · intro h; simp [toLowerCase] at h
      · rintro ⟨mid, hmid, hmap⟩
        have : mid = [] := List.prefix_nil.1 hmid
        subst this
        simp at hmap
    | cons c s' =>
      have hflat : toLowerCase (c :: s') = lowerChar c ++ toLowerCase s' := by
        simp [toLowerCase]
      have hrhs : (∃ mid, mid <+: c :: s' ∧ mid.map Char.toLower = x :: w') ↔
          c.toLower = x ∧ ∃ mid', mid' <+: s' ∧ mid'.map Char.toLower = w' := by
        constructor
        · rintro ⟨mid, hmid, hmap⟩
          cases mid with
          | nil => simp at hmap
          | cons m mid' =>
            simp only [List.map_cons, List.cons.injEq] at hmap
            rw [List.cons_prefix_cons] at hmid
            exact ⟨hmid.1 ▸ hmap.1, mid', hmid.2, hmap.2⟩
        · rintro ⟨hc, mid', hmid', hmap'⟩
          exact ⟨c :: mid', by rw [List.cons_prefix_cons]; exact ⟨rfl, hmid'⟩, by simp [hc, hmap']⟩
      rw [hflat, hrhs]
      by_cases c130 : c.toNat = 0x130
      · have hl : lowerChar c = ['i', Char.ofNat 0x307] := by simp [lowerChar, c130]
        have hne : c.toLower ≠ x := by
          rw [toLower_of_special c (Or.inl c130)]
          intro e
          exact h130 (e ▸ c130)
        rw [hl]
        constructor
        · intro h
          exfalso
          simp only [List.cons_append, List.nil_append, List.isPrefixOf, Bool.and_eq_true,
            beq_iff_eq] at h
          have hxi := h.1
          cases w' with
          | nil => exact hi hxi rfl
          | cons y w'' =>
            have hy := (plainWord_cons y w'' hw').1
            have hy307 := (plainChar_spec y hy).2.2.2
            simp only [List.isPrefixOf, Bool.and_eq_true, beq_iff_eq] at h
            apply hy307
            rw [h.2.1]
            decide
        · intro h
          exact absurd h.1 hne
      · by_cases c212 : c.toNat = 0x212A
        · have hl : lowerChar c = ['k'] := by simp [lowerChar, c130, c212]
          have hne : c.toLower ≠ x := by
            rw [toLower_of_special c (Or.inr c212)]
            intro e
            exact h212 (e ▸ c212)
          rw [hl]
          constructor
          · intro h
            simp only [List.cons_append, List.nil_append, List.isPrefixOf, Bool.and_eq_true,
              beq_iff_eq] at h
            exact absurd h.1 hk
          · intro h
            exact absurd h.1 hne
        · have hl : lowerChar c = [c.toLower] := by simp [lowerChar, c130, c212]
          rw [hl, List.singleton_append]
          simp only [List.isPrefixOf, Bool.and_eq_true, beq_iff_eq, ih s' hw']
          constructor
          · rintro ⟨h1, h2⟩
            exact ⟨h1.symm, h2⟩
          · rintro ⟨h1, h2⟩
            exact ⟨h1.symm, h2⟩


theorem includes_lowerChar_append (w : Str) (c : Char) (rest : Str) (hw : plainWord w = true)
    (hne : w ≠ []) :
    includes (lowerChar c ++ rest) w = (startsWith (lowerChar c ++ rest) w || includes rest w) := by
  by_cases c130 : c.toNat = 0x130
  · have hl : lowerChar c = ['i', Char.ofNat 0x307] := by simp [lowerChar, c130]
    cases w with
    | nil => exact absurd rfl hne
    | cons x w' =>
      have hx := (plainChar_spec x (plainWord_cons x w' hw).1).2.2.2
      have hx' : x ≠ Char.ofNat 0x307 := by
        intro e
        apply hx
        rw [e]
        decide
      have hmid : startsWith (Char.ofNat 0x307 :: rest) (x :: w') = false := by
        simp [startsWith, List.isPrefixOf, hx']
      rw [hl, show ['i', Char.ofNat 0x307] ++ rest = 'i' :: Char.ofNat 0x307 :: rest from rfl]
      simp only [includes, hmid, Bool.false_or]
  · by_cases c212 : c.toNat = 0x212A
    · have hl : lowerChar c = ['k'] := by simp [lowerChar, c130, c212]
      rw [hl, List.singleton_append]
      simp only [includes]
    · have hl : lowerChar c = [c.toLower] := by simp [lowerChar, c130, c212]
      rw [hl, List.singleton_append]
      simp only [includes]

/-- A plain word occurs in the lower-cased text exactly when the text contains
the word up to the case of ASCII letters. -/
theorem includes_toLowerCase (w s : Str) (hw : plainWord w = true) (hne : w ≠ []) :
    includes (toLowerCase s) w = true ↔ ∃ mid, mid <:+: s ∧ mid.map Char.toLower = w := by
  induction s with
  | nil =>
    constructor
    · intro h
      cases w with
      | nil => exact absurd rfl hne
      | cons x w' => simp [toLowerCase, includes] at h
    · rintro ⟨mid, hmid, hmap⟩
      have : mid = [] := List.infix_nil.1 hmid
      subst this
      exact absurd hmap.symm hne
  | cons c s' ih =>
    have hflat : toLowerCase (c :: s') = lowerChar c ++ toLowerCase s' := by
      simp [toLowerCase]
    have hpre := isPrefixOf_toLowerCase w (c :: s') hw
    rw [hflat] at hpre
    rw [hflat, includes_lowerChar_append w c _ hw hne, Bool.or_eq_true, ih]
    unfold startsWith
    rw [hpre]
    constructor
    · rintro (⟨mid, hmid, hmap⟩ | ⟨mid, hmid, hmap⟩)
      · exact ⟨mid, hmid.isInfix, hmap⟩
      · exact ⟨mid, List.infix_cons hmid, hmap⟩
    · rintro ⟨mid, hmid, hmap⟩
      rcases List.infix_cons_iff.1 hmid with h | h
      · exact Or.inl ⟨mid, h, hmap⟩
      · exact Or.inr ⟨mid, h, hmap⟩

theorem quizBlock_hasDiagram {block : Str} {index : Nat} {q : QuizQuestion}
    (h : quizBlock block index = some q) :
    q.hasDiagram = (includes (toLowerCase q.question) "diagram".toList ||
      includes (toLowerCase q.question) "draw".toList) := by
  unfold quizBlock at h
  simp only at h
  split at h
  · cases h; rfl
  · cases h

theorem parseQuizResponse_mem (response : Str) (q : QuizQuestion)
    (hq : q ∈ parseQuizResponse response) :
    q = placeholderQuestion ∨ ∃ b k, quizBlock b k = some q := by
  unfold parseQuizResponse at hq
  simp only [quizLoop_eq_append, List.nil_append] at hq
  split at hq
  · obtain ⟨k, b, _, hb⟩ := quizLoopAdds_mem _ 0 q hq
    exact Or.inr ⟨b, 0 + k, hb⟩
  · exact Or.inl (by simpa using hq)

/-- C11: every question returned by the quiz extractor, the placeholder
included, has hasDiagram true exactly when its text, lower-cased, contains
`diagram` or `draw`; that is, exactly when the text contains one of the two
words up to the case of ASCII letters. -/
theorem parseQuizResponse_hasDiagram (response : Str) (q : QuizQuestion)
    (hq : q ∈ parseQuizResponse response) :
    (q.hasDiagram = true ↔
      includes (toLowerCase q.question) "diagram".toList = true ∨
      includes (toLowerCase q.question) "draw".toList = true) ∧
    (q.hasDiagram = true ↔
      ∃ mid, mid <:+: q.question ∧
        (mid.map Char.toLower = "diagram".toList ∨ mid.map Char.toLower = "draw".toList)) := by
  have key : q.hasDiagram = (includes (toLowerCase q.question) "diagram".toList ||
      includes (toLowerCase q.question) "draw".toList) := by
    rcases parseQuizResponse_mem response q hq with rfl | ⟨b, k, hb⟩
    · decide
    · exact quizBlock_hasDiagram hb
  have h1 := includes_toLowerCase "diagram".toList q.question (by decide) (by decide)
  have h2 := includes_toLowerCase "draw".toList q.question (by decide) (by decide)
  constructor
  · rw [key, Bool.or_eq_true]
  · rw [key, Bool.or_eq_true, h1, h2]
    constructor
    · rintro (⟨mid, hmid, hmap⟩ | ⟨mid, hmid, hmap⟩)
      · exact ⟨mid, hmid, Or.inl hmap⟩
      · exact ⟨mid, hmid, Or.inr hmap⟩
    · rintro ⟨mid, hmid, hmap | hmap⟩
      · exact Or.inl ⟨mid, hmid, hmap⟩
      · exact Or.inr ⟨mid, hmid, hmap⟩

/-- Witness of C11: a question asking to draw. -/
theorem parseQuizResponse_hasDiagram_witness :
    ((⟨1, "DRAW a leaf".toList, "Check with teacher".toList,
        "No explanation provided".toList, true⟩ : QuizQuestion).hasDiagram = true ↔
      includes (toLowerCase "DRAW a leaf".toList) "diagram".toList = true ∨
      includes (toLowerCase "DRAW a leaf".toList) "draw".toList = true) ∧
    ((⟨1, "DRAW a leaf".toList, "Check with teacher".toList,
        "No explanation provided".toList, true⟩ : QuizQuestion).hasDiagram = true ↔
      ∃ mid, mid <:+: "DRAW a leaf".toList ∧
        (mid.map Char.toLower = "diagram".toList ∨ mid.map Char.toLower = "draw".toList)) :=
  parseQuizResponse_hasDiagram "Q1: DRAW a leaf".toList
    ⟨1, "DRAW a leaf".toList, "Check with teacher".toList, "No explanation provided".toList, true⟩
    (by decide)

/-! ## Theorem on the defaults of the context prompt -/

/-- C14: with every field of the options absent, the system message of the
call carries the defaults `Form 3`, `8-4-4` and `General`, but the user
message built by `buildContextPrompt` carries the text `undefined` for the
level, the subject, the curriculum and the request type, for every user
message; none of the four defaults occurs in it. -/
theorem callAI_context_prompt_undefined :
    (∀ (config : Config) (history : List Exchange) (userMessage : Str),
      (callRequest config history userMessage noOptions).messages =
        [{ role := Role.system,
           content := some (config.systemPrompt ++
             "\n\nCurrent Student: Form 3, 8-4-4, Subject: General".toList) }] ++
        sliceLast 6 history ++
        [{ role := Role.user,
           content := some ("[STUDENT LEVEL: undefined] \n[SUBJECT: undefined]\n".toList ++
             "[CURRICULUM: undefined]\n[REQUEST TYPE: undefined]\n\nUser asks: \"".toList ++
             userMessage ++ "\"\n\nPlease respond as a dedicated Kenyan tutor.".toList) }]) ∧
    includes (buildContextPrompt "What is osmosis?".toList noOptions) "general".toList = false ∧
    includes (buildContextPrompt "What is osmosis?".toList noOptions) "General".toList = false ∧
    includes (buildContextPrompt "What is osmosis?".toList noOptions) "Form 3".toList = false ∧
    includes (buildContextPrompt "What is osmosis?".toList noOptions) "8-4-4".toList = false := by
  refine ⟨?_, by decide, by decide, by decide, by decide⟩
  intro config history userMessage
  simp [callRequest, prepareMessages, buildContextPrompt, noOptions, interp]

/-! ## Lemmas and theorems on feedback and improvement -/

theorem markingLine_feedback (r : MarkingResult) (line : Str) (h : feedbackLine line = true) :
    (markingLine r line).feedback = some (trim (removeFirst "FEEDBACK:".toList line)) := by
  simp only [feedbackLine, Bool.and_eq_true, Bool.not_eq_true'] at h
  unfold markingLine
  rw [h.1.1, h.1.2, h.2]
  rfl

theorem markingLine_feedback_keep (r : MarkingResult) (line : Str)
    (h : feedbackLine line = false) : (markingLine r line).feedback = r.feedback := by
  unfold markingLine
  cases hT : includes line "TOTAL:".toList with
  | true => simp only [if_true]; split <;> rfl
  | false =>
    cases hP : includes line "PERCENTAGE:".toList with
    | true => simp only [Bool.false_eq_true, if_false, if_true]; split <;> rfl
    | false =>
      have hF : includes line "FEEDBACK:".toList = false := by
        unfold feedbackLine at h
        rw [hT, hP] at h
        simpa using h
      rw [hF]
      simp only [Bool.false_eq_true, if_false]
      split <;> rfl

theorem markingLine_improvement (r : MarkingResult) (line : Str)
    (h : improvementLine line = true) :
    (markingLine r line).improvement = some (trim (removeFirst "IMPROVEMENT:".toList line)) := by
  simp only [improvementLine, Bool.and_eq_true, Bool.not_eq_true'] at h
  unfold markingLine
  rw [h.1.1.1, h.1.1.2, h.1.2, h.2]
  rfl

theorem markingLine_improvement_keep (r : MarkingResult) (line : Str)
    (h : improvementLine line = false) : (markingLine r line).improvement = r.improvement := by
  unfold markingLine
  cases hT : includes line "TOTAL:".toList with
  | true => simp only [if_true]; split <;> rfl
  | false =>
    cases hP : includes line "PERCENTAGE:".toList with
    | true => simp only [Bool.false_eq_true, if_false, if_true]; split <;> rfl
    | false =>
      cases hF : includes line "FEEDBACK:".toList with
      | true => simp only [Bool.false_eq_true, if_false, if_true]
      | false =>
        have hI : includes line "IMPROVEMENT:".toList = false := by
          unfold improvementLine at h
          rw [hT, hP, hF] at h
          simpa using h
        rw [hI]
        simp only [Bool.false_eq_true, if_false]

theorem foldl_feedback_keep (ls : List Str) (r : MarkingResult)
    (h : ∀ l ∈ ls, feedbackLine l = false) :
    (ls.foldl markingLine r).feedback = r.feedback := by
  induction ls generalizing r with
  | nil => rfl
  | cons l rest ih =>
    rw [List.foldl_cons, ih _ (fun x hx => h x (List.mem_cons_of_mem _ hx)),
      markingLine_feedback_keep r l (h l (List.mem_cons_self _ _))]

theorem foldl_improvement_keep (ls : List Str) (r : MarkingResult)
    (h : ∀ l ∈ ls, improvementLine l = false) :
    (ls.foldl markingLine r).improvement = r.improvement := by
  induction ls generalizing r with
  | nil => rfl
  | cons l rest ih =>
    rw [List.foldl_cons, ih _ (fun x hx => h x (List.mem_cons_of_mem _ hx)),
      markingLine_improvement_keep r l (h l (List.mem_cons_self _ _))]

theorem removeFirst_after_space (m : Char) (pat ws rest : Str) (hm : isJsSpace m = false)
    (hws : ∀ c ∈ ws, isJsSpace c = true) :
    removeFirst (m :: pat) (ws ++ (m :: pat) ++ rest) = ws ++ rest := by
  induction ws with
  | nil =>
    have hs : startsWith (m :: (pat ++ rest)) (m :: pat) = true := by
      simp [startsWith]
    simp [removeFirst, hs]
  | cons c cs ih =>
    have hc : c ≠ m := by
      intro e
      have := hws c (List.mem_cons_self _ _)
      rw [e, hm] at this
      cases this
    have hs : startsWith (c :: (cs ++ (m :: pat) ++ rest)) (m :: pat) = false := by
      simp [startsWith, List.isPrefixOf, Ne.symm hc]
    rw [List.cons_append, List.cons_append]
    simp only [removeFirst, hs, Bool.false_eq_true, if_false]
    rw [ih (fun x hx => hws x (List.mem_cons_of_mem _ hx))]
    rfl

theorem trim_space_append (ws rest : Str) (hws : ∀ c ∈ ws, isJsSpace c = true) :
    trim (ws ++ rest) = trim rest := by
  induction ws with
  | nil => rfl
  | cons c cs ih =>
    rw [List.cons_append, trim_space_cons c _ (hws c (List.mem_cons_self _ _)),
      ih (fun x hx => hws x (List.mem_cons_of_mem _ hx))]

theorem includes_marker_line (ws marker rest : Str) :
    includes (ws ++ marker ++ rest) marker = true := by
  rw [includes_iff]
  exact ⟨ws, rest, rfl⟩


/-- C12, as stated, fails: text before the marker is kept, and a line that
also contains `TOTAL:` is not scanned for the feedback at all. -/
theorem parseMarkingResponse_feedback_prefix :
    (parseMarkingResponse "Note FEEDBACK: good work".toList).feedback =
      some "Note  good work".toList ∧
    (parseMarkingResponse "Note FEEDBACK: good work".toList).feedback ≠
      some "good work".toList ∧
    (parseMarkingResponse "TOTAL: 5/100 FEEDBACK: good work".toList).feedback = none ∧
    (parseMarkingResponse "FEEDBACK: fine IMPROVEMENT: algebra".toList).improvement = none := by
  decide

/-- C12, amended: when a line of the text reads white space, `FEEDBACK:`,
then `rest`, contains neither `TOTAL:` nor `PERCENTAGE:`, and no later line
captures the feedback, feedback is `rest` trimmed; likewise for a line that
reads white space, `IMPROVEMENT:`, then `rest` and contains none of `TOTAL:`,
`PERCENTAGE:` and `FEEDBACK:`. -/
theorem parseMarkingResponse_feedback (text : Str) (pre post : List Str) (ws rest : Str)
    (hws : ∀ c ∈ ws, isJsSpace c = true)
    (hlines : split text "\n".toList = pre ++ (ws ++ "FEEDBACK:".toList ++ rest) :: post)
    (hT : includes (ws ++ "FEEDBACK:".toList ++ rest) "TOTAL:".toList = false)
    (hP : includes (ws ++ "FEEDBACK:".toList ++ rest) "PERCENTAGE:".toList = false)
    (hpost : ∀ l ∈ post, feedbackLine l = false) :
    (parseMarkingResponse text).feedback = some (trim rest) ∧
    (∀ (text' : Str) (pre' post' : List Str) (ws' rest' : Str),
      (∀ c ∈ ws', isJsSpace c = true) →
      split text' "\n".toList = pre' ++ (ws' ++ "IMPROVEMENT:".toList ++ rest') :: post' →
      includes (ws' ++ "IMPROVEMENT:".toList ++ rest') "TOTAL:".toList = false →
      includes (ws' ++ "IMPROVEMENT:".toList ++ rest') "PERCENTAGE:".toList = false →
      includes (ws' ++ "IMPROVEMENT:".toList ++ rest') "FEEDBACK:".toList = false →
      (∀ l ∈ post', improvementLine l = false) →
      (parseMarkingResponse text').improvement = some (trim rest')) := by
  constructor
  · have hline : feedbackLine (ws ++ "FEEDBACK:".toList ++ rest) = true := by
      unfold feedbackLine
      rw [hT, hP, includes_marker_line]
      rfl
    have hrem := removeFirst_after_space 'F' "EEDBACK:".toList ws rest (by decide) hws
    have e : 'F' :: "EEDBACK:".toList = "FEEDBACK:".toList := rfl
    rw [e] at hrem
    unfold parseMarkingResponse
    rw [hlines, List.foldl_append, List.foldl_cons, foldl_feedback_keep _ _ hpost,
      markingLine_feedback _ _ hline, hrem, trim_space_append ws rest hws]
  · intro text' pre' post' ws' rest' hws' hlines' hT' hP' hF' hpost'
    have hline : improvementLine (ws' ++ "IMPROVEMENT:".toList ++ rest') = true := by
      unfold improvementLine
      rw [hT', hP', hF', includes_marker_line]
      rfl
    have hrem := removeFirst_after_space 'I' "MPROVEMENT:".toList ws' rest' (by decide) hws'
    have e : 'I' :: "MPROVEMENT:".toList = "IMPROVEMENT:".toList := rfl
    rw [e] at hrem
    unfold parseMarkingResponse
    rw [hlines', List.foldl_append, List.foldl_cons, foldl_improvement_keep _ _ hpost',
      markingLine_improvement _ _ hline, hrem, trim_space_append ws' rest' hws']

/-- Witness of C12 (amended): a feedback line after the two score lines. -/
theorem parseMarkingResponse_feedback_witness :
    (parseMarkingResponse
      "TOTAL: 82/100\nPERCENTAGE: 82%\n  FEEDBACK: Good work \nIMPROVEMENT: Algebra".toList).feedback =
      some (trim " Good work ".toList) ∧
    trim " Good work ".toList = "Good work".toList :=
  ⟨(parseMarkingResponse_feedback
      "TOTAL: 82/100\nPERCENTAGE: 82%\n  FEEDBACK: Good work \nIMPROVEMENT: Algebra".toList
      ["TOTAL: 82/100".toList, "PERCENTAGE: 82%".toList] ["IMPROVEMENT: Algebra".toList]
      "  ".toList " Good work ".toList (by decide) (by decide) (by decide) (by decide)
      (by decide)).1, by decide⟩

/-! ## Lemmas and theorems on optional symposium tags -/

theorem matchTag_nil (letter : Char) : matchTag letter [] = none := rfl

theorem matchTag_other (letter c : Char) (r : Str) (hc : c ≠ letter) :
    matchTag letter ('[' :: c :: r) = none := by
  simp [matchTag, hc]

theorem matchTag_segmentEnd (letter : Char) (hl : letter ≠ 'Q') (rest : Str)
    (hrest : SegmentEnd rest) : matchTag letter rest = none := by
  rcases hrest with rfl | ⟨r, rfl⟩
  · rfl
  · exact matchTag_other letter 'Q' r (Ne.symm hl)

theorem tailD_segmentEnd (rest : Str) (hrest : SegmentEnd rest) :
    tailD rest = some (none, rest) := by
  simp [tailD, matchTag_segmentEnd 'D' (by decide) rest hrest, lookEnd_segmentEnd rest hrest]

theorem tailD_opt (d : Option (Str × Str)) (hd : WellFormedTag d) (rest : Str)
    (hrest : SegmentEnd rest) :
    tailD (optTagText 'D' d ++ rest) = some (tagGroup d, rest) := by
  cases d with
  | none => exact tailD_segmentEnd rest hrest
  | some p =>
    obtain ⟨dn, x⟩ := p
    have := tailD_segment dn x rest hd.1 hd.2 hrest
    simpa [optTagText, tagGroup] using this

/-- The `D` part and what follows it never start with a `T` tag. -/
theorem matchTag_T_optD (d : Option (Str × Str)) (rest : Str) (hrest : SegmentEnd rest) :
    matchTag 'T' (optTagText 'D' d ++ rest) = none := by
  cases d with
  | none => exact matchTag_segmentEnd 'T' (by decide) rest hrest
  | some p => exact matchTag_other 'T' 'D' _ (by decide)

theorem tailT_opt (t d : Option (Str × Str)) (ht : WellFormedTag t) (hd : WellFormedTag d)
    (rest : Str) (hrest : SegmentEnd rest) :
    tailT (optTagText 'T' t ++ (optTagText 'D' d ++ rest)) =
      some (tagGroup t, tagGroup d, rest) := by
  cases t with
  | none =>
    have h1 := matchTag_T_optD d rest hrest
    have h2 := tailD_opt d hd rest hrest
    show tailT ([] ++ (optTagText 'D' d ++ rest)) = _
    rw [List.nil_append]
    unfold tailT
    rw [h1, h2]
    rfl
  | some p =>
    obtain ⟨tn, x⟩ := p
    have h1 := matchTag_tag 'T' tn (x ++ (optTagText 'D' d ++ rest)) ht.1.1 ht.1.2
    have h2 := lazyAny_text tailD x _ _
      (fun c hc r => tailD_of_ne c r (ne_of_not_mem ht.2 c hc)) (tailD_opt d hd rest hrest)
    have e : optTagText 'T' (some (tn, x)) ++ (optTagText 'D' d ++ rest) =
        '[' :: 'T' :: (tn ++ ']' :: (x ++ (optTagText 'D' d ++ rest))) := by
      show '[' :: 'T' :: (tn ++ ']' :: x) ++ (optTagText 'D' d ++ rest) = _
      simp
    rw [e]
    unfold tailT
    rw [h1]
    simp only [Option.some_bind]
    rw [h2]
    rfl

theorem optSegmentText_eq (s : OptSegment) (rest : Str) :
    optSegmentText s ++ rest =
      '[' :: 'Q' :: (s.qn ++ ']' :: (s.q ++ '[' :: 'A' :: (s.an ++ ']' :: (s.a ++
        (optTagText 'T' s.t ++ (optTagText 'D' s.d ++ rest)))))) := by
  simp [optSegmentText]

theorem matchAt_opt (s : OptSegment) (hs : WellFormedOpt s) (rest : Str)
    (hrest : SegmentEnd rest) :
    matchAt (optSegmentText s ++ rest) =
      some { g1 := s.qn, g2 := s.q, g3 := s.a, g4 := tagGroup s.t, g5 := tagGroup s.d,
             rest := rest } := by
  obtain ⟨hqn, han, hq, ha, ht, hd⟩ := hs
  have h1 := matchTag_tag 'Q' s.qn (s.q ++ '[' :: 'A' :: (s.an ++ ']' :: (s.a ++
        (optTagText 'T' s.t ++ (optTagText 'D' s.d ++ rest))))) hqn.1 hqn.2
  have h2 := matchTag_tag 'A' s.an (s.a ++
        (optTagText 'T' s.t ++ (optTagText 'D' s.d ++ rest))) han.1 han.2
  have h3 := lazyAny_text tailT s.a _ _
    (fun c hc r => tailT_of_ne c r (ne_of_not_mem ha c hc))
    (tailT_opt s.t s.d ht hd rest hrest)
  have h4 := lazyAny_text
    (fun s2 => (matchTag 'A' s2).bind fun a => lazyAny tailT a.2 []) s.q
    ('[' :: 'A' :: (s.an ++ ']' :: (s.a ++
        (optTagText 'T' s.t ++ (optTagText 'D' s.d ++ rest)))))
    (s.a, tagGroup s.t, tagGroup s.d, rest)
    (fun c hc r => by simp [matchTag_of_ne _ c r (ne_of_not_mem hq c hc)])
    (by simp [h2, h3])
  rw [optSegmentText_eq]
  unfold matchAt
  rw [h1]
  simp only [Option.some_bind]
  rw [h4]
  rfl

theorem symRecord_opt (s : OptSegment) (hs : WellFormedOpt s) (rest : Str) :
    symRecord { g1 := s.qn, g2 := s.q, g3 := s.a, g4 := tagGroup s.t, g5 := tagGroup s.d,
                rest := rest } = expectedOpt s := by
  simp only [symRecord, expectedOpt, parseInt_digits s.qn hs.1.1 hs.1.2]

theorem optText_segmentEnd (segs : List OptSegment) : SegmentEnd (optText segs) := by
  cases segs with
  | nil => exact Or.inl rfl
  | cons s rest =>
    right
    rw [optText, optSegmentText_eq]
    exact ⟨_, rfl⟩

theorem symLoop_opt (count : Nat) (s : OptSegment) (hs : WellFormedOpt s) (rest : Str)
    (hrest : SegmentEnd rest) (questions : List SymposiumQuestion) :
    symLoop count (optSegmentText s ++ rest) 0 questions =
      if questions.length < count then
        symLoop count rest 0 (questions ++ [expectedOpt s])
      else questions := by
  have hm := matchAt_opt s hs rest hrest
  have hrec := symRecord_opt s hs rest
  obtain ⟨tl, htl⟩ : ∃ tl, optSegmentText s = '[' :: tl := ⟨_, by
    have := optSegmentText_eq s []
    rw [List.append_nil] at this
    exact this⟩
  rw [htl] at hm ⊢
  rw [List.cons_append] at hm ⊢
  simp only [symLoop, hm, hrec]
  split
  · have e : ('[' :: (tl ++ rest)).length - rest.length - 1 = tl.length := by
      simp only [List.length_cons, List.length_append]
      omega
    rw [e, symLoop_skip]
  · rfl

theorem symLoop_optText (count : Nat) (segs : List OptSegment)
    (hwf : ∀ s ∈ segs, WellFormedOpt s) (questions : List SymposiumQuestion) :
    symLoop count (optText segs) 0 questions =
      questions ++ (segs.take (count - questions.length)).map expectedOpt := by
  induction segs generalizing questions with
  | nil => simp [optText, symLoop]
  | cons s rest ih =>
    have hs := hwf s (List.mem_cons_self _ _)
    have hr : ∀ s' ∈ rest, WellFormedOpt s' := fun x hx => hwf x (List.mem_cons_of_mem _ hx)
    rw [optText, symLoop_opt count s hs _ (optText_segmentEnd rest)]
    split
    · rename_i hlt
      rw [ih hr]
      obtain ⟨k, hk⟩ : ∃ k, count - questions.length = k + 1 :=
        ⟨count - questions.length - 1, by omega⟩
      have hk' : count - (questions ++ [expectedOpt s]).length = k := by
        simp; omega
      rw [hk, hk']
      simp
    · rename_i hge
      have : count - questions.length = 0 := by omega
      simp [this]


theorem digitValue_of_not_digit {c : Char} (h : isDigit c = false) : digitValue 10 c = none := by
  simp only [isDigit, Bool.and_eq_false_iff, decide_eq_false_iff_not] at h
  unfold digitValue
  simp only
  split
  · rename_i h1
    omega
  · split
    · rename_i h1 h2
      have : ¬ (c.toNat - 87 < 10) := by omega
      simp [Option.filter, this]
    · split
      · rename_i h1 h2 h3
        have : ¬ (c.toNat - 55 < 10) := by omega
        simp [Option.filter, this]
      · rfl

/-- A run of digits between white space is read by `parseInt` as the Number
value of the number written. -/
theorem parseInt_padded (ws ds tl : Str) (hws : ∀ c ∈ ws, isJsSpace c = true) (hne : ds ≠ [])
    (hds : ∀ c ∈ ds, isDigit c = true) (htl : ∀ c, tl.head? = some c → isJsSpace c = true) :
    parseInt (ws ++ ds ++ tl) = numberValue false (digitsValue 10 ds) := by
  have hsp : ∀ c, isJsSpace c = true → isDigit c = false := by
    intro c hc
    cases hd : isDigit c with
    | false => rfl
    | true => rw [isDigit_not_space hd] at hc; cases hc
  cases ds with
  | nil => exact absurd rfl hne
  | cons c cs =>
    have hc : isDigit c = true := hds c (List.mem_cons_self _ _)
    have htrim : trimStart (ws ++ (c :: cs) ++ tl) = c :: (cs ++ tl) := by
      unfold trimStart
      rw [List.append_assoc, List.dropWhile_append_of_pos hws]
      simp [List.dropWhile, isDigit_not_space hc]
    have hminus : c ≠ '-' := isDigit_ne hc (by decide)
    have hplus : c ≠ '+' := isDigit_ne hc (by decide)
    have hsign : stripSign (c :: (cs ++ tl)) = (false, c :: (cs ++ tl)) := by
      simp [stripSign, hminus, hplus]
    have hhex : stripHex (c :: (cs ++ tl)) = (10, c :: (cs ++ tl)) := by
      cases hrest : cs ++ tl with
      | nil => rfl
      | cons d r =>
        have hd : isDigit d = true ∨ isJsSpace d = true := by
          cases cs with
          | nil =>
            right
            apply htl
            rw [List.nil_append] at hrest
            rw [hrest]
            rfl
          | cons d' cs' =>
            left
            rw [List.cons_append] at hrest
            have : d' = d := (List.cons.inj hrest).1
            exact this ▸ hds d' (by simp)
        have h1 : d ≠ 'x' := by
          rcases hd with hd | hd
          · exact isDigit_ne hd (by decide)
          · intro e; rw [e] at hd; exact absurd hd (by decide)
        have h2 : d ≠ 'X' := by
          rcases hd with hd | hd
          · exact isDigit_ne hd (by decide)
          · intro e; rw [e] at hd; exact absurd hd (by decide)
        simp [stripHex, h1, h2]
    have htake : (c :: (cs ++ tl)).takeWhile (fun c => (digitValue 10 c).isSome) = c :: cs := by
      have h1 : ∀ x ∈ c :: cs, (fun c => (digitValue 10 c).isSome) x = true := by
        intro x hx
        simp [isDigit_digitValue (hds x hx)]
      rw [← List.cons_append, List.takeWhile_append_of_pos h1]
      cases tl with
      | nil => simp
      | cons d r =>
        have hd := digitValue_of_not_digit (hsp d (htl d rfl))
        simp [List.takeWhile, hd]
    simp only [parseInt, htrim, hsign, hhex, htake]
    simp

theorem symLoop_mem (count : Nat) (s : Str) (skip : Nat) (questions : List SymposiumQuestion)
    (h : ∀ r ∈ questions, ∃ t m, matchAt t = some m ∧ r = symRecord m) :
    ∀ r ∈ symLoop count s skip questions, ∃ t m, matchAt t = some m ∧ r = symRecord m := by
  induction s generalizing skip questions with
  | nil => simpa [symLoop] using h
  | cons c cs ih =>
    cases skip with
    | succ k => simpa [symLoop] using ih k questions h
    | zero =>
      simp only [symLoop]
      split
      · rename_i m hm
        split
        · apply ih
          intro r hr
          rcases List.mem_append.1 hr with hr | hr
          · exact h r hr
          · simp only [List.mem_singleton] at hr
            exact ⟨c :: cs, m, hm, hr⟩
        · exact h
      · exact ih 0 questions h

theorem symRecord_groups (m : SymMatch) :
    (m.g4 = none → (symRecord m).timeLimit = .integer false 90) ∧
    (∀ x, m.g4 = some x →
      (symRecord m).timeLimit = if x = [] then .integer false 90 else parseInt x) ∧
    (m.g5 = none → (symRecord m).difficulty = "medium".toList) := by
  refine ⟨?_, ?_, ?_⟩
  · intro h
    simp [symRecord, h]
  · intro x h
    cases x with
    | nil => simp [symRecord, h, truthy]
    | cons c r => simp [symRecord, h, truthy]
  · intro h
    simp only [symRecord, h]

theorem expectedOpt_groups (s : OptSegment) :
    (s.t = none → (expectedOpt s).timeLimit = .integer false 90) ∧
    (∀ n x, s.t = some (n, x) →
      (expectedOpt s).timeLimit = if x = [] then .integer false 90 else parseInt x) ∧
    (s.d = none → (expectedOpt s).difficulty = "medium".toList) := by
  refine ⟨?_, ?_, ?_⟩
  · intro h
    simp [expectedOpt, h, tagGroup]
  · intro n x h
    cases x with
    | nil => simp [expectedOpt, h, tagGroup, truthy]
    | cons c r => simp [expectedOpt, h, tagGroup, truthy]
  · intro h
    simp only [expectedOpt, h, tagGroup, Option.map_none']

/-- C13, as stated, fails: when the text after the `[T<n>]` tag is not a
number, timeLimit is `NaN`. -/
theorem parseSymposiumQuestions_timeLimit_nan :
    (parseSymposiumQuestions "[Q1] Name it [A1] Osmosis [T1] soon [D1] hard".toList 5).map
      (fun r => (r.id, r.timeLimit)) = [(.integer false 1, .nan)] := by
  decide

/-- C13, amended: in a text made of segments `[Q..]q[A..]a` followed by an
optional `[T..]t` and then an optional `[D..]d` (digits in the tags, no `[` in
the texts) the records are those of the segments in order; timeLimit is 90
when the segment has no `[T..]` tag or nothing after it and otherwise
`parseInt` of the text after the tag, and difficulty is `medium` when the
segment has no `[D..]` tag.  For every text and count a record comes from a
match of the expression and obeys the same rule on the groups of the match.
`parseInt` gives the Number value of the number written for digits between
white space, which is that number below `2 ^ 53` and the nearest double in
general; on other texts it can be `NaN`. -/
theorem parseSymposiumQuestions_timeLimit (segs : List OptSegment) (count : Nat)
    (hwf : ∀ s ∈ segs, WellFormedOpt s) :
    parseSymposiumQuestions (optText segs) count = (segs.take count).map expectedOpt ∧
    (∀ (i : Nat) (s : OptSegment), i < count → segs[i]? = some s →
      ∃ r, (parseSymposiumQuestions (optText segs) count)[i]? = some r ∧
        (s.t = none → r.timeLimit = .integer false 90) ∧
        (∀ n x, s.t = some (n, x) →
          r.timeLimit = if x = [] then .integer false 90 else parseInt x) ∧
        (s.d = none → r.difficulty = "medium".toList)) ∧
    (∀ (text : Str) (n : Nat), ∀ r ∈ parseSymposiumQuestions text n,
      ∃ t m, matchAt t = some m ∧ r = symRecord m ∧
        (m.g4 = none → r.timeLimit = .integer false 90) ∧
        (∀ x, m.g4 = some x →
          r.timeLimit = if x = [] then .integer false 90 else parseInt x) ∧
        (m.g5 = none → r.difficulty = "medium".toList)) ∧
    (∀ ws ds tl : Str, (∀ c ∈ ws, isJsSpace c = true) → ds ≠ [] →
      (∀ c ∈ ds, isDigit c = true) → (∀ c, tl.head? = some c → isJsSpace c = true) →
      parseInt (ws ++ ds ++ tl) = numberValue false (digitsValue 10 ds) ∧
      (digitsValue 10 ds < 2 ^ 53 →
        parseInt (ws ++ ds ++ tl) = .integer false (digitsValue 10 ds))) := by
  have hres : parseSymposiumQuestions (optText segs) count =
      (segs.take count).map expectedOpt := by
    unfold parseSymposiumQuestions
    rw [symLoop_optText count segs hwf []]
    simp
  refine ⟨hres, ?_, ?_, ?_⟩
  · intro i s hi hs
    refine ⟨expectedOpt s, ?_, expectedOpt_groups s⟩
    rw [hres, List.getElem?_map, List.getElem?_take_of_lt hi, hs]
    rfl
  · intro text n r hr
    obtain ⟨t, m, hm, rfl⟩ := symLoop_mem n text 0 [] (by simp) r hr
    exact ⟨t, m, hm, rfl, symRecord_groups m⟩
  · intro ws ds tl hws hne hds htl
    have h := parseInt_padded ws ds tl hws hne hds htl
    exact ⟨h, fun hlt => h.trans (numberValue_exact false _ hlt)⟩

/-- Witness of C13 (amended): a segment without `T` and `D` tags, then one
with both. -/
theorem parseSymposiumQuestions_timeLimit_witness :
    parseSymposiumQuestions (optText sampleOptSegments) 5 =
      (sampleOptSegments.take 5).map expectedOpt ∧
    (sampleOptSegments.map expectedOpt).map (fun r => (r.timeLimit, String.mk r.difficulty)) =
      [(.integer false 90, "medium"), (.integer false 45, "hard")] :=
  ⟨(parseSymposiumQuestions_timeLimit sampleOptSegments 5 (by decide)).1, by decide⟩

/-! ## Lemmas and theorems on the fallback of generateQuiz -/

set_option maxRecDepth 20000 in
theorem fallback_text (topic : Str) (count : Nat) (difficulty : Str) :
    getLocalResponse (quizPrompt topic count difficulty) (quizOptions topic count) =
      fallbackHead (numberText count) topic (numberText ((3 * count + 9) / 10)) difficulty ++
        "---".toList ++ (fallbackExample ++ "---".toList ++ fallbackTail) := by
  simp [getLocalResponse, quizPrompt, quizOptions, fallbackHead, fallbackExample, fallbackTail,
    interp]


/-! ### The digits of a number -/

theorem digitChar_isDigit (k : Nat) (h : k < 10) : isDigit (Nat.digitChar k) = true := by
  interval_cases k <;> decide

theorem toDigitsCore_isDigit (fuel n : Nat) (ds : Str) (h : ∀ c ∈ ds, isDigit c = true) :
    ∀ c ∈ Nat.toDigitsCore 10 fuel n ds, isDigit c = true := by
  induction fuel generalizing n ds with
  | zero => simpa [Nat.toDigitsCore] using h
  | succ f ih =>
    have hd : isDigit (Nat.digitChar (n % 10)) = true :=
      digitChar_isDigit _ (Nat.mod_lt _ (by decide))
    have hcons : ∀ c ∈ Nat.digitChar (n % 10) :: ds, isDigit c = true := by
      intro c hc
      rcases List.mem_cons.1 hc with rfl | hc
      · exact hd
      · exact h c hc
    simp only [Nat.toDigitsCore]
    split
    · exact hcons
    · exact ih (n / 10) _ hcons

theorem numberText_isDigit (n : Nat) : ∀ c ∈ numberText n, isDigit c = true :=
  toDigitsCore_isDigit (n + 1) n [] (by simp)

/-! ### The delimiter after a block that does not end in a dash -/

theorem startsWith_dashes_before (a : Char) (y t : Str) (c : Char) (hc : c ≠ '-')
    (hlast : (a :: y).getLast? = some c)
    (h : startsWith (a :: y) "---".toList = false) :
    startsWith (a :: (y ++ t)) "---".toList = false := by
  have e : "---".toList = ['-', '-', '-'] := rfl
  rw [e] at h ⊢
  match y, hlast with
  | [], hlast =>
    have : a = c := by simpa using hlast
    simp [startsWith, List.isPrefixOf, this, Ne.symm hc]
  | [b], hlast =>
    have : b = c := by simpa using hlast
    simp [startsWith, List.isPrefixOf, this, Ne.symm hc]
  | b :: b' :: y', _ => simpa [startsWith, List.isPrefixOf] using h

/-- A block that does not contain the delimiter and does not end in a dash is
cut off at the delimiter that follows it. -/
theorem splitGo_dashes_after (y acc rest : Str) (c : Char) (hc : c ≠ '-')
    (hlast : y.getLast? = some c) (h : includes y "---".toList = false) :
    splitGo "---".toList (y ++ ("---".toList ++ rest)) 0 acc =
      (acc.reverse ++ y) :: splitGo "---".toList rest 0 [] := by
  have e : "---".toList = ['-', '-', '-'] := rfl
  induction y generalizing acc with
  | nil => simp at hlast
  | cons a y' ih =>
    simp only [includes, Bool.or_eq_false_iff] at h
    have hs := startsWith_dashes_before a y' ("---".toList ++ rest) c hc hlast h.1
    rw [List.cons_append, splitGo_cons_of_not_startsWith _ _ _ _ hs]
    cases y' with
    | nil =>
      rw [List.nil_append, e]
      simp [splitGo, startsWith, List.isPrefixOf]
    | cons b y'' =>
      have hlast' : (b :: y'').getLast? = some c := by
        simpa [List.getLast?_cons_cons] using hlast
      rw [ih (a :: acc) hlast' h.2]
      simp

/-! ### Lines that leave the question empty -/

theorem splitGo_line_start (c : Char) (s acc : Str) :
    ∀ l ∈ splitGo "\n".toList s 0 acc, startsWith l [c] = true →
      startsWith (acc.reverse ++ s) [c] = true ∨ includes s ['\n', c] = true := by
  have e : "\n".toList = ['\n'] := rfl
  induction s generalizing acc with
  | nil =>
    intro l hl hs
    simp only [splitGo, List.mem_singleton] at hl
    subst hl
    left
    simpa using hs
  | cons d s' ih =>
    intro l hl hs
    by_cases hd : d = '\n'
    · subst hd
      have hsw : startsWith ('\n' :: s') "\n".toList = true := by
        rw [e]; simp [startsWith]
      simp only [splitGo, hsw, if_true] at hl
      rcases List.mem_cons.1 hl with hl | hl
      · subst hl
        left
        cases hrev : acc.reverse with
        | nil => rw [hrev] at hs; simp [startsWith] at hs
        | cons x xs =>
          rw [hrev] at hs
          simpa [startsWith, List.isPrefixOf] using hs
      · have hlen : "\n".toList.length - 1 = 0 := rfl
        rw [hlen] at hl
        right
        rcases ih [] l hl hs with h | h
        · simp only [List.reverse_nil, List.nil_append] at h
          cases s' with
          | nil => simp [startsWith] at h
          | cons x xs =>
            have hx : c = x := by
              simpa [startsWith, List.isPrefixOf] using h
            subst hx
            simp [includes, startsWith, List.isPrefixOf]
        · simp [includes, h]
    · have hsw : startsWith (d :: s') "\n".toList = false := by
        rw [e]; simp [startsWith, List.isPrefixOf, Ne.symm hd]
      rw [splitGo_cons_of_not_startsWith _ _ _ _ hsw] at hl
      rcases ih (d :: acc) l hl hs with h | h
      · left
        simpa using h
      · right
        simp [includes, h]

theorem quizLine_question_keep (f : QuizFields) (line : Str)
    (h1 : startsWith line "Q".toList = false) (h2 : includes line "?".toList = false) :
    (quizLine f line).question = f.question := by
  unfold quizLine
  rw [h1, h2]
  simp only [Bool.or_self, Bool.false_eq_true, if_false]
  split
  · rfl
  · split <;> rfl

theorem foldl_question_keep (lines : List Str) (f : QuizFields)
    (h : ∀ l ∈ lines, startsWith l "Q".toList = false ∧ includes l "?".toList = false) :
    (lines.foldl quizLine f).question = f.question := by
  induction lines generalizing f with
  | nil => rfl
  | cons l rest ih =>
    have hl := h l (List.mem_cons_self _ _)
    rw [List.foldl_cons, ih _ (fun x hx => h x (List.mem_cons_of_mem _ hx)),
      quizLine_question_keep f l hl.1 hl.2]

/-- A block without a question mark in which no line starts with `Q` yields no
question. -/
theorem quizFields_question_nil (b : Str) (h1 : '?' ∉ b)
    (h2 : startsWith b "Q".toList = false) (h3 : includes b "\nQ".toList = false) :
    (quizFields b).question = [] := by
  unfold quizFields
  rw [foldl_question_keep]
  intro l hl
  have hl' : l ∈ split b "\n".toList := (List.mem_filter.1 hl).1
  constructor
  · cases hs : startsWith l "Q".toList with
    | false => rfl
    | true =>
      have := splitGo_line_start 'Q' b [] l hl' hs
      simp only [List.reverse_nil, List.nil_append] at this
      rcases this with h | h
      · have e : "Q".toList = ['Q'] := rfl
        rw [e, h] at h2
        cases h2
      · have e : "\nQ".toList = ['\n', 'Q'] := rfl
        rw [e, h] at h3
        cases h3
  · have e : "?".toList = ['?'] := rfl
    rw [e, includes_singleton]
    intro hmem
    exact h1 ((split_piece_sub b _ l hl').subset hmem)


/-! ### The first block of the fallback text -/

/-- A pattern without a space and a quote occurs in the first block only
inside one of its four variable texts or inside its fixed text. -/
theorem includes_fallbackHead (p n topic m d : Str) (h1 : ' ' ∉ p) (h2 : '"' ∉ p) (hne : p ≠ [])
    (hfix : includes (fallbackHead [] [] [] []) p = false)
    (hn : includes n p = false) (htopic : includes topic p = false)
    (hm : includes m p = false) (hd : includes (d ++ ['\n']) p = false) :
    includes (fallbackHead n topic m d) p = false := by
  unfold fallbackHead at hfix ⊢
  simp only [includes_append_sep p _ _ ' ' h1 hne, includes_append_sep p _ _ '"' h2 hne,
    Bool.or_eq_false_iff] at hfix ⊢
  obtain ⟨k0, -, k1, -, k2, -, k3, -, k4⟩ := hfix
  exact ⟨k0, hn, k1, htopic, k2, hm, k3, hd, k4⟩

theorem includes_snoc_newline (d : Str) (c : Char) (hd : '\n' ∉ d) :
    includes (d ++ ['\n']) ['\n', c] = false := by
  induction d with
  | nil => simp [includes, startsWith, List.isPrefixOf]
  | cons a d' ih =>
    have ha : a ≠ '\n' := fun e => hd (by simp [e])
    have hd' : '\n' ∉ d' := fun h => hd (List.mem_cons_of_mem _ h)
    rw [List.cons_append]
    simp [includes, startsWith, List.isPrefixOf, Ne.symm ha, ih hd']

theorem isDigit_forall_ne (n : Str) (c : Char) (hn : ∀ x ∈ n, isDigit x = true)
    (hc : isDigit c = false) : ∀ x ∈ n, x ≠ c :=
  fun x hx => isDigit_ne (hn x hx) hc

set_option maxRecDepth 20000 in
theorem fallbackHead_no_dashes (n topic m d : Str) (hn : ∀ x ∈ n, isDigit x = true)
    (hm : ∀ x ∈ m, isDigit x = true) (htopic : Harmless topic) (hd : Harmless d) :
    includes (fallbackHead n topic m d) "---".toList = false := by
  have e : "---".toList = ['-', '-', '-'] := rfl
  have ht := htopic.2.2
  have hd' := hd.2.2
  rw [e] at ht hd' ⊢
  apply includes_fallbackHead _ _ _ _ _ (by decide) (by decide) (by decide) (by decide)
    (includes_of_forall_ne n '-' _ (isDigit_forall_ne n '-' hn (by decide))) ht
    (includes_of_forall_ne m '-' _ (isDigit_forall_ne m '-' hm (by decide)))
  rw [includes_append_sep _ d [] '\n' (by decide) (by decide), hd']
  rfl

set_option maxRecDepth 20000 in
theorem fallbackHead_no_line_Q (n topic m d : Str) (hn : ∀ x ∈ n, isDigit x = true)
    (hm : ∀ x ∈ m, isDigit x = true) (htopic : Harmless topic) (hd : Harmless d) :
    includes (fallbackHead n topic m d) "\nQ".toList = false := by
  have e : "\nQ".toList = ['\n', 'Q'] := rfl
  rw [e]
  exact includes_fallbackHead _ _ _ _ _ (by decide) (by decide) (by decide) (by decide)
    (includes_of_forall_ne n '\n' _ (isDigit_forall_ne n '\n' hn (by decide)))
    (includes_of_forall_ne topic '\n' _ (fun x hx e => htopic.2.1 (e ▸ hx)))
    (includes_of_forall_ne m '\n' _ (isDigit_forall_ne m '\n' hm (by decide)))
    (includes_snoc_newline d 'Q' hd.2.1)

set_option maxRecDepth 20000 in
theorem fallbackHead_no_question_mark (n topic m d : Str) (hn : ∀ x ∈ n, isDigit x = true)
    (hm : ∀ x ∈ m, isDigit x = true) (htopic : Harmless topic) (hd : Harmless d) :
    '?' ∉ fallbackHead n topic m d := by
  rw [← includes_singleton]
  apply includes_fallbackHead _ _ _ _ _ (by decide) (by decide) (by decide) (by decide)
    (includes_of_forall_ne n '?' _ (isDigit_forall_ne n '?' hn (by decide)))
    ((includes_singleton topic '?').2 htopic.1)
    (includes_of_forall_ne m '?' _ (isDigit_forall_ne m '?' hm (by decide)))
  rw [includes_singleton]
  simp [hd.1]

theorem quizBlock_fallbackHead (n topic m d : Str) (hn : ∀ x ∈ n, isDigit x = true)
    (hm : ∀ x ∈ m, isDigit x = true) (htopic : Harmless topic) (hd : Harmless d)
    (index : Nat) : quizBlock (fallbackHead n topic m d) index = none := by
  apply quizBlock_eq_none
  apply quizFields_question_nil _ (fallbackHead_no_question_mark n topic m d hn hm htopic hd)
    _ (fallbackHead_no_line_Q n topic m d hn hm htopic hd)
  simp [fallbackHead, startsWith, List.isPrefixOf]


/-! ### The fallback text of a quiz request -/

theorem getLast_append_cons (x y : Str) (c : Char) :
    (x ++ c :: y).getLast? = (c :: y).getLast? := by
  induction x with
  | nil => rfl
  | cons a x' ih =>
    cases x' with
    | nil => simp [List.getLast?_cons_cons]
    | cons b x'' => simpa [List.getLast?_cons_cons] using ih

theorem getLast_cons_append_cons (x y : Str) (c d : Char) :
    (c :: (x ++ d :: y)).getLast? = (d :: y).getLast? := by
  rw [← List.cons_append, getLast_append_cons]

theorem fallbackHead_getLast (n topic m d : Str) :
    (fallbackHead n topic m d).getLast? = some '"' := by
  unfold fallbackHead
  simp only [getLast_append_cons, getLast_cons_append_cons]
  decide

theorem fallbackHead_mem (n topic m d : Str) : 'I' ∈ fallbackHead n topic m d := by
  unfold fallbackHead
  exact List.mem_append_left _ (by decide)

set_option maxRecDepth 20000 in
theorem quizBlocks_fallback (n topic m d : Str) (hn : ∀ x ∈ n, isDigit x = true)
    (hm : ∀ x ∈ m, isDigit x = true) (htopic : Harmless topic) (hd : Harmless d) :
    quizBlocks (fallbackHead n topic m d ++ "---".toList ++
      (fallbackExample ++ "---".toList ++ fallbackTail)) =
      [fallbackHead n topic m d, fallbackExample, fallbackTail] := by
  have h1 := splitGo_dashes_after (fallbackHead n topic m d) []
    (fallbackExample ++ ("---".toList ++ fallbackTail)) '"' (by decide)
    (fallbackHead_getLast n topic m d) (fallbackHead_no_dashes n topic m d hn hm htopic hd)
  have h2 := splitGo_dashes_after fallbackExample [] fallbackTail ' ' (by decide) (by decide)
    (by decide)
  have h3 := splitGo_end "---".toList fallbackTail [] (by decide)
  have k1 : truthy (trim (fallbackHead n topic m d)) = true :=
    truthy_trim_of_mem _ 'I' (fallbackHead_mem n topic m d) (by decide)
  have k2 : truthy (trim fallbackExample) = true := by decide
  have k3 : truthy (trim fallbackTail) = true := by decide
  unfold quizBlocks split
  rw [List.append_assoc, List.append_assoc fallbackExample, h1, h2, h3]
  simp only [List.reverse_nil, List.nil_append, List.filter_cons, k1, k2, k3, if_true,
    List.filter_nil]

set_option maxRecDepth 20000 in
/-- The quiz extractor on the fallback text of a quiz request. -/
theorem parseQuizResponse_fallback (topic : Str) (count : Nat) (difficulty : Str)
    (htopic : Harmless topic) (hd : Harmless difficulty) :
    parseQuizResponse
      (getLocalResponse (quizPrompt topic count difficulty) (quizOptions topic count)) =
      [exampleQuestion] := by
  have hn := numberText_isDigit count
  have hm := numberText_isDigit ((3 * count + 9) / 10)
  have hA := quizBlock_fallbackHead _ topic _ difficulty hn hm htopic hd 0
  have hB : quizBlock fallbackExample 1 = some exampleQuestion := by decide
  have hC : quizBlock fallbackTail 2 = none := by decide
  unfold parseQuizResponse
  rw [fallback_text, quizBlocks_fallback _ topic _ difficulty hn hm htopic hd]
  simp only [quizLoop, hA, hB, hC]
  rfl

theorem callAI_error_message (config : Config) (fetch : Request → FetchOutcome)
    (history : List Exchange) (userMessage : Str) (options : Options) (e : CallError)
    (h : readReply (fetch (callRequest config history userMessage options)) = .error e) :
    callAI config fetch history userMessage options =
      ({ success := false
         message := some (getLocalResponse userMessage options)
         type := "local_fallback".toList
         tokensUsed := none
         provider := none
         error := some e }, history) := by
  simp [callAI, h, prepareMessages]

set_option maxRecDepth 100000 in
/-- C15, as stated, fails: the difficulty is free text too.  With the
difficulty `hard?` the line `3. Difficulty: hard?` of the embedded prompt is
taken for a question, and two questions are returned. -/
theorem generateQuiz_fallback_difficulty :
    (generateQuiz sampleConfig (fun _ => .rejected "offline".toList) []
      "Photosynthesis".toList (some 10) (some "hard?".toList)).1.toOption =
      some { topic := "Photosynthesis".toList
             questions :=
               [{ id := 1, question := "3. Difficulty: hard?".toList,
                  answer := "Check with teacher".toList,
                  explanation := "No explanation provided".toList, hasDiagram := false },
                exampleQuestion]
             count := 2
             byAI := true } := by
  decide

/-- C15, amended: for every topic and every difficulty that contain no `?`,
no `---` and no line break, and every count, when the completion request fails
`generateQuiz` runs the quiz extractor on the local fallback text, which embeds
its own prompt, and returns exactly one question, not the placeholder: id 2,
question `Q1: What is photosynthesis?`, answer `Check with teacher`,
explanation `No explanation provided`, hasDiagram false; the count field is 1
and the conversation history is unchanged. -/
theorem generateQuiz_fallback (config : Config) (fetch : Request → FetchOutcome)
    (history : List Exchange) (topic : Str) (count : Option Nat) (difficulty : Option Str)
    (htopic : Harmless topic) (hdiff : Harmless (difficulty.getD "medium".toList))
    (hfail : ∃ e, readReply (fetch (callRequest config history
      (quizPrompt topic (count.getD 10) (difficulty.getD "medium".toList))
      (quizOptions topic (count.getD 10)))) = .error e) :
    generateQuiz config fetch history topic count difficulty =
      (.ok { topic := topic
             questions :=
               [{ id := 2, question := "Q1: What is photosynthesis?".toList,
                  answer := "Check with teacher".toList,
                  explanation := "No explanation provided".toList, hasDiagram := false }]
             count := 1
             byAI := true }, history) ∧
    ({ id := 2, question := "Q1: What is photosynthesis?".toList,
       answer := "Check with teacher".toList,
       explanation := "No explanation provided".toList, hasDiagram := false } : QuizQuestion) ≠
      placeholderQuestion := by
  obtain ⟨e, he⟩ := hfail
  have hcall := callAI_error_message config fetch history _ _ e he
  have hparse := parseQuizResponse_fallback topic (count.getD 10)
    (difficulty.getD "medium".toList) htopic hdiff
  refine ⟨?_, by decide⟩
  unfold generateQuiz
  simp only [hcall, hparse]
  rfl

/-- Witness of C15 (amended): the endpoint cannot be reached. -/
theorem generateQuiz_fallback_witness :
    generateQuiz sampleConfig (fun _ => .rejected "offline".toList) []
      "Photosynthesis".toList (some 5) none =
      (.ok { topic := "Photosynthesis".toList
             questions :=
               [{ id := 2, question := "Q1: What is photosynthesis?".toList,
                  answer := "Check with teacher".toList,
                  explanation := "No explanation provided".toList, hasDiagram := false }]
             count := 1
             byAI := true }, []) :=
  (generateQuiz_fallback sampleConfig (fun _ => .rejected "offline".toList) []
    "Photosynthesis".toList (some 5) none (by decide) (by decide) ⟨_, rfl⟩).1

end WeGem
